import Mathlib

/-!
# ANSI escape-sequence parser and screen renderer

A shallow embedding of `ansi.go` (the parser) and `render.go` (the renderer).

Conventions of the embedding.

* Bytes are natural numbers (values below 256 for every real byte).
* Go `int` is modelled as `Int` restricted to 64 bits: every arithmetic
  result is passed through `wrapInt`, two's-complement wrap-around.
* The byte reader is the list of bytes still unread; `ReadByte` fails with
  `io.EOF` when the list is empty.
* A `panic(v)` inside the parser is the `Except.error v` of the parser
  functions; `ParseAll` recovers it as the Go code does.
* Loops that are not structural on their input carry a fuel argument; every
  function that can run out of fuel says so in its result (`none`, or
  `Failure.outOfFuel`), and the fuel handed in by the callers is shown to be
  enough.
* Slices are lists, and a list can have any length below the largest `int`;
  a loop that would have to grow a slice to a length above that does not end,
  and the call that enters it does not return (`Failure.noReturn`).
-/

namespace Ansi

/-! ## Constants and data model (`ansi.go`) -/

def lf : Nat := 10
def cr : Nat := 13
def eof : Nat := 26
def esc : Nat := 27

/-- Blink attribute of a cell (`type Blink byte`; `BlinkNone` is the zero value). -/
inductive Blink
  | BlinkNone
  | BlinkSlow
  | BlinkFast
deriving DecidableEq, Repr

/-- One cell of the character grid (`type Pixel struct`). -/
structure Pixel where
  C : Nat
  BackgroundColor : Nat
  ForegroundColor : Nat
  Blink : Blink
deriving DecidableEq, Repr

/-- The Go zero value `Pixel{}`. -/
def Pixel.zero : Pixel := ⟨0, 0, 0, Blink.BlinkNone⟩

/-- The character grid returned by the renderer (`type Image struct`). -/
structure Image where
  Pix : List Pixel
  Width : Nat
  Height : Nat
deriving DecidableEq, Repr

def ClearTypeToEndOfScreen : Nat := 0
def ClearTypeToBeginningOfScreen : Nat := 1
def ClearTypeScreen : Nat := 2
def ClearTypeScreenAndScrollback : Nat := 3

def GraphicsRenditionReset : Nat := 0
def GraphicsRenditionBold : Nat := 1
def GraphicRenditionBlinkSlow : Nat := 5
def GraphicRenditionBlinkFast : Nat := 6
def GraphicsRenditionSetTextColor0 : Nat := 30
def GraphicsRenditionSetTextColor1 : Nat := 31
def GraphicsRenditionSetTextColor7 : Nat := 37
def GraphicsrenditionDefaultTextColor : Nat := 39
def GraphicsRenditionSetBackgroundColor0 : Nat := 40
def GraphicsRenditionSetBackgroundColor7 : Nat := 47

/-- The values stored in a `[]Sequence`.  `Sequence` is an empty interface in
the source, so a slice may also hold a value of any other dynamic type: that is
`Other`, the `default` branch of the renderer's type switch.  `Clear.Typ` is
the field `Type` of the source (a byte), `SelectGraphicsRendition.N` is a
byte, the cursor counts and coordinates are Go `int`s. -/
inductive Sequence
  | Character (C : Nat)
  | CursorUp (N : Int)
  | CursorDown (N : Int)
  | CursorForward (N : Int)
  | CursorBackward (N : Int)
  | MoveCursorTo (Row : Int) (Col : Int)
  | Clear (Typ : Nat)
  | SaveCursorPosition
  | RestoreCursorPosition
  | SelectGraphicsRendition (N : Nat)
  | Other
deriving DecidableEq, Repr

/-- Go error values that the package creates or passes on.  `EOF` is `io.EOF`;
the others are the `fmt.Errorf` values of `ansi.go` and `render.go`, with the
data that is formatted into the message. -/
inductive Error
  | EOF
  | invalidEscape (found : Nat)
  | unknownEscape (nums : List Int) (ctrl : Nat)
  | failedNumber (buf : List Nat)
  | unhandledClear (typ : Nat)
  | unhandledRendition (n : Nat)
  | unhandledSequence
deriving DecidableEq, Repr

/-! ## Machine integers -/

/-- Largest Go `int` (64-bit platforms). -/
def maxInt : Nat := 2 ^ 63 - 1

/-- Two's-complement wrap-around of a 64-bit `int` result. -/
def wrapInt (x : Int) : Int := (x + 2 ^ 63) % 2 ^ 64 - 2 ^ 63

/-- Conversion `byte(n)` of an `int` (`ClearType(n)`, `GraphicsRendition(n)`). -/
def toByte (n : Int) : Nat := (n % 256).toNat

/-! ## Parser (`ansi.go`) -/

/-- Parser state (`type Parser struct`): `r` is the unread input, `b` the
byte read last. -/
structure Parser where
  r : List Nat
  b : Nat
deriving DecidableEq, Repr

/-- `NewParser`: the current byte is the zero value. -/
def NewParser (r : List Nat) : Parser := ⟨r, 0⟩

/-- `Parser.next`: read one byte into `p.b`, or panic with the reader's error
(`io.EOF` at the end of the input). -/
def Parser.next (p : Parser) : Except Error Parser :=
  match p.r with
  | [] => .error Error.EOF
  | b :: rest => .ok ⟨rest, b⟩

/-- The test `p.b >= '0' && p.b <= '9'`. -/
def isDigit (b : Nat) : Bool := decide (48 ≤ b) && decide (b ≤ 57)

/-- Decimal value of a string of ASCII digits. -/
def digitsValue (buf : List Nat) : Nat :=
  buf.foldl (fun acc d => 10 * acc + (d - 48)) 0

/-- `strconv.Atoi` on a string of ASCII digits: an error for the empty string
and for a value that does not fit in an `int`, the value otherwise. -/
def Atoi (buf : List Nat) : Option Int :=
  if buf = [] then none
  else if digitsValue buf ≤ maxInt then some (Int.ofNat (digitsValue buf))
  else none

/-- The loop of `readNum`: `for p.b >= '0' && p.b <= '9' { buf = append(buf,
p.b); p.next() }`, structural on the unread input. -/
def readDigits : List Nat → Nat → List Nat → Except Error (List Nat × Parser)
  | [], b, buf =>
    if isDigit b then .error Error.EOF else .ok (buf, ⟨[], b⟩)
  | b1 :: r1, b, buf =>
    if isDigit b then readDigits r1 b1 (buf ++ [b]) else .ok (buf, ⟨b1 :: r1, b⟩)

/-- `Parser.readNum`. -/
def Parser.readNum (p : Parser) : Except Error (Int × Parser) :=
  match readDigits p.r p.b [] with
  | .error e => .error e
  | .ok (buf, p1) =>
    match Atoi buf with
    | none => .error (Error.failedNumber buf)
    | some n => .ok (n, p1)

/-- The loop `escLoop` of `ParseAll`, which collects the parameters.  Every
iteration but the last reads at least one byte; `none` means out of fuel. -/
def escLoop : Nat → Parser → List Int → Option (Except Error (List Int × Parser))
  | 0, _, _ => none
  | fuel + 1, p, nums =>
    if p.b = 59 then
      match p.next with
      | .error e => some (.error e)
      | .ok p1 => escLoop fuel p1 (nums ++ [0])
    else if isDigit p.b then
      match p.readNum with
      | .error e => some (.error e)
      | .ok (n, p1) =>
        if p1.b = 59 then
          match p1.next with
          | .error e => some (.error e)
          | .ok p2 => escLoop fuel p2 (nums ++ [n])
        else escLoop fuel p1 (nums ++ [n])
    else some (.ok (nums, p))

/-- The `for i, n := range nums { if n == 0 { nums[i] = 1 } }` of case `H`. -/
def zeroToOne (nums : List Int) : List Int :=
  nums.map (fun n => if n = 0 then 1 else n)

/-- The `for len(nums) < 2 { nums = append(nums, 1) }` of case `H`: one
iteration for each element missing. -/
def padToTwo (nums : List Int) : List Int :=
  nums ++ List.replicate (2 - nums.length) 1

/-- The `switch ctrl` of `ParseAll`: the sequence after the dispatch on the
final byte, or the panic for an unknown final byte. -/
def dispatch (ctrl : Nat) (nums : List Int) (seq : List Sequence) :
    Except Error (List Sequence) :=
  if ctrl = 65 ∨ ctrl = 66 ∨ ctrl = 67 ∨ ctrl = 68 then
    let nums := if nums.length = 0 then nums ++ [1] else nums
    let n := nums.headD 0
    if ctrl = 65 then .ok (seq ++ [Sequence.CursorUp n])
    else if ctrl = 66 then .ok (seq ++ [Sequence.CursorDown n])
    else if ctrl = 67 then .ok (seq ++ [Sequence.CursorForward n])
    else .ok (seq ++ [Sequence.CursorBackward n])
  else if ctrl = 72 then
    let nums := zeroToOne (padToTwo nums)
    .ok (seq ++ [Sequence.MoveCursorTo (nums.getD 0 0) (nums.getD 1 0)])
  else if ctrl = 74 then
    let nums := if nums.length = 0 then nums ++ [0] else nums
    .ok (seq ++ [Sequence.Clear (toByte (nums.headD 0))])
  else if ctrl = 109 then
    let nums := if nums.length = 0 then nums ++ [0] else nums
    .ok (seq ++ nums.map (fun m => Sequence.SelectGraphicsRendition (toByte m)))
  else if ctrl = 115 then .ok (seq ++ [Sequence.SaveCursorPosition])
  else if ctrl = 117 then .ok (seq ++ [Sequence.RestoreCursorPosition])
  else if ctrl = 77 then .ok seq
  else .error (Error.unknownEscape nums ctrl)

/-- The `for` loop of `ParseAll`.  The loop has no normal exit: it ends with a
panic, and the result is the sequence built so far together with the panic
value.  Every iteration reads at least one byte; `none` means out of fuel. -/
def parseLoop : Nat → Parser → List Sequence → Option (List Sequence × Error)
  | 0, _, _ => none
  | fuel + 1, p, seq =>
    match p.next with
    | .error e => some (seq, e)
    | .ok p1 =>
      if p1.b = eof then some (seq, Error.EOF)
      else if p1.b = esc then
        match p1.next with
        | .error e => some (seq, e)
        | .ok p2 =>
          if p2.b ≠ 0x5b then some (seq, Error.invalidEscape p2.b)
          else
            match p2.next with
            | .error e => some (seq, e)
            | .ok p3 =>
              match escLoop (p3.r.length + 1) p3 [] with
              | none => none
              | some (.error e) => some (seq, e)
              | some (.ok (nums, p4)) =>
                match dispatch p4.b nums seq with
                | .error e => some (seq, e)
                | .ok seq1 => parseLoop fuel p4 seq1
      else parseLoop fuel p1 (seq ++ [Sequence.Character p1.b])

/-- `Parser.ParseAll` on a parser over the input `r`: the named results
`(seq, err)` after the deferred `recover`, which turns every panic value other
than `io.EOF` into the returned error.  `none`: out of fuel (never, see
`ParseAll_returns`). -/
def ParseAll (r : List Nat) : Option (List Sequence × Option Error) :=
  match parseLoop (r.length + 1) (NewParser r) [] with
  | none => none
  | some (seq, e) => some (seq, if e = Error.EOF then none else some e)

/-! ## Renderer (`render.go`) -/

/-- Renderer state (`type Renderer struct`). -/
structure Renderer where
  rows : List (List Pixel)
  screenWidth : Int
  row : Int
  col : Int
  savedCursors : List (Int × Int)
  fgBold : Nat
  bgBold : Nat
  bgColor : Nat
  fgColor : Nat
  blink : Blink
deriving DecidableEq, Repr

/-- `Renderer.Reset`: every field but the ones listed gets its zero value. -/
def Renderer.Reset (_r : Renderer) : Renderer :=
  { rows := [], screenWidth := 80, row := 1, col := 1, savedCursors := [],
    fgBold := 0, bgBold := 0, bgColor := 0, fgColor := 7, blink := Blink.BlinkNone }

/-- `NewRenderer`: the zero value `Renderer{}`, then `Reset`. -/
def NewRenderer : Renderer :=
  Renderer.Reset
    { rows := [], screenWidth := 0, row := 0, col := 0, savedCursors := [],
      fgBold := 0, bgBold := 0, bgColor := 0, fgColor := 0, blink := Blink.BlinkNone }

/-- The ways a call of `RenderSequence` ends without an image: it returns
`(nil, err)`; it panics at run time with an index out of range; it does not
return, because a loop that grows the storage up to an index that is the
largest `int` cannot end (a length is an `int`, so `len(..) <= index` stays
true until `append` fails or the memory is used up); or the model runs out of
fuel in the line-wrap loop. -/
inductive Failure
  | error (e : Error)
  | runtimePanic
  | noReturn
  | outOfFuel
deriving DecidableEq, Repr

/-- The cell write of case `Character`, on clamped indices `y`, `x` below the
largest `int`: `for len(r.rows) <= y { r.rows = append(r.rows, nil) }`, then
`row := r.rows[y]`, `for len(row) <= x { row = append(row, Pixel{}) }`,
`r.rows[y] = row`, `row[x] = px`.  Each loop appends one element for each
index that is missing.  At an index that is the largest `int` the loops do not
end; `Renderer.apply` does not get here then. -/
def writeCell (rows : List (List Pixel)) (y x : Nat) (px : Pixel) : List (List Pixel) :=
  let rows1 := rows ++ List.replicate (y + 1 - rows.length) []
  let row := rows1.getD y []
  let row1 := row ++ List.replicate (x + 1 - row.length) Pixel.zero
  rows1.set y (row1.set x px)

/-- The type switch in the loop body of `Renderer.RenderSequence`: the state
after the operation, or the failure that ends the call.  In case `Character`
the loops `for len(r.rows) <= y` and `for len(row) <= x` cannot end when `y` or
`x` is the largest `int` (which `r.row - 1` or `r.col - 1` is when it wraps
around): the call does not return. -/
def Renderer.apply (r : Renderer) : Sequence → Except Failure Renderer
  | .Character c =>
    if c = lf then .ok { r with row := wrapInt (r.row + 1), col := 1 }
    else if c = cr then .ok r
    else
      let y := wrapInt (r.row - 1)
      let x := wrapInt (r.col - 1)
      let x := if x < 0 then 0 else x
      let y := if y < 0 then 0 else y
      if y.toNat = maxInt ∨ x.toNat = maxInt then .error Failure.noReturn
      else
        .ok { r with
          rows := writeCell r.rows y.toNat x.toNat
            { C := c,
              ForegroundColor := (r.fgColor + r.fgBold) % 256,
              BackgroundColor := (r.bgColor + r.bgBold) % 256,
              Blink := r.blink },
          col := wrapInt (r.col + 1) }
  | .Clear t =>
    if t = ClearTypeScreen then .ok { r with rows := [] }
    else .error (Failure.error (Error.unhandledClear t))
  | .CursorBackward n => .ok { r with col := wrapInt (r.col - n) }
  | .CursorDown n => .ok { r with row := wrapInt (r.row + n) }
  | .CursorForward n => .ok { r with col := wrapInt (r.col + n) }
  | .CursorUp n => .ok { r with row := wrapInt (r.row - n) }
  | .MoveCursorTo row col => .ok { r with row := row, col := col }
  | .RestoreCursorPosition =>
    match r.savedCursors.getLast? with
    | none => .error Failure.runtimePanic
    | some x => .ok { r with savedCursors := r.savedCursors.dropLast, row := x.1, col := x.2 }
  | .SaveCursorPosition => .ok { r with savedCursors := r.savedCursors ++ [(r.row, r.col)] }
  | .SelectGraphicsRendition n =>
    if n = GraphicsRenditionReset then
      .ok { r with bgColor := 0, fgColor := 7, fgBold := 0, blink := Blink.BlinkNone }
    else if n = GraphicsRenditionBold then .ok { r with fgBold := 8 }
    else if n = GraphicsrenditionDefaultTextColor then .ok { r with fgColor := 7, fgBold := 0 }
    else if GraphicsRenditionSetTextColor0 ≤ n ∧ n ≤ GraphicsRenditionSetTextColor7 then
      .ok { r with fgColor := (n - GraphicsRenditionSetTextColor0) % 256 }
    else if GraphicsRenditionSetBackgroundColor0 ≤ n ∧ n ≤ GraphicsRenditionSetBackgroundColor7 then
      .ok { r with bgColor := (n - GraphicsRenditionSetBackgroundColor0) % 256 }
    else if n = GraphicRenditionBlinkSlow then .ok { r with blink := Blink.BlinkSlow }
    else if n = GraphicRenditionBlinkFast then .ok { r with blink := Blink.BlinkFast }
    else .error (Failure.error (Error.unhandledRendition n))
  | .Other => .error (Failure.error Error.unhandledSequence)

/-- The line-wrap loop `for r.col > r.screenWidth { r.col -= r.screenWidth;
r.row++ }` on `(row, col)`; `none` when the fuel ends before the loop does. -/
def wrapLoop (sw : Int) : Nat → Int → Int → Option (Int × Int)
  | 0, row, col => if col > sw then none else some (row, col)
  | fuel + 1, row, col =>
    if col > sw then wrapLoop sw fuel (wrapInt (row + 1)) (wrapInt (col - sw))
    else some (row, col)

/-- One iteration of the loop of `Renderer.RenderSequence`: the type switch,
then the line-wrap loop.  With `screenWidth >= 1` the loop runs fewer than
`col` times, which is the fuel. -/
def Renderer.step (r : Renderer) (s : Sequence) : Except Failure Renderer :=
  match r.apply s with
  | .error f => .error f
  | .ok r1 =>
    match wrapLoop r1.screenWidth r1.col.toNat r1.row r1.col with
    | none => .error Failure.outOfFuel
    | some (row, col) => .ok { r1 with row := row, col := col }

/-- The loop `for _, s := range seq` of `Renderer.RenderSequence`: the renderer
state when the loop ends and the failure that ended it, if any (a failing
operation leaves the state as it was before that operation). -/
def Renderer.run : Renderer → List Sequence → Renderer × Option Failure
  | r, [] => (r, none)
  | r, s :: rest =>
    match r.step s with
    | .error f => (r, some f)
    | .ok r1 => Renderer.run r1 rest

/-- The end of `Renderer.RenderSequence`: width, height and the padded,
row-major cell array. -/
def imageOf (rows : List (List Pixel)) : Image :=
  let width := rows.foldl (fun w row => if row.length > w then row.length else w) 0
  let height := rows.length
  let pix := rows.foldl
    (fun pix row => pix ++ row ++ List.replicate (width - row.length) Pixel.zero) []
  { Pix := pix, Width := width, Height := height }

/-- The method `(*Renderer).RenderSequence`: the renderer state after the call
and what the call returns. -/
def Renderer.RenderSequence (r : Renderer) (seq : List Sequence) :
    Renderer × Except Failure Image :=
  match r.run seq with
  | (r1, some f) => (r1, .error f)
  | (r1, none) => (r1, .ok (imageOf r1.rows))

/-- The package-level `RenderSequence`. -/
def RenderSequence (seq : List Sequence) : Except Failure Image :=
  (NewRenderer.RenderSequence seq).2

/-- `Parse`: `ParseAll`, then `RenderSequence` when the parser returned no
error.  `none`: the parser model ran out of fuel (never). -/
def Parse (r : List Nat) : Option (Except Failure Image) :=
  match ParseAll r with
  | none => none
  | some (_, some e) => some (.error (Failure.error e))
  | some (seq, none) => some (RenderSequence seq)

/-! ## Parameter texts

What follows `ESC [` up to the final byte is a text of ASCII digits and `;`.
These definitions describe such a text by its fields, independently of the
parser. -/

/-- The fields of a parameter text: the text split at every `;` (59). -/
def splitSemi : List Nat → List (List Nat)
  | [] => [[]]
  | c :: cs =>
    if c = 59 then [] :: splitSemi cs
    else
      match splitSemi cs with
      | [] => [[c]]
      | fld :: flds => (c :: fld) :: flds

/-- The fields with the last one dropped when it is empty. -/
def dropLastEmpty (fields : List (List Nat)) : List (List Nat) :=
  if fields.getLast? = some [] then fields.dropLast else fields

/-- The parameter list that a list of fields stands for: the last field is
dropped when it is empty, and every other field is read as its decimal value,
an empty field as 0. -/
def fieldParams (fields : List (List Nat)) : List Int :=
  (dropLastEmpty fields).map (fun fld => Int.ofNat (digitsValue fld))

/-- The reference parameter list of a parameter text. -/
def refParams (ps : List Nat) : List Int := fieldParams (splitSemi ps)

/-- The value used by `H` for a parameter: 1 when it is 0. -/
def orOne (n : Int) : Int := if n = 0 then 1 else n

/-- The statement `p.next()` followed by the parameter loop, on a parser whose
unread input is `text`: how `ParseAll` enters `escLoop` after `ESC [`, and how
`escLoop` goes on after a `;`. -/
def escText (fuel : Nat) (text : List Nat) (nums : List Int) :
    Option (Except Error (List Int × Parser)) :=
  match text with
  | [] => some (.error Error.EOF)
  | b :: r => escLoop fuel ⟨r, b⟩ nums

/-- The loop of `ParseAll` on the unread input `r`, entered with the sequence
`seq` built so far, with the fuel that `ParseAll` gives it. -/
def parseFrom (r : List Nat) (seq : List Sequence) : Option (List Sequence × Error) :=
  parseLoop (r.length + 1) (NewParser r) seq

/-- The deferred `recover` of `ParseAll` on the panic value that ended the
loop: `io.EOF` is dropped, every other error is returned. -/
def recovered (x : List Sequence × Error) : List Sequence × Option Error :=
  (x.1, if x.2 = Error.EOF then none else some x.2)

/-- The final bytes that `ParseAll` knows: `A B C D H J m s u M`. -/
def knownFinal : List Nat := [65, 66, 67, 68, 72, 74, 109, 115, 117, 77]

/-- The positions that absolute positioning may name: row and column of a
`MoveCursorTo` are at least 1 (every other operation qualifies). -/
def validMove : Sequence → Prop
  | .MoveCursorTo row col => 1 ≤ row ∧ 1 ≤ col
  | _ => True

/-! ## Vocabulary for the claims about the renderer -/

/-- The rendition codes that the renderer handles: 0, 1, 5, 6, 30..37, 39 and
40..47. -/
def handledRendition (n : Nat) : Prop :=
  n = 0 ∨ n = 1 ∨ n = 5 ∨ n = 6 ∨ (30 ≤ n ∧ n ≤ 37) ∨ n = 39 ∨ (40 ≤ n ∧ n ≤ 47)

/-- The operations that the claims call unhandled: a `Clear` whose kind is not
Screen (2) and a `SelectGraphicsRendition` whose code is not handled. -/
def rejected : Sequence → Prop
  | .Clear t => t ≠ 2
  | .SelectGraphicsRendition n => ¬ handledRendition n
  | _ => False

/-- The saved-cursor stack after the operation `s` in the state `r`, when the
operation does not fail: pushed by a save, popped by a restore. -/
def savedAfter (r : Renderer) : Sequence → List (Int × Int)
  | .SaveCursorPosition => r.savedCursors ++ [(r.row, r.col)]
  | .RestoreCursorPosition => r.savedCursors.dropLast
  | _ => r.savedCursors

/-- Number of `SaveCursorPosition` operations in a sequence. -/
def saves (seq : List Sequence) : Nat := seq.count Sequence.SaveCursorPosition

/-- Number of `RestoreCursorPosition` operations in a sequence. -/
def restores (seq : List Sequence) : Nat := seq.count Sequence.RestoreCursorPosition

/-- A sequence whose saves and restores are balanced, as brackets are: no
prefix has more restores than saves, and the whole sequence has as many
restores as saves. -/
def balanced (seq : List Sequence) : Prop :=
  (∀ k ≤ seq.length, restores (seq.take k) ≤ saves (seq.take k)) ∧ restores seq = saves seq

/-- The cell that a character `c` leaves under the colours of a fresh renderer:
foreground 7, background 0, no blink. -/
def plainCell (c : Nat) : Pixel :=
  { C := c, BackgroundColor := 0, ForegroundColor := 7, Blink := Blink.BlinkNone }

/-- The renderer state in which only plain characters have been written from a
fresh renderer: `full` are the rows already complete, `last` is the row being
written (not stored yet when it is empty), the cursor is behind `last`. -/
def plainState (full : List (List Pixel)) (last : List Pixel) : Renderer :=
  { rows := if last = [] then full else full ++ [last],
    screenWidth := 80,
    row := (full.length : Int) + 1,
    col := (last.length : Int) + 1,
    savedCursors := [],
    fgBold := 0, bgBold := 0, bgColor := 0, fgColor := 7, blink := Blink.BlinkNone }

/-- A row padded on the right with `Pixel{}` to the width of the image. -/
def padRow (width : Nat) (row : List Pixel) : List Pixel :=
  row ++ List.replicate (width - row.length) Pixel.zero

/-- The longest length among the rows, 0 when there is no row. -/
def maxRowLength (rows : List (List Pixel)) : Nat :=
  (rows.map List.length).foldr max 0

/-! ## Vocabulary for the claims about the grid -/

/-- The cell of the row storage at row index `y` and column index `x`, and
`Pixel{}` where the storage has no cell. -/
def cellAt (rows : List (List Pixel)) (y x : Nat) : Pixel :=
  (rows.getD y []).getD x Pixel.zero

/-- The cell that case `Character` writes for the byte `c` in the state `r`. -/
def Renderer.cell (r : Renderer) (c : Nat) : Pixel :=
  { C := c,
    ForegroundColor := (r.fgColor + r.fgBold) % 256,
    BackgroundColor := (r.bgColor + r.bgBold) % 256,
    Blink := r.blink }

/-- The row index of a cell write in the state `r`: `y := r.row - 1`, and 0
when that is negative. -/
def Renderer.penY (r : Renderer) : Nat :=
  (if wrapInt (r.row - 1) < 0 then 0 else wrapInt (r.row - 1)).toNat

/-- The column index of a cell write in the state `r`: `x := r.col - 1`, and 0
when that is negative. -/
def Renderer.penX (r : Renderer) : Nat :=
  (if wrapInt (r.col - 1) < 0 then 0 else wrapInt (r.col - 1)).toNat

/-- A byte that case `Character` writes into the grid: neither LF nor CR. -/
def isInk (c : Nat) : Prop := c ≠ lf ∧ c ≠ cr

/-- The log of cell writes after the operation `s` in the state `r`: a written
character adds its position and cell, `Clear` of the screen empties the log. -/
def logAfter (r : Renderer) (log : List ((Nat × Nat) × Pixel)) :
    Sequence → List ((Nat × Nat) × Pixel)
  | .Character c =>
    if c = lf ∨ c = cr then log else log ++ [((r.penY, r.penX), r.cell c)]
  | .Clear t => if t = ClearTypeScreen then [] else log
  | _ => log

/-- The log of the cell writes of a run: position and cell of every write of a
`Character` operation since the last `Clear` of the screen, oldest first.  It
records what the operations do and does not look at the row storage. -/
def writeLog : Renderer → List ((Nat × Nat) × Pixel) → List Sequence →
    List ((Nat × Nat) × Pixel)
  | _, log, [] => log
  | r, log, s :: rest =>
    match r.step s with
    | .error _ => log
    | .ok r1 => writeLog r1 (logAfter r log s) rest

/-- The cell that the log leaves at row index `y`, column index `x`: that of
the last write there, and `Pixel{}` when the log has no write there. -/
def lastAt (log : List ((Nat × Nat) × Pixel)) (y x : Nat) : Pixel :=
  log.foldl (fun cur e => if e.1 = (y, x) then e.2 else cur) Pixel.zero

/-- The bytes of one line of the colour test, without the words and the final
reset: `ESC[0m ESC[<n>m c ESC[1;<n>m c ESC[0;<n>m c`, where `<n>` is the
two-digit number with the tens digit `tens` (an ASCII digit) and the units
digit `k`. -/
def colorTest (tens k c : Nat) : List Nat :=
  [27, 91, 48, 109] ++ [27, 91, tens, 48 + k, 109] ++ [c] ++
    [27, 91, 49, 59, tens, 48 + k, 109] ++ [c] ++
    [27, 91, 48, 59, tens, 48 + k, 109] ++ [c]

/-- The renderer state with the cursor in the first row, right behind the
cells `cells` written there, with the given foreground colour, bold offset and
background colour, and nothing else changed from a fresh renderer. -/
def penState (cells : List Pixel) (fg bold bg : Nat) : Renderer :=
  { rows := if cells = [] then [] else [cells],
    screenWidth := 80,
    row := 1,
    col := (cells.length : Int) + 1,
    savedCursors := [],
    fgBold := bold, bgBold := 0, bgColor := bg, fgColor := fg, blink := Blink.BlinkNone }

/-- The renderer state with the colours of a fresh renderer, the row storage
`rows`, and the cursor at row index `nrow`, column index `ncol` (counted from
0). -/
def lineState (rows : List (List Pixel)) (nrow ncol : Nat) : Renderer :=
  { rows := rows,
    screenWidth := 80,
    row := (nrow : Int) + 1,
    col := (ncol : Int) + 1,
    savedCursors := [],
    fgBold := 0, bgBold := 0, bgColor := 0, fgColor := 7, blink := Blink.BlinkNone }

/-- The cells of a line of plain text under the colours of a fresh renderer. -/
def plainRow (line : List Nat) : List Pixel := line.map plainCell

/-- The number of times the body of the line-wrap loop runs from the column
`col`: the loop of `wrapLoop` with a counter in place of the cursor; `none`
when the fuel ends before the loop does. -/
def wrapIterations (sw : Int) : Nat → Int → Option Nat
  | 0, col => if col > sw then none else some 0
  | fuel + 1, col =>
    if col > sw then (wrapIterations sw fuel (wrapInt (col - sw))).map (fun n => n + 1)
    else some 0

/-- The row storage has a cell: some stored row is not empty. -/
def hasCell (rows : List (List Pixel)) : Prop := ∃ row ∈ rows, row ≠ []

/-- A written character (a `Character` other than LF and CR) occurs in the
sequence with no `Clear` of the screen after it. -/
def inkAfterClear (seq : List Sequence) : Prop :=
  ∃ s1 c s2, seq = s1 ++ Sequence.Character c :: s2 ∧ c ≠ lf ∧ c ≠ cr ∧
    Sequence.Clear ClearTypeScreen ∉ s2

/-- The counts that the parser can emit: the count of a relative cursor motion
is not negative (every other operation qualifies). -/
def validCount : Sequence → Prop
  | .CursorUp n => 0 ≤ n
  | .CursorDown n => 0 ≤ n
  | .CursorForward n => 0 ≤ n
  | .CursorBackward n => 0 ≤ n
  | _ => True

/-! ## Vocabulary for the claims about colours and columns -/

/-- The ranges of the colour state: both colour bases are between 0 and 7, the
foreground bold offset is 0 or 8 and the background bold offset is 0. -/
def Renderer.coloursInRange (r : Renderer) : Prop :=
  r.fgColor ≤ 7 ∧ r.bgColor ≤ 7 ∧ (r.fgBold = 0 ∨ r.fgBold = 8) ∧ r.bgBold = 0

/-- A cell whose colours are indices into the 16-entry palette: foreground at
most 15, background at most 7. -/
def Pixel.inPalette (px : Pixel) : Prop :=
  px.ForegroundColor ≤ 15 ∧ px.BackgroundColor ≤ 7

/-- The values of Go's `int`: the integers from `-2^63` to `2^63 - 1`. -/
def isInt (n : Int) : Prop := -(2 ^ 63) ≤ n ∧ n < 2 ^ 63

/-- An operation whose `int` fields hold values of Go's `int` (an operation
without such a field qualifies). -/
def Sequence.fitsInt : Sequence → Prop
  | .CursorUp n => isInt n
  | .CursorDown n => isInt n
  | .CursorForward n => isInt n
  | .CursorBackward n => isInt n
  | .MoveCursorTo row col => isInt row ∧ isInt col
  | _ => True

/-- A renderer state whose cursor and saved cursors hold values of Go's
`int`. -/
def Renderer.fitsInt (r : Renderer) : Prop :=
  isInt r.row ∧ isInt r.col ∧ ∀ p ∈ r.savedCursors, isInt p.1 ∧ isInt p.2

/-- The cell writes of the run of `seq` from the state `r` all happen while
neither the cursor row nor the cursor column is the smallest `int`, so that
neither `y := r.row - 1` nor `x := r.col - 1` overflows.  The run is followed
up to its first failing operation. -/
def writesInRange : Renderer → List Sequence → Bool
  | _, [] => true
  | r, s :: rest =>
    (match s with
      | .Character c =>
        decide (c = lf) || decide (c = cr) ||
          (decide (-(2 ^ 63) < r.row) && decide (-(2 ^ 63) < r.col))
      | _ => true) &&
    (match r.step s with
      | .error _ => true
      | .ok r1 => writesInRange r1 rest)

/-! ## Fuel: the parser loops end before their fuel does -/

theorem next_length {p p1 : Parser} (h : p.next = .ok p1) :
    p1.r.length + 1 = p.r.length := by
  unfold Parser.next at h
  split at h
  · cases h
  · rename_i b rest hr
    cases h
    simp [hr]

theorem readDigits_length : ∀ (r : List Nat) (b : Nat) (buf buf1 : List Nat) (p1 : Parser),
    readDigits r b buf = .ok (buf1, p1) →
      p1.r.length ≤ r.length ∧ (isDigit b = true → p1.r.length < r.length) := by
  intro r
  induction r with
  | nil =>
    intro b buf buf1 p1 h
    unfold readDigits at h
    split at h
    · cases h
    · rename_i hd
      cases h
      simp [hd]
  | cons b1 r1 ih =>
    intro b buf buf1 p1 h
    unfold readDigits at h
    split at h
    · have := (ih b1 (buf ++ [b]) buf1 p1 h).1
      simp only [List.length_cons]
      omega
    · rename_i hd
      cases h
      simp [hd]

theorem readNum_length {p p1 : Parser} {n : Int} (h : p.readNum = .ok (n, p1))
    (hd : isDigit p.b = true) : p1.r.length < p.r.length := by
  unfold Parser.readNum at h
  split at h
  · cases h
  · rename_i buf p2 hrd
    split at h
    · cases h
    · cases h
      exact (readDigits_length _ _ _ _ _ hrd).2 hd

theorem escLoop_length : ∀ (fuel : Nat) (p : Parser) (nums nums1 : List Int) (p1 : Parser),
    escLoop fuel p nums = some (.ok (nums1, p1)) → p1.r.length ≤ p.r.length := by
  intro fuel
  induction fuel with
  | zero => intro p nums nums1 p1 h; simp [escLoop] at h
  | succ f ih =>
    intro p nums nums1 p1 h
    unfold escLoop at h
    split at h
    · split at h
      · cases h
      · rename_i p2 hn
        have := ih _ _ _ _ h
        have := next_length hn
        omega
    · split at h
      · rename_i hd
        split at h
        · cases h
        · rename_i n p2 hrn
          have h1 := readNum_length hrn hd
          split at h
          · split at h
            · cases h
            · rename_i p3 hn
              have := ih _ _ _ _ h
              have := next_length hn
              omega
          · have := ih _ _ _ _ h
            omega
      · cases h
        exact le_refl _

theorem escLoop_enough : ∀ (fuel : Nat) (p : Parser) (nums : List Int),
    p.r.length < fuel → escLoop fuel p nums ≠ none := by
  intro fuel
  induction fuel with
  | zero => intro p nums h; omega
  | succ f ih =>
    intro p nums hlt
    unfold escLoop
    split
    · split
      · simp
      · rename_i p2 hn
        have := next_length hn
        exact ih _ _ (by omega)
    · split
      · rename_i hd
        split
        · simp
        · rename_i n p2 hrn
          have h1 := readNum_length hrn hd
          split
          · split
            · simp
            · rename_i p3 hn
              have := next_length hn
              exact ih _ _ (by omega)
          · exact ih _ _ (by omega)
      · simp

theorem parseLoop_fuel : ∀ (f1 f2 : Nat) (p : Parser) (seq : List Sequence),
    p.r.length < f1 → p.r.length < f2 → parseLoop f1 p seq = parseLoop f2 p seq := by
  intro f1
  induction f1 with
  | zero => intro f2 p seq h; omega
  | succ f ih =>
    intro f2 p seq h1 h2
    cases f2 with
    | zero => omega
    | succ g =>
      unfold parseLoop
      split
      · rfl
      · rename_i p1 hn1
        have l1 := next_length hn1
        split
        · rfl
        · split
          · split
            · rfl
            · rename_i p2 hn2
              have l2 := next_length hn2
              split
              · rfl
              · split
                · rfl
                · rename_i p3 hn3
                  have l3 := next_length hn3
                  split
                  · rfl
                  · rfl
                  · rename_i nums p4 hesc
                    have l4 := escLoop_length _ _ _ _ _ hesc
                    split
                    · rfl
                    · exact ih _ _ _ (by omega) (by omega)
          · exact ih _ _ _ (by omega) (by omega)

theorem parseLoop_enough : ∀ (fuel : Nat) (p : Parser) (seq : List Sequence),
    p.r.length < fuel → parseLoop fuel p seq ≠ none := by
  intro fuel
  induction fuel with
  | zero => intro p seq h; omega
  | succ f ih =>
    intro p seq hlt
    unfold parseLoop
    split
    · simp
    · rename_i p1 hn1
      have l1 := next_length hn1
      split
      · simp
      · split
        · split
          · simp
          · rename_i p2 hn2
            have l2 := next_length hn2
            split
            · simp
            · split
              · simp
              · rename_i p3 hn3
                have l3 := next_length hn3
                split
                · rename_i hesc
                  exact absurd hesc (escLoop_enough _ _ _ (by omega))
                · simp
                · rename_i nums p4 hesc
                  have l4 := escLoop_length _ _ _ _ _ hesc
                  split
                  · simp
                  · exact ih _ _ (by omega)
        · exact ih _ _ (by omega)

/-! ## The main loop, one input byte at a time -/

theorem readDigits_nondigit (r : List Nat) (b : Nat) (buf : List Nat)
    (h : isDigit b = false) : readDigits r b buf = .ok (buf, ⟨r, b⟩) := by
  cases r <;> simp [readDigits, h]

/-- The current byte is dead at the top of the loop: `next` overwrites it. -/
theorem parseLoop_b (fuel : Nat) (r : List Nat) (b c : Nat) (seq : List Sequence) :
    parseLoop fuel ⟨r, b⟩ seq = parseLoop fuel ⟨r, c⟩ seq := by
  cases fuel with
  | zero => rfl
  | succ f => simp [parseLoop, Parser.next]

/-- End of input at the top of the loop. -/
theorem parseLoop_nil (fuel : Nat) (b : Nat) (seq : List Sequence) :
    parseLoop (fuel + 1) ⟨[], b⟩ seq = some (seq, Error.EOF) := by
  simp [parseLoop, Parser.next]

/-- The end-of-input marker 0x1A at the top of the loop. -/
theorem parseLoop_eof (fuel : Nat) (r : List Nat) (b : Nat) (seq : List Sequence) :
    parseLoop (fuel + 1) ⟨eof :: r, b⟩ seq = some (seq, Error.EOF) := by
  simp [parseLoop, Parser.next]

/-- A byte other than ESC and 0x1A at the top of the loop. -/
theorem parseLoop_char (fuel : Nat) (c : Nat) (r : List Nat) (b : Nat) (seq : List Sequence)
    (h1 : c ≠ eof) (h2 : c ≠ esc) :
    parseLoop (fuel + 1) ⟨c :: r, b⟩ seq =
      parseLoop fuel ⟨r, c⟩ (seq ++ [Sequence.Character c]) := by
  simp [parseLoop, Parser.next, h1, h2]

/-- A run of bytes without ESC and 0x1A gives one `Character` each. -/
theorem parseLoop_chars : ∀ (a : List Nat) (fuel : Nat) (r : List Nat) (b : Nat)
    (seq : List Sequence), (∀ x ∈ a, x ≠ esc ∧ x ≠ eof) →
    parseLoop (a.length + fuel) ⟨a ++ r, b⟩ seq =
      parseLoop fuel ⟨r, a.getLastD b⟩ (seq ++ a.map Sequence.Character) := by
  intro a
  induction a with
  | nil => intro fuel r b seq _; simp
  | cons c a ih =>
    intro fuel r b seq h
    have hc := h c (List.mem_cons_self _ _)
    have e : (c :: a).length + fuel = (a.length + fuel) + 1 := by
      simp only [List.length_cons]; omega
    rw [e, List.cons_append, parseLoop_char _ _ _ _ _ hc.2 hc.1,
      ih fuel r c _ (fun x hx => h x (List.mem_cons_of_mem _ hx))]
    congr 1
    · cases a <;> simp [List.getLastD]
    · simp

/-- ESC as the last byte of the input: `next` panics with `io.EOF`. -/
theorem parseLoop_esc_end (fuel : Nat) (b : Nat) (seq : List Sequence) :
    parseLoop (fuel + 1) ⟨[esc], b⟩ seq = some (seq, Error.EOF) := by
  simp [parseLoop, Parser.next, esc, eof]

/-- ESC followed by a byte other than `[`. -/
theorem parseLoop_esc_bad (fuel : Nat) (x : Nat) (r : List Nat) (b : Nat)
    (seq : List Sequence) (hx : x ≠ 0x5b) :
    parseLoop (fuel + 1) ⟨esc :: x :: r, b⟩ seq = some (seq, Error.invalidEscape x) := by
  simp [parseLoop, Parser.next, esc, eof, hx]

/-- ESC `[` as the last bytes of the input. -/
theorem parseLoop_csi_end (fuel : Nat) (b : Nat) (seq : List Sequence) :
    parseLoop (fuel + 1) ⟨[esc, 0x5b], b⟩ seq = some (seq, Error.EOF) := by
  simp [parseLoop, Parser.next, esc, eof]

/-- ESC `[` followed by at least one byte: parameters, dispatch, and on. -/
theorem parseLoop_csi (fuel : Nat) (c : Nat) (r : List Nat) (b : Nat) (seq : List Sequence) :
    parseLoop (fuel + 1) ⟨esc :: 0x5b :: c :: r, b⟩ seq =
      match escLoop (r.length + 1) ⟨r, c⟩ [] with
      | none => none
      | some (.error e) => some (seq, e)
      | some (.ok (nums, p4)) =>
        match dispatch p4.b nums seq with
        | .error e => some (seq, e)
        | .ok seq1 => parseLoop fuel p4 seq1 := by
  simp [parseLoop, Parser.next, esc, eof]

/-! ## The parameter loop on a parameter text -/

theorem isDigit_ne_semi {d : Nat} (h : isDigit d = true) : d ≠ 59 := by
  intro e; subst e; simp [isDigit] at h

theorem next_then_esc (fuel : Nat) (t : List Nat) (b : Nat) (nums : List Int) :
    (match (⟨t, b⟩ : Parser).next with
      | .error e => some (.error e)
      | .ok p1 => escLoop fuel p1 nums) = escText fuel t nums := by
  cases t <;> rfl

theorem readDigits_run : ∀ (tl : List Nat) (d : Nat) (buf : List Nat) (c : Nat) (rest : List Nat),
    isDigit d = true → (∀ x ∈ tl, isDigit x = true) → isDigit c = false →
    readDigits (tl ++ c :: rest) d buf = .ok (buf ++ d :: tl, ⟨rest, c⟩) := by
  intro tl
  induction tl with
  | nil =>
    intro d buf c rest hd _ hc
    simp [readDigits, hd, readDigits_nondigit _ _ _ hc]
  | cons x tl ih =>
    intro d buf c rest hd htl hc
    have hx := htl x (List.mem_cons_self _ _)
    simp [readDigits, hd, ih x (buf ++ [d]) c rest hx
      (fun y hy => htl y (List.mem_cons_of_mem _ hy)) hc]

theorem readNum_run (tl : List Nat) (d c : Nat) (rest : List Nat)
    (hd : isDigit d = true) (htl : ∀ x ∈ tl, isDigit x = true) (hc : isDigit c = false)
    (hfit : digitsValue (d :: tl) ≤ maxInt) :
    Parser.readNum ⟨tl ++ c :: rest, d⟩ =
      .ok (Int.ofNat (digitsValue (d :: tl)), ⟨rest, c⟩) := by
  simp [Parser.readNum, readDigits_run tl d [] c rest hd htl hc, Atoi, hfit]

theorem readNum_run_unfit (tl : List Nat) (d c : Nat) (rest : List Nat)
    (hd : isDigit d = true) (htl : ∀ x ∈ tl, isDigit x = true) (hc : isDigit c = false)
    (hfit : ¬ digitsValue (d :: tl) ≤ maxInt) :
    Parser.readNum ⟨tl ++ c :: rest, d⟩ = .error (Error.failedNumber (d :: tl)) := by
  simp [Parser.readNum, readDigits_run tl d [] c rest hd htl hc, Atoi, hfit]

theorem dropLastEmpty_cons_cons (fld m : List Nat) (ms : List (List Nat)) :
    dropLastEmpty (fld :: m :: ms) = fld :: dropLastEmpty (m :: ms) := by
  unfold dropLastEmpty
  simp only [List.getLast?_cons_cons, List.dropLast_cons₂]
  split <;> rfl

theorem fieldParams_cons_cons (fld m : List Nat) (ms : List (List Nat)) :
    fieldParams (fld :: m :: ms) = Int.ofNat (digitsValue fld) :: fieldParams (m :: ms) := by
  simp [fieldParams, dropLastEmpty_cons_cons]

theorem intercalate_cons_cons (fld m : List Nat) (ms : List (List Nat)) :
    List.intercalate [59] (fld :: m :: ms) = fld ++ 59 :: List.intercalate [59] (m :: ms) := by
  simp [List.intercalate, List.intersperse]

/-- The parameter loop on a parameter text followed by a final byte: it stops
at the final byte with the parameters of the fields. -/
theorem escText_fields : ∀ (fields : List (List Nat)) (fuel f : Nat) (rest : List Nat)
    (nums : List Int), fields ≠ [] →
    (∀ fld ∈ fields, ∀ d ∈ fld, isDigit d = true) →
    (∀ fld ∈ fields, digitsValue fld ≤ maxInt) →
    isDigit f = false → f ≠ 59 →
    (List.intercalate [59] fields ++ f :: rest).length ≤ fuel →
    escText fuel (List.intercalate [59] fields ++ f :: rest) nums =
      some (.ok (nums ++ fieldParams fields, ⟨rest, f⟩)) := by
  intro fields
  induction fields with
  | nil => intro _ _ _ _ h; exact absurd rfl h
  | cons fld more ih =>
    intro fuel f rest nums _ hdig hfit hf hf59 hlen
    cases more with
    | nil =>
      cases fld with
      | nil =>
        cases fuel with
        | zero => simp at hlen
        | succ k =>
          simp [List.intercalate, escText, escLoop, hf, hf59, fieldParams, dropLastEmpty]
      | cons d tl =>
        have hd : isDigit d = true := hdig _ (List.mem_cons_self _ _) d (List.mem_cons_self _ _)
        have htl : ∀ x ∈ tl, isDigit x = true := fun x hx =>
          hdig _ (List.mem_cons_self _ _) x (List.mem_cons_of_mem _ hx)
        have hv := hfit _ (List.mem_cons_self _ _)
        cases fuel with
        | zero => simp at hlen
        | succ k =>
          cases k with
          | zero => simp [List.intercalate] at hlen
          | succ j =>
            simp [List.intercalate, escText, escLoop, hd, isDigit_ne_semi hd,
              readNum_run tl d f rest hd htl hf hv, hf, hf59, fieldParams, dropLastEmpty]
    | cons m ms =>
      have ih1 := fun fuel nums hl => ih fuel f rest nums (List.cons_ne_nil _ _)
        (fun fl hfl => hdig fl (List.mem_cons_of_mem _ hfl))
        (fun fl hfl => hfit fl (List.mem_cons_of_mem _ hfl)) hf hf59 hl
      rw [intercalate_cons_cons, fieldParams_cons_cons]
      rw [intercalate_cons_cons] at hlen
      cases fld with
      | nil =>
        cases fuel with
        | zero => simp at hlen
        | succ k =>
          simp only [List.nil_append, List.cons_append, List.length_cons] at hlen ⊢
          simp only [escText, escLoop, if_true]
          rw [next_then_esc, ih1 k _ (by omega)]
          simp [digitsValue]
      | cons d tl =>
        have hd : isDigit d = true := hdig _ (List.mem_cons_self _ _) d (List.mem_cons_self _ _)
        have htl : ∀ x ∈ tl, isDigit x = true := fun x hx =>
          hdig _ (List.mem_cons_self _ _) x (List.mem_cons_of_mem _ hx)
        have hv := hfit _ (List.mem_cons_self _ _)
        have h59 : isDigit 59 = false := by decide
        cases fuel with
        | zero => simp at hlen
        | succ k =>
          simp only [List.cons_append, List.length_cons, List.length_append] at hlen
          simp only [List.cons_append, List.append_assoc, escText, escLoop,
            isDigit_ne_semi hd, if_false, hd, if_true,
            readNum_run tl d 59 _ hd htl h59 hv]
          rw [next_then_esc, ih1 k _ (by simp only [List.length_append, List.length_cons]; omega)]
          simp

/-! ## The main loop without fuel -/

theorem ParseAll_eq (r : List Nat) : ParseAll r = (parseFrom r []).map recovered := by
  unfold ParseAll parseFrom
  cases parseLoop (r.length + 1) (NewParser r) [] <;> rfl

theorem parseLoop_parseFrom (fuel : Nat) (r : List Nat) (b : Nat) (seq : List Sequence)
    (h : r.length < fuel) : parseLoop fuel ⟨r, b⟩ seq = parseFrom r seq := by
  unfold parseFrom NewParser
  rw [parseLoop_b fuel r b 0]
  exact parseLoop_fuel _ _ _ _ h (Nat.lt_succ_self _)

theorem parseFrom_nil (seq : List Sequence) : parseFrom [] seq = some (seq, Error.EOF) := by
  simp [parseFrom, NewParser, parseLoop_nil]

theorem parseFrom_eof (r : List Nat) (seq : List Sequence) :
    parseFrom (eof :: r) seq = some (seq, Error.EOF) := by
  simp only [parseFrom, NewParser, List.length_cons, parseLoop_eof]

theorem parseFrom_chars (a r : List Nat) (seq : List Sequence)
    (h : ∀ x ∈ a, x ≠ esc ∧ x ≠ eof) :
    parseFrom (a ++ r) seq = parseFrom r (seq ++ a.map Sequence.Character) := by
  have e : (a ++ r).length + 1 = a.length + (r.length + 1) := by
    simp only [List.length_append]; omega
  unfold parseFrom NewParser
  rw [e, parseLoop_chars a _ r 0 seq h, parseLoop_b]

theorem parseFrom_esc_end (seq : List Sequence) :
    parseFrom [esc] seq = some (seq, Error.EOF) := by
  simp only [parseFrom, NewParser, List.length_cons, parseLoop_esc_end]

theorem parseFrom_esc_bad (x : Nat) (r : List Nat) (seq : List Sequence) (hx : x ≠ 0x5b) :
    parseFrom (esc :: x :: r) seq = some (seq, Error.invalidEscape x) := by
  simp only [parseFrom, NewParser, List.length_cons, parseLoop_esc_bad _ _ _ _ _ hx]

/-- ESC `[` and the text `t` after it: the parameter loop, the dispatch on the
final byte, and the loop again on what is left. -/
theorem parseFrom_csi (t : List Nat) (seq : List Sequence) :
    parseFrom (esc :: 0x5b :: t) seq =
      match escText t.length t [] with
      | none => none
      | some (.error e) => some (seq, e)
      | some (.ok (nums, p4)) =>
        match dispatch p4.b nums seq with
        | .error e => some (seq, e)
        | .ok seq1 => parseFrom p4.r seq1 := by
  cases t with
  | nil => simp [parseFrom, NewParser, parseLoop_csi_end, escText]
  | cons c r =>
    simp only [parseFrom, NewParser, List.length_cons, parseLoop_csi, escText]
    cases hE : escLoop (r.length + 1) ⟨r, c⟩ [] with
    | none => rfl
    | some res =>
      cases res with
      | error e => rfl
      | ok x =>
        obtain ⟨nums, ⟨r4, b4⟩⟩ := x
        have hl := escLoop_length _ _ _ _ _ hE
        simp only
        cases dispatch b4 nums seq with
        | error e => rfl
        | ok seq1 =>
          simp only
          have := parseLoop_parseFrom (r.length + 3) r4 b4 seq1
            (by simp only [] at hl; omega)
          rw [this, parseFrom, NewParser]

/-- A whole control sequence, given by the fields of its parameter text and its
final byte. -/
theorem parseFrom_csi_fields (fields : List (List Nat)) (f : Nat) (rest : List Nat)
    (seq : List Sequence) (hne : fields ≠ [])
    (hdig : ∀ fld ∈ fields, ∀ d ∈ fld, isDigit d = true)
    (hfit : ∀ fld ∈ fields, digitsValue fld ≤ maxInt)
    (hf : isDigit f = false) (hf59 : f ≠ 59) :
    parseFrom (esc :: 0x5b :: (List.intercalate [59] fields ++ f :: rest)) seq =
      match dispatch f (fieldParams fields) seq with
      | .error e => some (seq, e)
      | .ok seq1 => parseFrom rest seq1 := by
  rw [parseFrom_csi, escText_fields fields _ f rest [] hne hdig hfit hf hf59 (le_refl _)]
  simp

/-! ## The parser returns -/

theorem parseFrom_some (r : List Nat) (seq : List Sequence) :
    ∃ x, parseFrom r seq = some x := by
  cases h : parseFrom r seq with
  | none => exact absurd h (parseLoop_enough _ _ _ (Nat.lt_succ_self _))
  | some x => exact ⟨x, rfl⟩

/-- `ParseAll` returns on every input: the fuel of the model never runs out. -/
theorem ParseAll_returns (r : List Nat) : ∃ res, ParseAll r = some res := by
  obtain ⟨x, hx⟩ := parseFrom_some r []
  exact ⟨recovered x, by rw [ParseAll_eq, hx]; rfl⟩

/-- Two inputs on which the loop reaches the same state return the same. -/
theorem same_result {t1 t2 rest : List Nat} {seq1 : List Sequence}
    (h1 : parseFrom t1 [] = parseFrom rest seq1)
    (h2 : parseFrom t2 [] = parseFrom rest seq1) :
    ∃ res, ParseAll t1 = some res ∧ ParseAll t2 = some res := by
  obtain ⟨x, hx⟩ := parseFrom_some rest seq1
  refine ⟨recovered x, ?_, ?_⟩
  · rw [ParseAll_eq, h1, hx]; rfl
  · rw [ParseAll_eq, h2, hx]; rfl

/-- One control sequence with concrete parameter fields, in front of any input. -/
theorem csi_concrete (fields : List (List Nat)) (f : Nat) (rest : List Nat)
    (seq1 : List Sequence) (hne : fields ≠ [])
    (hdig : ∀ fld ∈ fields, ∀ d ∈ fld, isDigit d = true)
    (hfit : ∀ fld ∈ fields, digitsValue fld ≤ maxInt)
    (hf : isDigit f = false) (hf59 : f ≠ 59)
    (hd : dispatch f (fieldParams fields) [] = .ok seq1) :
    parseFrom (27 :: 91 :: (List.intercalate [59] fields ++ f :: rest)) [] =
      parseFrom rest seq1 := by
  have h := parseFrom_csi_fields fields f rest [] hne hdig hfit hf hf59
  rw [hd] at h
  exact h

/-- C1. Default-parameter laws: for every byte string `rest`, `ParseAll` returns,
and returns the same result (same operations, same error or none), on
`ESC[A ++ rest` and `ESC[1A ++ rest` (likewise for the final bytes `B`, `C`,
`D`), on `ESC[H ++ rest` and `ESC[1;1H ++ rest`, on `ESC[;5H ++ rest` and
`ESC[1;5H ++ rest`, on `ESC[17H ++ rest`, `ESC[17;H ++ rest` and
`ESC[17;1H ++ rest`, and on `ESC[m ++ rest` and `ESC[0m ++ rest`. -/
theorem C1_default_parameter_laws (rest : List Nat) :
    (∃ res, ParseAll ([27, 91, 65] ++ rest) = some res ∧
      ParseAll ([27, 91, 49, 65] ++ rest) = some res) ∧
    (∃ res, ParseAll ([27, 91, 66] ++ rest) = some res ∧
      ParseAll ([27, 91, 49, 66] ++ rest) = some res) ∧
    (∃ res, ParseAll ([27, 91, 67] ++ rest) = some res ∧
      ParseAll ([27, 91, 49, 67] ++ rest) = some res) ∧
    (∃ res, ParseAll ([27, 91, 68] ++ rest) = some res ∧
      ParseAll ([27, 91, 49, 68] ++ rest) = some res) ∧
    (∃ res, ParseAll ([27, 91, 72] ++ rest) = some res ∧
      ParseAll ([27, 91, 49, 59, 49, 72] ++ rest) = some res) ∧
    (∃ res, ParseAll ([27, 91, 59, 53, 72] ++ rest) = some res ∧
      ParseAll ([27, 91, 49, 59, 53, 72] ++ rest) = some res) ∧
    (∃ res, ParseAll ([27, 91, 49, 55, 72] ++ rest) = some res ∧
      ParseAll ([27, 91, 49, 55, 59, 72] ++ rest) = some res ∧
      ParseAll ([27, 91, 49, 55, 59, 49, 72] ++ rest) = some res) ∧
    (∃ res, ParseAll ([27, 91, 109] ++ rest) = some res ∧
      ParseAll ([27, 91, 48, 109] ++ rest) = some res) := by
  refine ⟨?_, ?_, ?_, ?_, ?_, ?_, ?_, ?_⟩
  · exact same_result
      (csi_concrete [[]] 65 rest [Sequence.CursorUp 1] (by decide) (by decide) (by decide)
        (by decide) (by decide) rfl)
      (csi_concrete [[49]] 65 rest [Sequence.CursorUp 1] (by decide) (by decide) (by decide)
        (by decide) (by decide) rfl)
  · exact same_result
      (csi_concrete [[]] 66 rest [Sequence.CursorDown 1] (by decide) (by decide) (by decide)
        (by decide) (by decide) rfl)
      (csi_concrete [[49]] 66 rest [Sequence.CursorDown 1] (by decide) (by decide) (by decide)
        (by decide) (by decide) rfl)
  · exact same_result
      (csi_concrete [[]] 67 rest [Sequence.CursorForward 1] (by decide) (by decide) (by decide)
        (by decide) (by decide) rfl)
      (csi_concrete [[49]] 67 rest [Sequence.CursorForward 1] (by decide) (by decide)
        (by decide) (by decide) (by decide) rfl)
  · exact same_result
      (csi_concrete [[]] 68 rest [Sequence.CursorBackward 1] (by decide) (by decide)
        (by decide) (by decide) (by decide) rfl)
      (csi_concrete [[49]] 68 rest [Sequence.CursorBackward 1] (by decide) (by decide)
        (by decide) (by decide) (by decide) rfl)
  · exact same_result
      (csi_concrete [[]] 72 rest [Sequence.MoveCursorTo 1 1] (by decide) (by decide)
        (by decide) (by decide) (by decide) rfl)
      (csi_concrete [[49], [49]] 72 rest [Sequence.MoveCursorTo 1 1] (by decide) (by decide)
        (by decide) (by decide) (by decide) rfl)
  · exact same_result
      (csi_concrete [[], [53]] 72 rest [Sequence.MoveCursorTo 1 5] (by decide) (by decide)
        (by decide) (by decide) (by decide) rfl)
      (csi_concrete [[49], [53]] 72 rest [Sequence.MoveCursorTo 1 5] (by decide) (by decide)
        (by decide) (by decide) (by decide) rfl)
  · have h1 := csi_concrete [[49, 55]] 72 rest [Sequence.MoveCursorTo 17 1] (by decide)
      (by decide) (by decide) (by decide) (by decide) rfl
    have h2 := csi_concrete [[49, 55], []] 72 rest [Sequence.MoveCursorTo 17 1] (by decide)
      (by decide) (by decide) (by decide) (by decide) rfl
    have h3 := csi_concrete [[49, 55], [49]] 72 rest [Sequence.MoveCursorTo 17 1] (by decide)
      (by decide) (by decide) (by decide) (by decide) rfl
    obtain ⟨res, e1, e2⟩ := same_result h1 h2
    obtain ⟨res3, e3, e4⟩ := same_result h1 h3
    refine ⟨res, e1, e2, ?_⟩
    exact e4.trans (e3.symm.trans e1)
  · exact same_result
      (csi_concrete [[]] 109 rest [Sequence.SelectGraphicsRendition 0] (by decide)
        (by decide) (by decide) (by decide) (by decide) rfl)
      (csi_concrete [[48]] 109 rest [Sequence.SelectGraphicsRendition 0] (by decide)
        (by decide) (by decide) (by decide) (by decide) rfl)

/-! ## Fields of a parameter text -/

theorem splitSemi_ne_nil : ∀ ps : List Nat, splitSemi ps ≠ [] := by
  intro ps
  cases ps with
  | nil => simp [splitSemi]
  | cons c cs =>
    unfold splitSemi
    split
    · simp
    · split <;> simp

theorem intercalate_cons_head (c : Nat) (fld : List Nat) (flds : List (List Nat)) :
    List.intercalate [59] ((c :: fld) :: flds) = c :: List.intercalate [59] (fld :: flds) := by
  cases flds <;> simp [List.intercalate, List.intersperse]

theorem intercalate_splitSemi : ∀ ps : List Nat, List.intercalate [59] (splitSemi ps) = ps := by
  intro ps
  induction ps with
  | nil => simp [splitSemi, List.intercalate]
  | cons c cs ih =>
    unfold splitSemi
    split
    · rename_i hc
      cases hs : splitSemi cs with
      | nil => exact absurd hs (splitSemi_ne_nil cs)
      | cons m ms =>
        rw [intercalate_cons_cons, ← hs, ih, hc]
        rfl
    · cases hs : splitSemi cs with
      | nil => exact absurd hs (splitSemi_ne_nil cs)
      | cons m ms =>
        simp only
        rw [intercalate_cons_head, ← hs, ih]

theorem splitSemi_digits : ∀ ps : List Nat, (∀ c ∈ ps, isDigit c = true ∨ c = 59) →
    ∀ fld ∈ splitSemi ps, ∀ d ∈ fld, isDigit d = true := by
  intro ps
  induction ps with
  | nil => intro _ fld hfld d hd; simp [splitSemi] at hfld; subst hfld; simp at hd
  | cons c cs ih =>
    intro h fld hfld d hd
    have ih1 := ih (fun x hx => h x (List.mem_cons_of_mem _ hx))
    unfold splitSemi at hfld
    split at hfld
    · rcases List.mem_cons.1 hfld with e | e
      · subst e; simp at hd
      · exact ih1 fld e d hd
    · rename_i hc
      cases hs : splitSemi cs with
      | nil => exact absurd hs (splitSemi_ne_nil cs)
      | cons m ms =>
        rw [hs] at hfld ih1
        simp only at hfld
        rcases List.mem_cons.1 hfld with e | e
        · subst e
          rcases List.mem_cons.1 hd with e2 | e2
          · subst e2
            rcases h d (List.mem_cons_self _ _) with h3 | h3
            · exact h3
            · exact absurd h3 hc
          · exact ih1 m (List.mem_cons_self _ _) d e2
        · exact ih1 fld (List.mem_cons_of_mem _ e) d hd

/-- A whole control sequence, given by its parameter text and its final byte. -/
theorem parseFrom_csi_text (ps : List Nat) (f : Nat) (rest : List Nat) (seq : List Sequence)
    (hps : ∀ c ∈ ps, isDigit c = true ∨ c = 59)
    (hfit : ∀ fld ∈ splitSemi ps, digitsValue fld ≤ maxInt)
    (hf : isDigit f = false) (hf59 : f ≠ 59) :
    parseFrom (esc :: 0x5b :: (ps ++ f :: rest)) seq =
      match dispatch f (refParams ps) seq with
      | .error e => some (seq, e)
      | .ok seq1 => parseFrom rest seq1 := by
  have h := parseFrom_csi_fields (splitSemi ps) f rest seq (splitSemi_ne_nil ps)
    (splitSemi_digits ps hps) hfit hf hf59
  rw [intercalate_splitSemi] at h
  exact h

theorem dropLastEmpty_of_nonempty (fields : List (List Nat)) (h : ∀ fld ∈ fields, fld ≠ []) :
    dropLastEmpty fields = fields := by
  unfold dropLastEmpty
  split
  · rename_i hl
    exact absurd rfl (h [] (List.mem_of_getLast?_eq_some hl))
  · rfl

theorem toByte_ofNat (v : Nat) (h : v ≤ 255) : toByte (Int.ofNat v) = v := by
  unfold toByte
  simp only [Int.ofNat_eq_coe]
  omega

/-! ## Input that ends inside a control sequence -/

theorem readDigits_end : ∀ (tl : List Nat) (d : Nat) (buf : List Nat),
    isDigit d = true → (∀ x ∈ tl, isDigit x = true) →
    readDigits tl d buf = .error Error.EOF := by
  intro tl
  induction tl with
  | nil => intro d buf hd _; simp [readDigits, hd]
  | cons x tl ih =>
    intro d buf hd htl
    simp [readDigits, hd, ih x (buf ++ [d]) (htl x (List.mem_cons_self _ _))
      (fun y hy => htl y (List.mem_cons_of_mem _ hy))]

/-- The parameter loop on a parameter text that the input ends in: `next`
panics with `io.EOF`. -/
theorem escText_truncated : ∀ (fields : List (List Nat)) (fuel : Nat) (nums : List Int),
    fields ≠ [] →
    (∀ fld ∈ fields, ∀ d ∈ fld, isDigit d = true) →
    (∀ fld ∈ fields, digitsValue fld ≤ maxInt) →
    (List.intercalate [59] fields).length ≤ fuel →
    escText fuel (List.intercalate [59] fields) nums = some (.error Error.EOF) := by
  intro fields
  induction fields with
  | nil => intro _ _ h; exact absurd rfl h
  | cons fld more ih =>
    intro fuel nums _ hdig hfit hlen
    cases more with
    | nil =>
      cases fld with
      | nil => simp [List.intercalate, escText]
      | cons d tl =>
        have hd : isDigit d = true := hdig _ (List.mem_cons_self _ _) d (List.mem_cons_self _ _)
        have htl : ∀ x ∈ tl, isDigit x = true := fun x hx =>
          hdig _ (List.mem_cons_self _ _) x (List.mem_cons_of_mem _ hx)
        cases fuel with
        | zero => simp [List.intercalate] at hlen
        | succ k =>
          simp [List.intercalate, escText, escLoop, hd, isDigit_ne_semi hd, Parser.readNum,
            readDigits_end tl d [] hd htl]
    | cons m ms =>
      have ih1 := fun fuel nums hl => ih fuel nums (List.cons_ne_nil _ _)
        (fun fl hfl => hdig fl (List.mem_cons_of_mem _ hfl))
        (fun fl hfl => hfit fl (List.mem_cons_of_mem _ hfl)) hl
      rw [intercalate_cons_cons]
      rw [intercalate_cons_cons] at hlen
      cases fld with
      | nil =>
        cases fuel with
        | zero => simp at hlen
        | succ k =>
          simp only [List.nil_append, List.length_cons] at hlen ⊢
          simp only [escText, escLoop, if_true]
          rw [next_then_esc, ih1 k _ (by omega)]
      | cons d tl =>
        have hd : isDigit d = true := hdig _ (List.mem_cons_self _ _) d (List.mem_cons_self _ _)
        have htl : ∀ x ∈ tl, isDigit x = true := fun x hx =>
          hdig _ (List.mem_cons_self _ _) x (List.mem_cons_of_mem _ hx)
        have hv := hfit _ (List.mem_cons_self _ _)
        have h59 : isDigit 59 = false := by decide
        cases fuel with
        | zero => simp at hlen
        | succ k =>
          simp only [List.cons_append, List.length_cons, List.length_append] at hlen
          simp only [List.cons_append, escText, escLoop,
            isDigit_ne_semi hd, if_false, hd, if_true,
            readNum_run tl d 59 _ hd htl h59 hv]
          rw [next_then_esc, ih1 k _ (by omega)]

/-- ESC `[` and a parameter text that the input ends in. -/
theorem parseFrom_csi_truncated (ps : List Nat) (seq : List Sequence)
    (hps : ∀ c ∈ ps, isDigit c = true ∨ c = 59)
    (hfit : ∀ fld ∈ splitSemi ps, digitsValue fld ≤ maxInt) :
    parseFrom (esc :: 0x5b :: ps) seq = some (seq, Error.EOF) := by
  have h := escText_truncated (splitSemi ps) ps.length [] (splitSemi_ne_nil ps)
    (splitSemi_digits ps hps) hfit (by rw [intercalate_splitSemi])
  rw [intercalate_splitSemi] at h
  rw [parseFrom_csi, h]

/-! ## Claims about the parser -/

/-- C3. For every non-empty list `ps` of decimal parameters (non-empty strings
of ASCII digits), each with a value between 0 and 255, `ParseAll` on
`ESC [ p1 ; ... ; pn m` returns without error exactly the operations
`SelectGraphicsRendition p1, ..., SelectGraphicsRendition pn`, in that order;
for `ESC[1;31m` these are Bold (1), then set-text-color-1 (31). -/
theorem C3_sgr_expansion (ps : List (List Nat)) (hne : ps ≠ [])
    (hdig : ∀ p ∈ ps, p ≠ [] ∧ ∀ d ∈ p, isDigit d = true)
    (hval : ∀ p ∈ ps, digitsValue p ≤ 255) :
    ParseAll ([27, 91] ++ List.intercalate [59] ps ++ [109]) =
      some (ps.map (fun p => Sequence.SelectGraphicsRendition (digitsValue p)), none) ∧
    ParseAll [27, 91, 49, 59, 51, 49, 109] =
      some ([Sequence.SelectGraphicsRendition GraphicsRenditionBold,
        Sequence.SelectGraphicsRendition GraphicsRenditionSetTextColor1], none) := by
  refine ⟨?_, rfl⟩
  have hfit : ∀ p ∈ ps, digitsValue p ≤ maxInt := fun p hp =>
    le_trans (hval p hp) (by decide)
  have h := parseFrom_csi_fields ps 109 [] [] hne (fun p hp => (hdig p hp).2) hfit
    (by decide) (by decide)
  have hfp : fieldParams ps = ps.map (fun p => Int.ofNat (digitsValue p)) := by
    unfold fieldParams
    rw [dropLastEmpty_of_nonempty ps (fun p hp => (hdig p hp).1)]
  have hlen : ¬ (ps.map (fun p => Int.ofNat (digitsValue p))).length = 0 := by
    cases ps with
    | nil => exact absurd rfl hne
    | cons p ps => simp
  have hd : dispatch 109 (fieldParams ps) [] =
      .ok (ps.map (fun p => Sequence.SelectGraphicsRendition (digitsValue p))) := by
    rw [hfp]
    unfold dispatch
    simp only [if_neg hlen]
    simp
    intro p hp
    exact toByte_ofNat _ (hval p hp)
  simp only [hd] at h
  have e : [27, 91] ++ List.intercalate [59] ps ++ [109] =
      esc :: 0x5b :: (List.intercalate [59] ps ++ [109]) := rfl
  rw [e, ParseAll_eq, h, parseFrom_nil]
  rfl

theorem C3_sgr_expansion_witness :
    ParseAll ([27, 91] ++ List.intercalate [59] [[49], [51, 49]] ++ [109]) =
      some ([[49], [51, 49]].map (fun p => Sequence.SelectGraphicsRendition (digitsValue p)),
        none) ∧
    ParseAll [27, 91, 49, 59, 51, 49, 109] =
      some ([Sequence.SelectGraphicsRendition GraphicsRenditionBold,
        Sequence.SelectGraphicsRendition GraphicsRenditionSetTextColor1], none) :=
  C3_sgr_expansion [[49], [51, 49]] (by decide) (by decide) (by decide)

/-- C4, as stated, fails: on the inputs `ESC`, `ESC [` and `A ESC [ 1 ;`, which
end inside a control sequence, `ParseAll` returns no error. -/
theorem C4_counterexample :
    ParseAll [27] = some ([], none) ∧
    ParseAll [27, 91] = some ([], none) ∧
    ParseAll [65, 27, 91, 49, 59] = some ([Sequence.Character 65], none) :=
  ⟨rfl, rfl, rfl⟩

/-- C4, amended. For every byte string `a` without ESC and 0x1A bytes and every
non-empty proper beginning `t` of a control sequence (ESC alone, or ESC `[`
followed by a text `ps` of digits and semicolons whose digit runs fit in an
`int`, `ps` possibly empty), `ParseAll` on `a ++ t` returns no error: it
returns one `Character` for each byte of `a` and nothing for `t`.  The end of
the input ends the parse without error in every state of the parser. -/
theorem C4_truncated_sequence_is_success (a ps : List Nat)
    (ha : ∀ x ∈ a, x ≠ esc ∧ x ≠ eof)
    (hps : ∀ c ∈ ps, isDigit c = true ∨ c = 59)
    (hfit : ∀ fld ∈ splitSemi ps, digitsValue fld ≤ maxInt) :
    ParseAll (a ++ [27]) = some (a.map Sequence.Character, none) ∧
    ParseAll (a ++ ([27, 91] ++ ps)) = some (a.map Sequence.Character, none) := by
  constructor
  · rw [ParseAll_eq, parseFrom_chars a _ _ ha]
    have := parseFrom_esc_end ([] ++ a.map Sequence.Character)
    simp only [esc] at this
    rw [this]
    rfl
  · rw [ParseAll_eq, parseFrom_chars a _ _ ha]
    have := parseFrom_csi_truncated ps ([] ++ a.map Sequence.Character) hps hfit
    simp only [esc] at this
    have e : [27, 91] ++ ps = 27 :: 0x5b :: ps := rfl
    rw [e, this]
    rfl

theorem C4_truncated_sequence_is_success_witness :
    ParseAll ([65, 10] ++ [27]) = some ([65, 10].map Sequence.Character, none) ∧
    ParseAll ([65, 10] ++ ([27, 91] ++ [49, 55, 59, 59, 51])) =
      some ([65, 10].map Sequence.Character, none) :=
  C4_truncated_sequence_is_success [65, 10] [49, 55, 59, 59, 51] (by decide) (by decide)
    (by decide)

/-- C5. For every byte `x` other than `[` (0x5B), every byte string `a` without
ESC and 0x1A bytes and every byte string `b`, `ParseAll` on
`a ++ [ESC, x] ++ b` returns the invalid-escape error together with exactly
the `Character` operations of `a` (no operation for the bytes from that ESC
on), and `Parse` on the same input returns that error and no image. -/
theorem C5_malformed_escape (x : Nat) (a b : List Nat) (hx : x ≠ 0x5b)
    (ha : ∀ y ∈ a, y ≠ esc ∧ y ≠ eof) :
    ParseAll (a ++ [esc, x] ++ b) =
      some (a.map Sequence.Character, some (Error.invalidEscape x)) ∧
    Parse (a ++ [esc, x] ++ b) = some (.error (Failure.error (Error.invalidEscape x))) := by
  have h : ParseAll (a ++ [esc, x] ++ b) =
      some (a.map Sequence.Character, some (Error.invalidEscape x)) := by
    rw [List.append_assoc, ParseAll_eq, parseFrom_chars a _ _ ha]
    have e : [esc, x] ++ b = esc :: x :: b := rfl
    rw [e, parseFrom_esc_bad x b _ hx]
    rfl
  exact ⟨h, by rw [Parse, h]⟩

theorem C5_malformed_escape_witness :
    ParseAll ([65, 66] ++ [esc, 88] ++ [67]) =
      some ([65, 66].map Sequence.Character, some (Error.invalidEscape 88)) ∧
    Parse ([65, 66] ++ [esc, 88] ++ [67]) =
      some (.error (Failure.error (Error.invalidEscape 88))) :=
  C5_malformed_escape 88 [65, 66] [67] (by decide) (by decide)

/-- C7. For every byte string `a` that contains neither ESC (0x1B) nor 0x1A,
`ParseAll` returns without error exactly one `Character` operation for each
byte of `a`, in input order (LF and CR included); and for every byte string
`b`, `ParseAll` on `a ++ [0x1A] ++ b` returns that same result, so nothing
after the end-of-input marker is interpreted. -/
theorem C7_plain_bytes_and_eof_marker (a b : List Nat)
    (ha : ∀ x ∈ a, x ≠ esc ∧ x ≠ eof) :
    ParseAll a = some (a.map Sequence.Character, none) ∧
    ParseAll (a ++ [0x1A] ++ b) = some (a.map Sequence.Character, none) := by
  constructor
  · have := parseFrom_chars a [] [] ha
    rw [List.append_nil] at this
    rw [ParseAll_eq, this, parseFrom_nil]
    rfl
  · rw [List.append_assoc, ParseAll_eq, parseFrom_chars a _ _ ha]
    have e : [0x1A] ++ b = eof :: b := rfl
    rw [e, parseFrom_eof]
    rfl

theorem C7_plain_bytes_and_eof_marker_witness :
    ParseAll [72, 105, 10, 13] = some ([72, 105, 10, 13].map Sequence.Character, none) ∧
    ParseAll ([72, 105, 10, 13] ++ [0x1A] ++ [27, 88]) =
      some ([72, 105, 10, 13].map Sequence.Character, none) :=
  C7_plain_bytes_and_eof_marker [72, 105, 10, 13] [27, 88] (by decide)

/-! ## The dispatch on the final byte -/

/-- The dispatch appends to the sequence built so far, or fails. -/
theorem dispatch_append (c : Nat) (nums : List Int) (seq : List Sequence) :
    dispatch c nums seq =
      match dispatch c nums [] with
      | .error e => .error e
      | .ok ops => .ok (seq ++ ops) := by
  unfold dispatch
  split_ifs <;> simp

theorem dispatch_unknown (c : Nat) (nums : List Int) (seq : List Sequence)
    (h : c ∉ knownFinal) : dispatch c nums seq = .error (Error.unknownEscape nums c) := by
  simp only [knownFinal, List.mem_cons, List.mem_singleton, not_or, List.not_mem_nil,
    or_false] at h
  obtain ⟨h1, h2, h3, h4, h5, h6, h7, h8, h9, h10⟩ := h
  simp [dispatch, h1, h2, h3, h4, h5, h6, h7, h8, h9, h10]

theorem dispatch_known (c : Nat) (nums : List Int) (h : c ∈ knownFinal) :
    ∃ ops, dispatch c nums [] = .ok ops := by
  simp only [knownFinal, List.mem_cons, List.mem_singleton, List.not_mem_nil, or_false] at h
  rcases h with h | h | h | h | h | h | h | h | h | h <;> subst h <;> simp [dispatch]

/-- C6. For every parameter text `ps` (digits and semicolons whose digit runs
fit in an `int`) and every final byte `f` that is neither a digit nor `;`:
`ParseAll` on `ESC [ ps f` returns an error if and only if `f` is not one of
`A B C D H J m s u M`; for such an `f` the error is the unknown-escape error,
whatever plain bytes precede and whatever bytes follow the sequence, and no
operation is emitted for the sequence; for every other `f` the loop goes on
with the byte after `f`; and when `f` is `M` the sequence emits no operation,
so that the result is that of the input after the sequence. -/
theorem C6_unknown_final_byte (ps : List Nat) (f : Nat)
    (hps : ∀ c ∈ ps, isDigit c = true ∨ c = 59)
    (hfit : ∀ fld ∈ splitSemi ps, digitsValue fld ≤ maxInt)
    (hf : isDigit f = false) (hf59 : f ≠ 59) :
    ((∃ seq e, ParseAll ([27, 91] ++ ps ++ [f]) = some (seq, some e)) ↔ f ∉ knownFinal) ∧
    (f ∉ knownFinal → ∀ a rest : List Nat, (∀ x ∈ a, x ≠ esc ∧ x ≠ eof) →
      ParseAll (a ++ ([27, 91] ++ ps ++ f :: rest)) =
        some (a.map Sequence.Character, some (Error.unknownEscape (refParams ps) f))) ∧
    (f ∈ knownFinal → ∃ ops, ∀ (rest : List Nat) (seq : List Sequence),
      parseFrom ([27, 91] ++ ps ++ f :: rest) seq = parseFrom rest (seq ++ ops)) ∧
    (f = 77 → ∀ rest : List Nat, ParseAll ([27, 91] ++ ps ++ f :: rest) = ParseAll rest) := by
  have key := fun rest seq => parseFrom_csi_text ps f rest seq hps hfit hf hf59
  have e : ∀ rest, [27, 91] ++ ps ++ f :: rest = esc :: 0x5b :: (ps ++ f :: rest) :=
    fun _ => rfl
  refine ⟨?_, ?_, ?_, ?_⟩
  · rw [e, ParseAll_eq, key]
    by_cases hk : f ∈ knownFinal
    · obtain ⟨ops, ho⟩ := dispatch_known f (refParams ps) hk
      simp only [ho, parseFrom_nil, Option.map_some', recovered, if_true, hk, not_true,
        iff_false, not_exists]
      intro seq er h
      simp at h
    · rw [dispatch_unknown _ _ _ hk]
      simp only [Option.map_some', recovered, hk, not_false_eq_true, iff_true]
      exact ⟨[], Error.unknownEscape (refParams ps) f, by simp⟩
  · intro hk a rest ha
    rw [e, ParseAll_eq, parseFrom_chars a _ _ ha, key, dispatch_unknown _ _ _ hk]
    simp [recovered]
  · intro hk
    obtain ⟨ops, ho⟩ := dispatch_known f (refParams ps) hk
    refine ⟨ops, fun rest seq => ?_⟩
    rw [e, key, dispatch_append, ho]
  · intro h77 rest
    subst h77
    rw [e, ParseAll_eq, ParseAll_eq, key]
    simp [dispatch]

theorem C6_unknown_final_byte_witness :
    ((∃ seq e, ParseAll ([27, 91] ++ [49, 59, 50] ++ [90]) = some (seq, some e)) ↔
      90 ∉ knownFinal) ∧
    (90 ∉ knownFinal → ∀ a rest : List Nat, (∀ x ∈ a, x ≠ esc ∧ x ≠ eof) →
      ParseAll (a ++ ([27, 91] ++ [49, 59, 50] ++ 90 :: rest)) =
        some (a.map Sequence.Character,
          some (Error.unknownEscape (refParams [49, 59, 50]) 90))) ∧
    (90 ∈ knownFinal → ∃ ops, ∀ (rest : List Nat) (seq : List Sequence),
      parseFrom ([27, 91] ++ [49, 59, 50] ++ 90 :: rest) seq = parseFrom rest (seq ++ ops)) ∧
    (90 = 77 → ∀ rest : List Nat,
      ParseAll ([27, 91] ++ [49, 59, 50] ++ 90 :: rest) = ParseAll rest) :=
  C6_unknown_final_byte [49, 59, 50] 90 (by decide) (by decide) (by decide) (by decide)

/-! ## Invariants of the emitted sequence -/

theorem readNum_nonneg {p p1 : Parser} {n : Int} (h : p.readNum = .ok (n, p1)) : 0 ≤ n := by
  unfold Parser.readNum at h
  split at h
  · cases h
  · split at h
    · cases h
    · rename_i m hA
      cases h
      unfold Atoi at hA
      split at hA
      · cases hA
      · split at hA
        · cases hA
          exact Int.ofNat_nonneg _
        · cases hA

theorem escLoop_nonneg : ∀ (fuel : Nat) (p : Parser) (nums nums1 : List Int) (p1 : Parser),
    escLoop fuel p nums = some (.ok (nums1, p1)) → (∀ n ∈ nums, 0 ≤ n) →
    ∀ n ∈ nums1, 0 ≤ n := by
  intro fuel
  induction fuel with
  | zero => intro p nums nums1 p1 h; simp [escLoop] at h
  | succ f ih =>
    intro p nums nums1 p1 h hn
    unfold escLoop at h
    have happ : ∀ m : Int, 0 ≤ m → ∀ n ∈ nums ++ [m], 0 ≤ n := by
      intro m hm n hmem
      rcases List.mem_append.1 hmem with h1 | h1
      · exact hn n h1
      · rw [List.mem_singleton.1 h1]; exact hm
    split at h
    · split at h
      · cases h
      · exact ih _ _ _ _ h (happ 0 (le_refl _))
    · split at h
      · split at h
        · cases h
        · rename_i n p2 hrn
          have h0 := readNum_nonneg hrn
          split at h
          · split at h
            · cases h
            · exact ih _ _ _ _ h (happ n h0)
          · exact ih _ _ _ _ h (happ n h0)
      · cases h
        exact hn

/-- A property of operations that holds for every `Character` and that the
dispatch keeps holds for everything `ParseAll` emits. -/
theorem parseLoop_all (P : Sequence → Prop) (hchar : ∀ c, P (Sequence.Character c))
    (hdisp : ∀ (c : Nat) (nums : List Int) (seq seq1 : List Sequence),
      (∀ n ∈ nums, 0 ≤ n) → dispatch c nums seq = .ok seq1 →
      (∀ op ∈ seq, P op) → ∀ op ∈ seq1, P op) :
    ∀ (fuel : Nat) (p : Parser) (seq : List Sequence) (res : List Sequence × Error),
      parseLoop fuel p seq = some res → (∀ op ∈ seq, P op) → ∀ op ∈ res.1, P op := by
  intro fuel
  induction fuel with
  | zero => intro p seq res h; simp [parseLoop] at h
  | succ f ih =>
    intro p seq res h hs
    unfold parseLoop at h
    split at h
    · cases h; exact hs
    · split at h
      · cases h; exact hs
      · split at h
        · split at h
          · cases h; exact hs
          · split at h
            · cases h; exact hs
            · split at h
              · cases h; exact hs
              · split at h
                · cases h
                · cases h; exact hs
                · rename_i nums p4 hesc
                  have hn := escLoop_nonneg _ _ _ _ _ hesc (by simp)
                  split at h
                  · cases h; exact hs
                  · rename_i seq1 hd
                    exact ih _ _ _ h (hdisp _ _ _ _ hn hd hs)
        · refine ih _ _ _ h ?_
          intro op hop
          rcases List.mem_append.1 hop with h1 | h1
          · exact hs op h1
          · rw [List.mem_singleton.1 h1]; exact hchar _

theorem zeroToOne_padToTwo (nums : List Int) (hn : ∀ n ∈ nums, 0 ≤ n) :
    2 ≤ (zeroToOne (padToTwo nums)).length ∧ ∀ n ∈ zeroToOne (padToTwo nums), 1 ≤ n := by
  constructor
  · simp only [zeroToOne, padToTwo, List.length_map, List.length_append, List.length_replicate]
    omega
  · intro n hmem
    simp only [zeroToOne, padToTwo, List.mem_map, List.mem_append, List.mem_replicate] at hmem
    obtain ⟨m, hm, rfl⟩ := hmem
    have : 0 ≤ m := by
      rcases hm with h | h
      · exact hn m h
      · rw [h.2]; decide
    split <;> omega

theorem dispatch_validMove (c : Nat) (nums : List Int) (seq seq1 : List Sequence)
    (hn : ∀ n ∈ nums, 0 ≤ n) (h : dispatch c nums seq = .ok seq1)
    (hs : ∀ op ∈ seq, validMove op) : ∀ op ∈ seq1, validMove op := by
  obtain ⟨hlen, hall⟩ := zeroToOne_padToTwo nums hn
  unfold dispatch at h
  split_ifs at h <;> cases h <;> intro op hop
  all_goals first
    | exact hs op hop
    | skip
  all_goals
    rcases List.mem_append.1 hop with h1 | h1
    · exact hs op h1
    · first
      | (rw [List.mem_singleton.1 h1]; exact trivial)
      | (obtain ⟨m, _, rfl⟩ := List.mem_map.1 h1; exact trivial)
      | (rw [List.mem_singleton.1 h1]
         simp only [validMove]
         constructor
         · apply hall
           rw [List.getD_eq_getElem _ _ (by omega)]
           exact List.getElem_mem _
         · apply hall
           rw [List.getD_eq_getElem _ _ (by omega)]
           exact List.getElem_mem _)

theorem fieldParams_single (p : List Nat) :
    fieldParams [p] = if p = [] then [] else [Int.ofNat (digitsValue p)] := by
  unfold fieldParams dropLastEmpty
  by_cases hp : p = []
  · simp [hp]
  · have : ¬ ([p].getLast? = some []) := by simpa using hp
    simp [hp]

/-- Row and column that `H` takes from the parameters of a list of fields. -/
theorem moveCursor_of_fields (params : List (List Nat)) (hne : params ≠ []) :
    (zeroToOne (padToTwo (fieldParams params))).getD 0 0 =
      orOne (Int.ofNat (digitsValue (params.getD 0 []))) ∧
    (zeroToOne (padToTwo (fieldParams params))).getD 1 0 =
      orOne (Int.ofNat (digitsValue (params.getD 1 []))) := by
  cases params with
  | nil => exact absurd rfl hne
  | cons p rest =>
    cases rest with
    | nil =>
      rw [fieldParams_single]
      by_cases hp : p = []
      · subst hp
        simp [zeroToOne, padToTwo, orOne, digitsValue]
      · simp [hp, zeroToOne, padToTwo, orOne, digitsValue]
    | cons q rest =>
      rw [fieldParams_cons_cons]
      cases rest with
      | nil =>
        rw [fieldParams_single]
        by_cases hq : q = []
        · subst hq
          simp [zeroToOne, padToTwo, orOne, digitsValue]
        · simp [hq, zeroToOne, padToTwo, orOne]
      | cons r more =>
        rw [fieldParams_cons_cons]
        simp [zeroToOne, padToTwo, orOne]

/-- C8. For every list of decimal parameters that fit in an `int` (strings of
ASCII digits; an empty string is a parameter left out), `ParseAll` on
`ESC [ params H`, the parameters joined by `;`, returns without error exactly
one operation `MoveCursorTo row col`, where `row` is the value of the first
parameter and `col` that of the second, each replaced by 1 when the parameter
is missing or has the value 0, and later parameters are ignored.  Hence on
every input `ParseAll` returns, and every `MoveCursorTo` it returns has
`row >= 1` and `col >= 1`. -/
theorem C8_move_cursor_to (params : List (List Nat))
    (hdig : ∀ p ∈ params, ∀ d ∈ p, isDigit d = true)
    (hfit : ∀ p ∈ params, digitsValue p ≤ maxInt) :
    ParseAll ([27, 91] ++ List.intercalate [59] params ++ [72]) =
      some ([Sequence.MoveCursorTo (orOne (Int.ofNat (digitsValue (params.getD 0 []))))
        (orOne (Int.ofNat (digitsValue (params.getD 1 []))))], none) ∧
    ∀ input : List Nat, ∃ res, ParseAll input = some res ∧
      ∀ row col, Sequence.MoveCursorTo row col ∈ res.1 → 1 ≤ row ∧ 1 ≤ col := by
  constructor
  · have e : [27, 91] ++ List.intercalate [59] params ++ [72] =
        esc :: 0x5b :: (List.intercalate [59] params ++ [72]) := rfl
    rw [e, ParseAll_eq]
    cases hp : params with
    | nil =>
      have h := parseFrom_csi_fields [[]] 72 [] [] (by decide) (by decide) (by decide)
        (by decide) (by decide)
      have hd : dispatch 72 (fieldParams [[]]) [] = .ok [Sequence.MoveCursorTo 1 1] := rfl
      simp only [hd] at h
      have e2 : List.intercalate [59] ([] : List (List Nat)) = List.intercalate [59] [[]] := rfl
      rw [e2, h, parseFrom_nil]
      rfl
    | cons p rest =>
      rw [← hp]
      have hne : params ≠ [] := by rw [hp]; exact List.cons_ne_nil _ _
      have h := parseFrom_csi_fields params 72 [] [] hne hdig hfit (by decide) (by decide)
      obtain ⟨h0, h1⟩ := moveCursor_of_fields params hne
      have hd : dispatch 72 (fieldParams params) [] =
          .ok [Sequence.MoveCursorTo (orOne (Int.ofNat (digitsValue (params.getD 0 []))))
            (orOne (Int.ofNat (digitsValue (params.getD 1 []))))] := by
        rw [← h0, ← h1]
        simp [dispatch]
      simp only [hd] at h
      rw [h, parseFrom_nil]
      rfl
  · intro input
    obtain ⟨x, hx⟩ := parseFrom_some input []
    refine ⟨recovered x, by rw [ParseAll_eq, hx]; rfl, ?_⟩
    intro row col hmem
    have := parseLoop_all validMove (fun _ => trivial) dispatch_validMove _ _ _ _ hx
      (by simp) _ hmem
    exact this

theorem C8_move_cursor_to_witness :
    ParseAll ([27, 91] ++ List.intercalate [59] [[48], [53], [57]] ++ [72]) =
      some ([Sequence.MoveCursorTo
        (orOne (Int.ofNat (digitsValue ([[48], [53], [57]].getD 0 []))))
        (orOne (Int.ofNat (digitsValue ([[48], [53], [57]].getD 1 []))))], none) ∧
    ∀ input : List Nat, ∃ res, ParseAll input = some res ∧
      ∀ row col, Sequence.MoveCursorTo row col ∈ res.1 → 1 ≤ row ∧ 1 ≤ col :=
  C8_move_cursor_to [[48], [53], [57]] (by decide) (by decide)

/-! ## Machine integers and the line-wrap loop -/

theorem wrapInt_id (x : Int) (h1 : -(2 ^ 63) ≤ x) (h2 : x < 2 ^ 63) : wrapInt x = x := by
  unfold wrapInt
  omega

theorem wrapInt_le (x : Int) (h : 0 ≤ x) : wrapInt x ≤ x := by
  unfold wrapInt
  omega

/-- The loop does nothing when the column is within the screen. -/
theorem wrapLoop_within (sw : Int) (fuel : Nat) (row col : Int) (h : col ≤ sw) :
    wrapLoop sw fuel row col = some (row, col) := by
  cases fuel <;> simp [wrapLoop, not_lt.2 h]

/-- With a screen width of at least 1 the loop ends within `col - sw` rounds,
with the column within the screen. -/
theorem wrapLoop_ends (sw : Int) (hsw : 1 ≤ sw) : ∀ (fuel : Nat) (row col : Int),
    col ≤ sw + fuel →
    ∃ row1 col1, wrapLoop sw fuel row col = some (row1, col1) ∧ col1 ≤ sw := by
  intro fuel
  induction fuel with
  | zero =>
    intro row col h
    exact ⟨row, col, wrapLoop_within sw 0 row col (by simpa using h), by simpa using h⟩
  | succ f ih =>
    intro row col h
    by_cases hc : col > sw
    · have h1 : wrapInt (col - sw) ≤ col - sw := wrapInt_le _ (by omega)
      obtain ⟨row1, col1, e, hle⟩ := ih (wrapInt (row + 1)) (wrapInt (col - sw))
        (by push_cast at h ⊢; omega)
      exact ⟨row1, col1, by simp [wrapLoop, hc, e], hle⟩
    · exact ⟨row, col, wrapLoop_within sw _ row col (not_lt.1 hc), not_lt.1 hc⟩

/-- The fuel that `step` hands to the loop is enough. -/
theorem wrapLoop_step (sw : Int) (hsw : 1 ≤ sw) (row col : Int) :
    ∃ row1 col1, wrapLoop sw col.toNat row col = some (row1, col1) ∧ col1 ≤ sw := by
  apply wrapLoop_ends sw hsw
  omega

/-! ## One operation of the renderer -/

theorem step_error {r : Renderer} {s : Sequence} {f : Failure} (h : r.apply s = .error f) :
    r.step s = .error f := by
  simp [Renderer.step, h]

/-- After the type switch the line-wrap loop ends, and only moves the cursor. -/
theorem step_of_apply {r r1 : Renderer} {s : Sequence} (h : r.apply s = .ok r1)
    (hsw : 1 ≤ r1.screenWidth) :
    ∃ row1 col1, r.step s = .ok { r1 with row := row1, col := col1 } ∧
      col1 ≤ r1.screenWidth := by
  obtain ⟨row1, col1, e, hle⟩ := wrapLoop_step r1.screenWidth hsw r1.row r1.col
  exact ⟨row1, col1, by simp [Renderer.step, h, e], hle⟩

/-- When the column is within the screen after the type switch, the line-wrap
loop changes nothing. -/
theorem step_of_apply_within {r r1 : Renderer} {s : Sequence} (h : r.apply s = .ok r1)
    (hcol : r1.col ≤ r1.screenWidth) : r.step s = .ok r1 := by
  simp [Renderer.step, h, wrapLoop_within _ _ _ _ hcol]

/-! ## Values of `int`, and the cell writes that return -/

theorem wrapInt_isInt (x : Int) : isInt (wrapInt x) := by
  unfold isInt wrapInt
  omega

theorem maxInt_eq : maxInt = 9223372036854775807 := by decide

/-- With the cursor at `int` values other than the smallest, the indices of
the cell write are below the largest `int`. -/
theorem pen_ends (r : Renderer) (hrow : isInt r.row) (hcol : isInt r.col)
    (h1 : -(2 ^ 63) < r.row) (h2 : -(2 ^ 63) < r.col) :
    r.penY ≠ maxInt ∧ r.penX ≠ maxInt := by
  have e1 : wrapInt (r.row - 1) = r.row - 1 := wrapInt_id _ (by omega) (by have := hrow.2; omega)
  have e2 : wrapInt (r.col - 1) = r.col - 1 := wrapInt_id _ (by omega) (by have := hcol.2; omega)
  have a := hrow.2
  have b := hcol.2
  unfold Renderer.penY Renderer.penX
  rw [e1, e2, maxInt_eq]
  constructor <;> split_ifs <;> omega

/-- With the cursor row or column at the smallest `int`, an index of the cell
write is the largest `int`. -/
theorem pen_stuck (r : Renderer) (h : r.row = -(2 ^ 63) ∨ r.col = -(2 ^ 63)) :
    r.penY = maxInt ∨ r.penX = maxInt := by
  unfold Renderer.penY Renderer.penX wrapInt
  rw [maxInt_eq]
  rcases h with h | h
  · left
    rw [h]
    decide
  · right
    rw [h]
    decide

/-- The write of a character other than LF and CR at indices below the largest
`int`. -/
theorem apply_char (r : Renderer) (c : Nat) (h1 : c ≠ lf) (h2 : c ≠ cr)
    (hy : r.penY ≠ maxInt) (hx : r.penX ≠ maxInt) :
    r.apply (Sequence.Character c) =
      .ok { r with rows := writeCell r.rows r.penY r.penX (r.cell c),
                   col := wrapInt (r.col + 1) } := by
  have hn : ¬ (r.penY = maxInt ∨ r.penX = maxInt) := not_or.2 ⟨hy, hx⟩
  unfold Renderer.penY Renderer.penX at hn
  simp only [Renderer.apply, if_neg h1, if_neg h2]
  rw [if_neg hn]
  rfl

/-- The write of a character other than LF and CR at an index that is the
largest `int` does not return. -/
theorem apply_char_stuck (r : Renderer) (c : Nat) (h1 : c ≠ lf) (h2 : c ≠ cr)
    (h : r.penY = maxInt ∨ r.penX = maxInt) :
    r.apply (Sequence.Character c) = .error Failure.noReturn := by
  unfold Renderer.penY Renderer.penX at h
  simp only [Renderer.apply, if_neg h1, if_neg h2]
  rw [if_pos h]

/-- A write that returns was at indices below the largest `int`. -/
theorem apply_char_ok {r r1 : Renderer} {c : Nat} (h1 : c ≠ lf) (h2 : c ≠ cr)
    (h : r.apply (Sequence.Character c) = .ok r1) :
    r.penY ≠ maxInt ∧ r.penX ≠ maxInt ∧
      r1 = { r with rows := writeCell r.rows r.penY r.penX (r.cell c),
                    col := wrapInt (r.col + 1) } := by
  by_cases hs : r.penY = maxInt ∨ r.penX = maxInt
  · rw [apply_char_stuck r c h1 h2 hs] at h
    cases h
  · have hn := not_or.1 hs
    rw [apply_char r c h1 h2 hn.1 hn.2] at h
    cases h
    exact ⟨hn.1, hn.2, rfl⟩

/-- The type switch keeps the cursor and the saved cursors at values of `int`,
on an operation whose fields are values of `int`. -/
theorem apply_fitsInt {r r1 : Renderer} {s : Sequence} (h : r.apply s = .ok r1)
    (hr : r.fitsInt) (hs : s.fitsInt) : r1.fitsInt := by
  obtain ⟨a, b, c⟩ := hr
  cases s with
  | Character ch =>
    by_cases h1 : ch = lf
    · simp only [Renderer.apply, if_pos h1] at h
      cases h
      exact ⟨wrapInt_isInt _, (show isInt (1 : Int) from ⟨by decide, by decide⟩), c⟩
    · by_cases h2 : ch = cr
      · simp only [Renderer.apply, if_neg h1, if_pos h2] at h
        cases h
        exact ⟨a, b, c⟩
      · obtain ⟨_, _, e⟩ := apply_char_ok h1 h2 h
        rw [e]
        exact ⟨a, wrapInt_isInt _, c⟩
  | Clear t =>
    simp only [Renderer.apply] at h
    split_ifs at h
    cases h
    exact ⟨a, b, c⟩
  | CursorUp n => cases h; exact ⟨wrapInt_isInt _, b, c⟩
  | CursorDown n => cases h; exact ⟨wrapInt_isInt _, b, c⟩
  | CursorForward n => cases h; exact ⟨a, wrapInt_isInt _, c⟩
  | CursorBackward n => cases h; exact ⟨a, wrapInt_isInt _, c⟩
  | MoveCursorTo row col => cases h; exact ⟨hs.1, hs.2, c⟩
  | SaveCursorPosition =>
    cases h
    refine ⟨a, b, ?_⟩
    intro p hp
    rcases List.mem_append.1 hp with hp | hp
    · exact c p hp
    · rw [List.mem_singleton.1 hp]
      exact ⟨a, b⟩
  | RestoreCursorPosition =>
    simp only [Renderer.apply] at h
    split at h
    · cases h
    · rename_i x hx
      cases h
      have hmem : x ∈ r.savedCursors := List.mem_of_getLast?_eq_some hx
      exact ⟨(c x hmem).1, (c x hmem).2, fun p hp => c p (List.mem_of_mem_dropLast hp)⟩
  | SelectGraphicsRendition n =>
    simp only [Renderer.apply] at h
    split_ifs at h <;> cases h <;> exact ⟨a, b, c⟩
  | Other => cases h

/-- The line-wrap loop keeps the cursor at values of `int`. -/
theorem wrapLoop_isInt (sw : Int) : ∀ (fuel : Nat) (row col row1 col1 : Int),
    wrapLoop sw fuel row col = some (row1, col1) → isInt row → isInt col →
    isInt row1 ∧ isInt col1 := by
  intro fuel
  induction fuel with
  | zero =>
    intro row col row1 col1 h a b
    simp only [wrapLoop] at h
    split_ifs at h
    cases h
    exact ⟨a, b⟩
  | succ f ih =>
    intro row col row1 col1 h a b
    simp only [wrapLoop] at h
    split_ifs at h
    · exact ih _ _ _ _ h (wrapInt_isInt _) (wrapInt_isInt _)
    · cases h
      exact ⟨a, b⟩

/-- A successful operation keeps the cursor and the saved cursors at values of
`int`. -/
theorem step_fitsInt {r r1 : Renderer} {s : Sequence} (h : r.step s = .ok r1)
    (hr : r.fitsInt) (hs : s.fitsInt) : r1.fitsInt := by
  unfold Renderer.step at h
  split at h
  · cases h
  · rename_i r0 ha
    have h0 := apply_fitsInt ha hr hs
    split at h
    · cases h
    · rename_i row col hw
      cases h
      obtain ⟨a, b⟩ := wrapLoop_isInt _ _ _ _ _ _ hw h0.1 h0.2.1
      exact ⟨a, b, h0.2.2⟩

/-- A run keeps the cursor and the saved cursors at values of `int`, on
operations whose fields are values of `int`. -/
theorem run_fitsInt : ∀ (seq : List Sequence) (r r2 : Renderer), r.run seq = (r2, none) →
    r.fitsInt → (∀ s ∈ seq, s.fitsInt) → r2.fitsInt := by
  intro seq
  induction seq with
  | nil =>
    intro r r2 h hfit _
    cases h
    exact hfit
  | cons s rest ih =>
    intro r r2 h hfit hints
    cases hs : r.step s with
    | error f =>
      simp only [Renderer.run, hs] at h
      cases h
    | ok r1 =>
      simp only [Renderer.run, hs] at h
      exact ih r1 r2 h (step_fitsInt hs hfit (hints s (List.mem_cons_self _ _)))
        (fun x hx => hints x (List.mem_cons_of_mem _ hx))

/-- The type switch succeeds on every operation that is not rejected, unless it
is a restore on an empty stack or a cell write at an index that is the largest
`int`; it keeps the screen width and changes the saved-cursor stack as
`savedAfter` says. -/
theorem apply_ok (r : Renderer) (s : Sequence) (hs : s ≠ Sequence.Other)
    (hr : ¬ rejected s) (hst : s = Sequence.RestoreCursorPosition → r.savedCursors ≠ [])
    (hw : ∀ c, s = Sequence.Character c → c ≠ lf → c ≠ cr →
      r.penY ≠ maxInt ∧ r.penX ≠ maxInt) :
    ∃ r1, r.apply s = .ok r1 ∧ r1.screenWidth = r.screenWidth ∧
      r1.savedCursors = savedAfter r s := by
  cases s with
  | Character c =>
    by_cases h1 : c = lf
    · simp only [Renderer.apply, if_pos h1]
      exact ⟨_, rfl, rfl, rfl⟩
    · by_cases h2 : c = cr
      · simp only [Renderer.apply, if_neg h1, if_pos h2]
        exact ⟨_, rfl, rfl, rfl⟩
      · rw [apply_char r c h1 h2 (hw c rfl h1 h2).1 (hw c rfl h1 h2).2]
        exact ⟨_, rfl, rfl, rfl⟩
  | CursorUp n => exact ⟨_, rfl, rfl, rfl⟩
  | CursorDown n => exact ⟨_, rfl, rfl, rfl⟩
  | CursorForward n => exact ⟨_, rfl, rfl, rfl⟩
  | CursorBackward n => exact ⟨_, rfl, rfl, rfl⟩
  | MoveCursorTo row col => exact ⟨_, rfl, rfl, rfl⟩
  | Clear t =>
    have ht : t = ClearTypeScreen := by
      simp only [rejected, ne_eq, not_not] at hr
      exact hr
    simp only [Renderer.apply, if_pos ht]
    exact ⟨_, rfl, rfl, rfl⟩
  | SaveCursorPosition => exact ⟨_, rfl, rfl, rfl⟩
  | RestoreCursorPosition =>
    have hne := hst rfl
    cases hl : r.savedCursors.getLast? with
    | none => exact absurd (List.getLast?_eq_none_iff.1 hl) hne
    | some x =>
      simp only [Renderer.apply, hl]
      exact ⟨_, rfl, rfl, rfl⟩
  | SelectGraphicsRendition n =>
    simp only [rejected, not_not, handledRendition] at hr
    simp only [Renderer.apply, GraphicsRenditionReset, GraphicsRenditionBold,
      GraphicsrenditionDefaultTextColor, GraphicsRenditionSetTextColor0,
      GraphicsRenditionSetTextColor7, GraphicsRenditionSetBackgroundColor0,
      GraphicsRenditionSetBackgroundColor7, GraphicRenditionBlinkSlow,
      GraphicRenditionBlinkFast]
    split_ifs
    all_goals first
      | exact ⟨_, rfl, rfl, rfl⟩
      | (exfalso; omega)
  | Other => exact absurd rfl hs

/-- The type switch returns an error on every rejected operation. -/
theorem apply_rejected (r : Renderer) (s : Sequence) (hr : rejected s) :
    ∃ e, r.apply s = .error (Failure.error e) := by
  cases s with
  | Clear t =>
    have ht : ¬ t = ClearTypeScreen := hr
    simp only [Renderer.apply, if_neg ht]
    exact ⟨_, rfl⟩
  | SelectGraphicsRendition n =>
    simp only [rejected, handledRendition] at hr
    simp only [Renderer.apply, GraphicsRenditionReset, GraphicsRenditionBold,
      GraphicsrenditionDefaultTextColor, GraphicsRenditionSetTextColor0,
      GraphicsRenditionSetTextColor7, GraphicsRenditionSetBackgroundColor0,
      GraphicsRenditionSetBackgroundColor7, GraphicRenditionBlinkSlow,
      GraphicRenditionBlinkFast]
    split_ifs
    all_goals first
      | exact ⟨_, rfl⟩
      | (exfalso; omega)
  | _ => exact absurd hr (by simp [rejected])

/-- One operation that is not rejected, in a state with a screen width of at
least 1: the operation succeeds, the column ends within the screen. -/
theorem step_ok (r : Renderer) (s : Sequence) (hsw : 1 ≤ r.screenWidth)
    (hs : s ≠ Sequence.Other) (hr : ¬ rejected s)
    (hst : s = Sequence.RestoreCursorPosition → r.savedCursors ≠ [])
    (hpen : ∀ c, s = Sequence.Character c → c ≠ lf → c ≠ cr →
      r.penY ≠ maxInt ∧ r.penX ≠ maxInt) :
    ∃ r1, r.step s = .ok r1 ∧ r1.screenWidth = r.screenWidth ∧
      r1.savedCursors = savedAfter r s ∧ r1.col ≤ r1.screenWidth := by
  obtain ⟨r1, ha, hw, hsv⟩ := apply_ok r s hs hr hst hpen
  obtain ⟨row1, col1, e, hle⟩ := step_of_apply ha (by rw [hw]; exact hsw)
  exact ⟨_, e, hw, hsv, hle⟩

/-- An operation that returns an error is a rejected one or of a foreign
type. -/
theorem step_error_kind {r : Renderer} {s : Sequence} {e : Error}
    (h : r.step s = .error (Failure.error e)) : rejected s ∨ s = Sequence.Other := by
  have ha : r.apply s = .error (Failure.error e) := by
    unfold Renderer.step at h
    split at h
    · rename_i f hf
      cases h
      exact hf
    · split at h <;> cases h
  by_cases hr : rejected s
  · exact Or.inl hr
  · right
    cases s with
    | Character c =>
      simp only [Renderer.apply] at ha
      split_ifs at ha <;> cases ha
    | Clear t =>
      have ht : t = ClearTypeScreen := by
        simp only [rejected, ne_eq, not_not] at hr
        exact hr
      simp only [Renderer.apply, if_pos ht] at ha
      cases ha
    | SelectGraphicsRendition n =>
      obtain ⟨r1, e1, _⟩ := apply_ok r (Sequence.SelectGraphicsRendition n) (by simp) hr
        (fun x => by cases x) (fun c x => by cases x)
      rw [e1] at ha
      cases ha
    | RestoreCursorPosition =>
      simp only [Renderer.apply] at ha
      split at ha <;> cases ha
    | Other => rfl
    | _ => cases ha

/-- What the condition `writesInRange` says of the first operation and of the
rest of the run. -/
theorem writesInRange_cons {r : Renderer} {s : Sequence} {rest : List Sequence}
    (h : writesInRange r (s :: rest) = true) :
    (∀ c, s = Sequence.Character c → c ≠ lf → c ≠ cr →
      -(2 ^ 63) < r.row ∧ -(2 ^ 63) < r.col) ∧
    (∀ r1, r.step s = .ok r1 → writesInRange r1 rest = true) := by
  simp only [writesInRange, Bool.and_eq_true] at h
  obtain ⟨a, b⟩ := h
  constructor
  · intro c e h1 h2
    subst e
    simp only [Bool.or_eq_true, Bool.and_eq_true, decide_eq_true_eq] at a
    rcases a with (a | a) | a
    · exact absurd a h1
    · exact absurd a h2
    · exact a
  · intro r1 hs
    rw [hs] at b
    exact b

theorem step_rejected (r : Renderer) (s : Sequence) (hr : rejected s) :
    ∃ e, r.step s = .error (Failure.error e) := by
  obtain ⟨e, he⟩ := apply_rejected r s hr
  exact ⟨e, step_error he⟩

/-! ## Saves and restores along a sequence -/

theorem restores_take_succ (s : Sequence) (seq : List Sequence) (k : Nat) :
    restores ((s :: seq).take (k + 1)) = restores [s] + restores (seq.take k) := by
  simp only [restores, List.take_succ_cons, List.count_cons, List.count_nil]
  omega

theorem saves_take_succ (s : Sequence) (seq : List Sequence) (k : Nat) :
    saves ((s :: seq).take (k + 1)) = saves [s] + saves (seq.take k) := by
  simp only [saves, List.take_succ_cons, List.count_cons, List.count_nil]
  omega

/-- A restore needs a non-empty stack; then the height of the stack follows
the saves and restores. -/
theorem savedAfter_length (r : Renderer) (s : Sequence)
    (hst : s = Sequence.RestoreCursorPosition → r.savedCursors ≠ []) :
    (savedAfter r s).length + restores [s] = r.savedCursors.length + saves [s] := by
  cases s with
  | RestoreCursorPosition =>
    have := List.length_pos.2 (hst rfl)
    simp [savedAfter, restores, saves]
    omega
  | SaveCursorPosition => simp [savedAfter, restores, saves]
  | _ => simp [savedAfter, restores, saves]

/-- When no prefix of the sequence has more restores than saves plus the
height of the stack, no element is of a foreign type, every `int` is one, and
no cell write happens with the cursor row or column at the smallest `int`, the
loop of `RenderSequence` ends with an error if the sequence has a rejected
operation and without failure otherwise. -/
theorem run_result : ∀ (seq : List Sequence) (r : Renderer), 1 ≤ r.screenWidth →
    r.fitsInt → (∀ s ∈ seq, s ≠ Sequence.Other) → (∀ s ∈ seq, s.fitsInt) →
    (∀ k ≤ seq.length, restores (seq.take k) ≤ saves (seq.take k) + r.savedCursors.length) →
    writesInRange r seq = true →
    ((∃ s ∈ seq, rejected s) → ∃ r1 e, r.run seq = (r1, some (Failure.error e))) ∧
    ((∀ s ∈ seq, ¬ rejected s) → ∃ r1, r.run seq = (r1, none)) := by
  intro seq
  induction seq with
  | nil =>
    intro r _ _ _ _ _ _
    exact ⟨fun ⟨s, hs, _⟩ => absurd hs (List.not_mem_nil s), fun _ => ⟨r, rfl⟩⟩
  | cons s seq ih =>
    intro r hsw hfit hops hints hbal hwr
    obtain ⟨hw1, hw2⟩ := writesInRange_cons hwr
    by_cases hrej : rejected s
    · obtain ⟨e, he⟩ := step_rejected r s hrej
      constructor
      · intro _
        exact ⟨r, e, by simp [Renderer.run, he]⟩
      · intro h
        exact absurd hrej (h s (List.mem_cons_self _ _))
    · have hst : s = Sequence.RestoreCursorPosition → r.savedCursors ≠ [] := by
        intro hs
        have h1 := hbal 1 (by simp)
        subst hs
        simp [restores, saves] at h1
        intro hn
        rw [hn] at h1
        simp at h1
      have hpen : ∀ c, s = Sequence.Character c → c ≠ lf → c ≠ cr →
          r.penY ≠ maxInt ∧ r.penX ≠ maxInt := fun c e h1 h2 =>
        pen_ends r hfit.1 hfit.2.1 (hw1 c e h1 h2).1 (hw1 c e h1 h2).2
      obtain ⟨r1, hstep, hw, hsv, _⟩ :=
        step_ok r s hsw (hops s (List.mem_cons_self _ _)) hrej hst hpen
      have hlen := savedAfter_length r s hst
      have hbal1 : ∀ k ≤ seq.length,
          restores (seq.take k) ≤ saves (seq.take k) + r1.savedCursors.length := by
        intro k hk
        have h1 := hbal (k + 1) (by simp only [List.length_cons]; omega)
        rw [restores_take_succ, saves_take_succ] at h1
        rw [hsv]
        omega
      obtain ⟨ih1, ih2⟩ := ih r1 (by rw [hw]; exact hsw)
        (step_fitsInt hstep hfit (hints s (List.mem_cons_self _ _)))
        (fun x hx => hops x (List.mem_cons_of_mem _ hx))
        (fun x hx => hints x (List.mem_cons_of_mem _ hx)) hbal1 (hw2 r1 hstep)
      have hrun : r.run (s :: seq) = r1.run seq := by simp [Renderer.run, hstep]
      constructor
      · rintro ⟨x, hx, hxr⟩
        rw [hrun]
        rcases List.mem_cons.1 hx with h | h
        · subst h; exact absurd hxr hrej
        · exact ih1 ⟨x, h, hxr⟩
      · intro h
        rw [hrun]
        exact ih2 (fun x hx => h x (List.mem_cons_of_mem _ hx))

/-- A run that reaches a cell write with the cursor row or column at the
smallest `int` does not return. -/
theorem run_stuck : ∀ (seq : List Sequence) (r : Renderer), r.fitsInt →
    (∀ s ∈ seq, s.fitsInt) → writesInRange r seq = false →
    ∃ r1, r.run seq = (r1, some Failure.noReturn) := by
  intro seq
  induction seq with
  | nil =>
    intro r _ _ h
    simp [writesInRange] at h
  | cons s rest ih =>
    intro r hfit hints h
    simp only [writesInRange, Bool.and_eq_false_iff] at h
    rcases h with h | h
    · cases s with
      | Character c =>
        simp only [Bool.or_eq_false_iff, Bool.and_eq_false_iff, decide_eq_false_iff_not] at h
        obtain ⟨⟨h1, h2⟩, h3⟩ := h
        have hmin : r.row = -(2 ^ 63) ∨ r.col = -(2 ^ 63) := by
          have a := hfit.1.1
          have b := hfit.2.1.1
          rcases h3 with h3 | h3
          · left; omega
          · right; omega
        have hs := step_error (apply_char_stuck r c h1 h2 (pen_stuck r hmin))
        exact ⟨r, by simp [Renderer.run, hs]⟩
      | _ => simp at h
    · cases hs : r.step s with
      | error f =>
        rw [hs] at h
        simp at h
      | ok r1 =>
        rw [hs] at h
        obtain ⟨r2, e⟩ := ih r1 (step_fitsInt hs hfit (hints s (List.mem_cons_self _ _)))
          (fun x hx => hints x (List.mem_cons_of_mem _ hx)) h
        exact ⟨r2, by simp [Renderer.run, hs, e]⟩

/-- A run that ends with a returned error has met a rejected operation or one
of a foreign type. -/
theorem run_error : ∀ (seq : List Sequence) (r r1 : Renderer) (e : Error),
    r.run seq = (r1, some (Failure.error e)) →
    ∃ s ∈ seq, rejected s ∨ s = Sequence.Other := by
  intro seq
  induction seq with
  | nil =>
    intro r r1 e h
    cases h
  | cons s rest ih =>
    intro r r1 e h
    cases hs : r.step s with
    | error f =>
      simp only [Renderer.run, hs] at h
      cases h
      exact ⟨s, List.mem_cons_self _ _, step_error_kind hs⟩
    | ok r2 =>
      simp only [Renderer.run, hs] at h
      obtain ⟨x, hx, hk⟩ := ih r2 r1 e h
      exact ⟨x, List.mem_cons_of_mem _ hx, hk⟩

/-- C9, as stated, fails: `ESC[9223372036854775807D ESC[2D A` parses to
`[CursorBackward(maxInt), CursorBackward(2), Character 'A']`, which has no
restore and no rejected operation.  The two motions bring the cursor column
to the smallest `int`; at the write of `A`, `x := r.col - 1` wraps around to
the largest `int`, the loop `for len(row) <= x` cannot end, and the call
returns neither an error nor an image. -/
theorem C9_counterexample :
    ParseAll [27, 91, 57, 50, 50, 51, 51, 55, 50, 48, 51, 54, 56, 53, 52, 55, 55, 53, 56, 48,
        55, 68, 27, 91, 50, 68, 65] =
      some ([Sequence.CursorBackward 9223372036854775807, Sequence.CursorBackward 2,
        Sequence.Character 65], none) ∧
    (∀ k ≤ 3,
      restores ([Sequence.CursorBackward 9223372036854775807, Sequence.CursorBackward 2,
        Sequence.Character 65].take k) ≤
      saves ([Sequence.CursorBackward 9223372036854775807, Sequence.CursorBackward 2,
        Sequence.Character 65].take k)) ∧
    (¬ ∃ s ∈ [Sequence.CursorBackward 9223372036854775807, Sequence.CursorBackward 2,
        Sequence.Character 65], rejected s) ∧
    NewRenderer.run [Sequence.CursorBackward 9223372036854775807, Sequence.CursorBackward 2] =
      ({ NewRenderer with col := -9223372036854775808 }, none) ∧
    Renderer.penX { NewRenderer with col := -9223372036854775808 } = 9223372036854775807 ∧
    RenderSequence [Sequence.CursorBackward 9223372036854775807, Sequence.CursorBackward 2,
        Sequence.Character 65] = .error Failure.noReturn ∧
    Parse [27, 91, 57, 50, 50, 51, 51, 55, 50, 48, 51, 54, 56, 53, 52, 55, 55, 53, 56, 48,
        55, 68, 27, 91, 50, 68, 65] = some (.error Failure.noReturn) := by
  refine ⟨rfl, by decide, ?_, rfl, by decide, rfl, rfl⟩
  rintro ⟨s, hs, hr⟩
  simp only [List.mem_cons, List.mem_singleton, List.not_mem_nil, or_false] at hs
  rcases hs with rfl | rfl | rfl <;> exact hr

/-- C9, amended. For every sequence of operations (no element of a foreign
type, every `int` field an `int`) in which every prefix has at least as many
`SaveCursorPosition` as `RestoreCursorPosition` operations: when no `Character`
other than LF and CR is reached while the cursor row or column is the smallest
`int`, `RenderSequence` from a fresh renderer returns an error (and no image)
if and only if the sequence contains a `Clear` whose kind is not Screen (2) or
a `SelectGraphicsRendition` whose code is not one of 0, 1, 5, 6, 30..37, 39,
40..47, and otherwise it returns an image; when such a `Character` is reached,
the call does not return.  In every case an error is returned only if the
sequence contains such a `Clear` or `SelectGraphicsRendition`. -/
theorem C9_render_errors (seq : List Sequence) (hops : ∀ s ∈ seq, s ≠ Sequence.Other)
    (hints : ∀ s ∈ seq, s.fitsInt)
    (hbal : ∀ k ≤ seq.length, restores (seq.take k) ≤ saves (seq.take k)) :
    (writesInRange NewRenderer seq = true →
      ((∃ e, RenderSequence seq = .error (Failure.error e)) ↔ ∃ s ∈ seq, rejected s) ∧
      ((¬ ∃ s ∈ seq, rejected s) → ∃ img, RenderSequence seq = .ok img)) ∧
    (writesInRange NewRenderer seq = false → RenderSequence seq = .error Failure.noReturn) ∧
    ((∃ e, RenderSequence seq = .error (Failure.error e)) → ∃ s ∈ seq, rejected s) := by
  have hfresh : NewRenderer.fitsInt :=
    ⟨⟨by decide, by decide⟩, ⟨by decide, by decide⟩, fun p hp => absurd hp (List.not_mem_nil _)⟩
  refine ⟨?_, ?_, ?_⟩
  · intro hwr
    obtain ⟨h1, h2⟩ := run_result seq NewRenderer (by decide) hfresh hops hints
      (fun k hk => by have := hbal k hk; omega) hwr
    have hok : (¬ ∃ s ∈ seq, rejected s) → ∃ img, RenderSequence seq = .ok img := by
      intro hno
      obtain ⟨r1, hr⟩ := h2 (fun s hs hr => hno ⟨s, hs, hr⟩)
      exact ⟨imageOf r1.rows, by simp [RenderSequence, Renderer.RenderSequence, hr]⟩
    refine ⟨⟨?_, ?_⟩, hok⟩
    · rintro ⟨e, he⟩
      by_contra hno
      obtain ⟨img, hi⟩ := hok hno
      rw [hi] at he
      cases he
    · intro h
      obtain ⟨r1, e, hr⟩ := h1 h
      exact ⟨e, by simp [RenderSequence, Renderer.RenderSequence, hr]⟩
  · intro hwr
    obtain ⟨r1, hr⟩ := run_stuck seq NewRenderer hfresh hints hwr
    simp [RenderSequence, Renderer.RenderSequence, hr]
  · rintro ⟨e, he⟩
    unfold RenderSequence Renderer.RenderSequence at he
    rcases hrun : NewRenderer.run seq with ⟨r1, f⟩
    rw [hrun] at he
    cases f with
    | none => cases he
    | some f =>
      simp only [Except.error.injEq] at he
      subst he
      obtain ⟨s, hs, hk⟩ := run_error seq NewRenderer r1 e hrun
      rcases hk with hk | hk
      · exact ⟨s, hs, hk⟩
      · exact absurd hk (hops s hs)

/-- C9 on a sequence with a save, a write, a restore and a `Clear` of kind 0:
the writes are in range, and an error is returned. -/
theorem C9_render_errors_witness :
    ((∃ e, RenderSequence [Sequence.SaveCursorPosition, Sequence.Character 65,
        Sequence.RestoreCursorPosition, Sequence.Clear 0] = .error (Failure.error e)) ↔
      ∃ s ∈ [Sequence.SaveCursorPosition, Sequence.Character 65,
        Sequence.RestoreCursorPosition, Sequence.Clear 0], rejected s) ∧
    ((¬ ∃ s ∈ [Sequence.SaveCursorPosition, Sequence.Character 65,
        Sequence.RestoreCursorPosition, Sequence.Clear 0], rejected s) →
      ∃ img, RenderSequence [Sequence.SaveCursorPosition, Sequence.Character 65,
        Sequence.RestoreCursorPosition, Sequence.Clear 0] = .ok img) :=
  (C9_render_errors [Sequence.SaveCursorPosition, Sequence.Character 65,
    Sequence.RestoreCursorPosition, Sequence.Clear 0] (by decide)
    (by
      intro s hs
      simp only [List.mem_cons, List.mem_singleton, List.not_mem_nil, or_false] at hs
      rcases hs with rfl | rfl | rfl | rfl <;> exact trivial)
    (by decide)).1 rfl

/-! ## What a successful operation leaves unchanged -/

theorem wrapLoop_post (sw : Int) : ∀ (fuel : Nat) (row col row1 col1 : Int),
    wrapLoop sw fuel row col = some (row1, col1) → col1 ≤ sw := by
  intro fuel
  induction fuel with
  | zero =>
    intro row col row1 col1 h
    unfold wrapLoop at h
    split at h
    · cases h
    · rename_i hc
      cases h
      exact not_lt.1 hc
  | succ f ih =>
    intro row col row1 col1 h
    unfold wrapLoop at h
    split at h
    · exact ih _ _ _ _ h
    · rename_i hc
      cases h
      exact not_lt.1 hc

/-- A successful type switch keeps the screen width, changes the stack as
`savedAfter` says, and is no restore on an empty stack. -/
theorem apply_facts {r r1 : Renderer} {s : Sequence} (h : r.apply s = .ok r1) :
    r1.screenWidth = r.screenWidth ∧ r1.savedCursors = savedAfter r s ∧
      (s = Sequence.RestoreCursorPosition → r.savedCursors ≠ []) := by
  cases s with
  | RestoreCursorPosition =>
    simp only [Renderer.apply] at h
    split at h
    · cases h
    · rename_i x hl
      cases h
      refine ⟨rfl, rfl, fun _ hn => ?_⟩
      rw [hn] at hl
      simp at hl
  | Character c =>
    simp only [Renderer.apply] at h
    split_ifs at h <;> cases h <;> exact ⟨rfl, rfl, fun e => by cases e⟩
  | Clear t =>
    simp only [Renderer.apply] at h
    split_ifs at h
    cases h
    exact ⟨rfl, rfl, fun e => by cases e⟩
  | SelectGraphicsRendition n =>
    simp only [Renderer.apply] at h
    split_ifs at h <;> cases h <;> exact ⟨rfl, rfl, fun e => by cases e⟩
  | Other => cases h
  | _ => cases h; exact ⟨rfl, rfl, fun e => by cases e⟩

/-- A successful operation keeps the screen width, changes the stack as
`savedAfter` says, is no restore on an empty stack, and leaves the column
within the screen. -/
theorem step_facts {r r1 : Renderer} {s : Sequence} (h : r.step s = .ok r1) :
    r1.screenWidth = r.screenWidth ∧ r1.savedCursors = savedAfter r s ∧
      (s = Sequence.RestoreCursorPosition → r.savedCursors ≠ []) ∧
      r1.col ≤ r1.screenWidth := by
  unfold Renderer.step at h
  split at h
  · cases h
  · rename_i r0 ha
    obtain ⟨hw, hsv, hst⟩ := apply_facts ha
    split at h
    · cases h
    · rename_i row col hl
      cases h
      exact ⟨hw, hsv, hst, wrapLoop_post _ _ _ _ _ _ hl⟩

/-- The loop, split at its first operation. -/
theorem run_cons_ok {r r2 : Renderer} {s : Sequence} {seq : List Sequence}
    (h : r.run (s :: seq) = (r2, none)) :
    ∃ r1, r.step s = .ok r1 ∧ r1.run seq = (r2, none) := by
  simp only [Renderer.run] at h
  split at h
  · cases h
  · rename_i r1 hs
    exact ⟨r1, hs, h⟩

theorem run_append (a b : List Sequence) : ∀ r : Renderer,
    r.run (a ++ b) =
      match r.run a with
      | (r1, none) => r1.run b
      | (r1, some f) => (r1, some f) := by
  induction a with
  | nil => intro r; rfl
  | cons s a ih =>
    intro r
    simp only [List.cons_append, Renderer.run]
    cases r.step s with
    | error f => rfl
    | ok r1 => exact ih r1

/-- A run without failure keeps the screen width and leaves the column within
the screen. -/
theorem run_inv : ∀ (seq : List Sequence) (r r2 : Renderer), r.run seq = (r2, none) →
    r.col ≤ r.screenWidth → r2.screenWidth = r.screenWidth ∧ r2.col ≤ r2.screenWidth := by
  intro seq
  induction seq with
  | nil =>
    intro r r2 h hc
    cases h
    exact ⟨rfl, hc⟩
  | cons s seq ih =>
    intro r r2 h _
    obtain ⟨r1, hs, hr⟩ := run_cons_ok h
    obtain ⟨hw, _, _, hc1⟩ := step_facts hs
    obtain ⟨hw2, hc2⟩ := ih r1 r2 hr hc1
    exact ⟨hw2.trans hw, hc2⟩

theorem restores_cons (s : Sequence) (seq : List Sequence) :
    restores (s :: seq) = restores [s] + restores seq := by
  simp only [restores, List.count_cons, List.count_nil]
  omega

theorem saves_cons (s : Sequence) (seq : List Sequence) :
    saves (s :: seq) = saves [s] + saves seq := by
  simp only [saves, List.count_cons, List.count_nil]
  omega

/-- The part of the stack below the saves of the sequence itself is not
touched: when no prefix has more restores than saves plus the height of the
upper part `extra`, the run leaves `base` in place. -/
theorem run_stack : ∀ (mid : List Sequence) (t t2 : Renderer) (base extra : List (Int × Int)),
    t.savedCursors = base ++ extra →
    (∀ k ≤ mid.length, restores (mid.take k) ≤ saves (mid.take k) + extra.length) →
    t.run mid = (t2, none) →
    ∃ extra2, t2.savedCursors = base ++ extra2 ∧
      extra2.length + restores mid = extra.length + saves mid := by
  intro mid
  induction mid with
  | nil =>
    intro t t2 base extra hst _ h
    cases h
    exact ⟨extra, hst, rfl⟩
  | cons s mid ih =>
    intro t t2 base extra hst hbal h
    obtain ⟨t1, hs, hr⟩ := run_cons_ok h
    obtain ⟨_, hsv, _, _⟩ := step_facts hs
    have hb1 := hbal 1 (by simp)
    have htl : ∀ k ≤ mid.length,
        restores [s] + restores (mid.take k) ≤ saves [s] + saves (mid.take k) + extra.length := by
      intro k hk
      have h1 := hbal (k + 1) (by simp only [List.length_cons]; omega)
      rw [restores_take_succ, saves_take_succ] at h1
      exact h1
    rw [restores_cons, saves_cons]
    by_cases hS : s = Sequence.SaveCursorPosition
    · subst hS
      have e : t1.savedCursors = base ++ (extra ++ [(t.row, t.col)]) := by
        rw [hsv, savedAfter, hst, List.append_assoc]
      obtain ⟨extra2, h2, h3⟩ := ih t1 t2 base _ e
        (fun k hk => by
          have := htl k hk
          simp [restores, saves] at this ⊢
          omega) hr
      refine ⟨extra2, h2, ?_⟩
      simp [restores, saves] at h3 ⊢
      omega
    · by_cases hR : s = Sequence.RestoreCursorPosition
      · subst hR
        have hne : extra ≠ [] := by
          intro hn
          rw [hn] at hb1
          simp [restores, saves] at hb1
        have hpos := List.length_pos.2 hne
        have e : t1.savedCursors = base ++ extra.dropLast := by
          rw [hsv, savedAfter, hst, List.dropLast_append_of_ne_nil _ hne]
        obtain ⟨extra2, h2, h3⟩ := ih t1 t2 base _ e
          (fun k hk => by
            have := htl k hk
            simp [restores, saves] at this ⊢
            omega) hr
        refine ⟨extra2, h2, ?_⟩
        simp [restores, saves] at h3 ⊢
        omega
      · have e0 : savedAfter t s = t.savedCursors := by
          cases s <;> first | rfl | exact absurd rfl hS | exact absurd rfl hR
        have c1 : restores [s] = 0 := by
          simp only [restores, List.count_cons, List.count_nil]
          have : (s == Sequence.RestoreCursorPosition) = false := by simpa using hR
          simp [this]
        have c2 : saves [s] = 0 := by
          simp only [saves, List.count_cons, List.count_nil]
          have : (s == Sequence.SaveCursorPosition) = false := by simpa using hS
          simp [this]
        have e : t1.savedCursors = base ++ extra := by rw [hsv, e0, hst]
        obtain ⟨extra2, h2, h3⟩ := ih t1 t2 base _ e
          (fun k hk => by have := htl k hk; omega) hr
        exact ⟨extra2, h2, by omega⟩

/-- C10. From every renderer state `s` reachable from a fresh renderer (by a
sequence `pre` that renders without failure), executing `SaveCursorPosition`,
then any sequence `mid` that renders without failure and whose own saves and
restores are balanced (in particular any sequence of cursor motions), then
`RestoreCursorPosition`: the restore succeeds and leaves the cursor at exactly
the `(row, col)` it had immediately before the save, and the saved-cursor
stack as it was before the save. -/
theorem C10_save_restore (pre mid : List Sequence) (s s2 : Renderer)
    (hreach : NewRenderer.run pre = (s, none))
    (hbal : balanced mid)
    (hmid : s.run (Sequence.SaveCursorPosition :: mid) = (s2, none)) :
    ∃ s3, s2.step Sequence.RestoreCursorPosition = .ok s3 ∧
      s3.row = s.row ∧ s3.col = s.col ∧ s3.savedCursors = s.savedCursors ∧
      s.run (Sequence.SaveCursorPosition :: mid ++ [Sequence.RestoreCursorPosition]) =
        (s3, none) := by
  obtain ⟨hw, hc⟩ := run_inv pre NewRenderer s hreach (by decide)
  obtain ⟨s1, hs1, hr1⟩ := run_cons_ok hmid
  obtain ⟨hw1, hsv1, _, hc1⟩ := step_facts hs1
  obtain ⟨hw2, _⟩ := run_inv mid s1 s2 hr1 hc1
  obtain ⟨extra2, hst2, hlen2⟩ := run_stack mid s1 s2 (s.savedCursors ++ [(s.row, s.col)]) []
    (by rw [hsv1, savedAfter, List.append_nil])
    (fun k hk => by have := hbal.1 k hk; simpa using this) hr1
  have hnil : extra2 = [] := by
    have := hbal.2
    apply List.eq_nil_of_length_eq_zero
    simp only [List.length_nil] at hlen2
    omega
  rw [hnil, List.append_nil] at hst2
  have hlast : s2.savedCursors.getLast? = some (s.row, s.col) := by
    rw [hst2]; simp
  have happ : s2.apply Sequence.RestoreCursorPosition =
      .ok { s2 with savedCursors := s2.savedCursors.dropLast, row := s.row, col := s.col } := by
    simp only [Renderer.apply, hlast]
  have hstep := step_of_apply_within happ (by
    show s.col ≤ s2.screenWidth
    rw [hw2, hw1]
    exact hc)
  refine ⟨_, hstep, rfl, rfl, ?_, ?_⟩
  · show s2.savedCursors.dropLast = s.savedCursors
    rw [hst2]; simp
  · have e : Sequence.SaveCursorPosition :: mid ++ [Sequence.RestoreCursorPosition] =
        (Sequence.SaveCursorPosition :: mid) ++ [Sequence.RestoreCursorPosition] := rfl
    rw [e, run_append, hmid]
    simp [Renderer.run, hstep]

theorem C10_save_restore_witness :
    ∃ s3, (NewRenderer.run [Sequence.Character 65, Sequence.SaveCursorPosition,
        Sequence.CursorDown 3, Sequence.SaveCursorPosition, Sequence.CursorForward 100,
        Sequence.RestoreCursorPosition, Sequence.CursorUp 7]).1.step
          Sequence.RestoreCursorPosition = .ok s3 ∧
      s3.row = (NewRenderer.run [Sequence.Character 65]).1.row ∧
      s3.col = (NewRenderer.run [Sequence.Character 65]).1.col ∧
      s3.savedCursors = (NewRenderer.run [Sequence.Character 65]).1.savedCursors ∧
      (NewRenderer.run [Sequence.Character 65]).1.run
        (Sequence.SaveCursorPosition :: [Sequence.CursorDown 3, Sequence.SaveCursorPosition,
          Sequence.CursorForward 100, Sequence.RestoreCursorPosition, Sequence.CursorUp 7] ++
          [Sequence.RestoreCursorPosition]) = (s3, none) :=
  C10_save_restore [Sequence.Character 65]
    [Sequence.CursorDown 3, Sequence.SaveCursorPosition, Sequence.CursorForward 100,
      Sequence.RestoreCursorPosition, Sequence.CursorUp 7]
    (NewRenderer.run [Sequence.Character 65]).1
    (NewRenderer.run [Sequence.Character 65, Sequence.SaveCursorPosition,
        Sequence.CursorDown 3, Sequence.SaveCursorPosition, Sequence.CursorForward 100,
        Sequence.RestoreCursorPosition, Sequence.CursorUp 7]).1
    (by decide) ⟨by decide, by decide⟩ (by decide)

/-! ## Writing plain characters from a fresh renderer -/

/-- A write at the start of the row below the stored rows stores a new row. -/
theorem writeCell_new (full : List (List Pixel)) (px : Pixel) :
    writeCell full full.length 0 px = full ++ [[px]] := by
  simp [writeCell, List.getD_eq_getElem?_getD, List.set_append]

/-- A write right behind the last stored row extends that row. -/
theorem writeCell_last (full : List (List Pixel)) (last : List Pixel) (px : Pixel) :
    writeCell (full ++ [last]) full.length last.length px = full ++ [last ++ [px]] := by
  simp [writeCell, List.getD_eq_getElem?_getD, List.set_append]

theorem writeCell_plain (full : List (List Pixel)) (last : List Pixel) (px : Pixel) :
    writeCell (if last = [] then full else full ++ [last]) full.length last.length px =
      full ++ [last ++ [px]] := by
  by_cases h : last = []
  · subst h
    simpa using writeCell_new full px
  · simp only [if_neg h]
    exact writeCell_last full last px

/-- The type switch on a plain character in a plain state. -/
theorem apply_plain (full : List (List Pixel)) (last : List Pixel) (c : Nat)
    (hlast : last.length < 80) (hfull : (full.length : Int) + 2 < 2 ^ 63)
    (h1 : c ≠ lf) (h2 : c ≠ cr) :
    (plainState full last).apply (Sequence.Character c) =
      .ok { plainState full last with
        rows := full ++ [last ++ [plainCell c]], col := (last.length : Int) + 2 } := by
  have hy : wrapInt ((full.length : Int) + 1 - 1) = full.length := by
    rw [wrapInt_id] <;> omega
  have hx : wrapInt ((last.length : Int) + 1 - 1) = last.length := by
    rw [wrapInt_id] <;> omega
  have hc : wrapInt ((last.length : Int) + 1 + 1) = (last.length : Int) + 2 := by
    rw [wrapInt_id] <;> omega
  have hy0 : ¬ ((full.length : Int) < 0) := by omega
  have hx0 : ¬ ((last.length : Int) < 0) := by omega
  have hg : ¬ (full.length = maxInt ∨ last.length = maxInt) := by
    rw [maxInt_eq]
    omega
  simp only [Renderer.apply, if_neg h1, if_neg h2, plainState, hy, hx, hc, if_neg hy0,
    if_neg hx0, Int.toNat_ofNat, if_neg hg, writeCell_plain]
  rfl

/-- One plain character in a plain state: the cell goes behind the row being
written, and the row is complete when it has 80 cells. -/
theorem step_plain (full : List (List Pixel)) (last : List Pixel) (c : Nat)
    (hlast : last.length < 80) (hfull : (full.length : Int) + 2 < 2 ^ 63)
    (h1 : c ≠ lf) (h2 : c ≠ cr) :
    (plainState full last).step (Sequence.Character c) =
      .ok (if last.length = 79 then plainState (full ++ [last ++ [plainCell c]]) []
        else plainState full (last ++ [plainCell c])) := by
  have ha := apply_plain full last c hlast hfull h1 h2
  by_cases h79 : last.length = 79
  · have hr : wrapInt ((full.length : Int) + 1 + 1) = (full.length : Int) + 2 := by
      rw [wrapInt_id] <;> omega
    have h1 : wrapInt (81 - 80) = 1 := by decide
    have hw : wrapLoop 80 81 ((full.length : Int) + 1) 81 = some ((full.length : Int) + 2, 1) := by
      show wrapLoop 80 (80 + 1) ((full.length : Int) + 1) 81 = _
      rw [wrapLoop, if_pos (by decide), hr, h1, wrapLoop_within _ _ _ _ (by decide)]
    simp only [Renderer.step, ha, if_pos h79]
    simp only [plainState, h79]
    simp only [Nat.cast_ofNat, Int.reduceAdd, Int.reduceToNat, hw]
    simp [add_assoc]
  · have hcol : (last.length : Int) + 2 ≤ 80 := by omega
    rw [step_of_apply_within ha (by simpa [plainState] using hcol)]
    simp only [if_neg h79, plainState]
    simp [add_assoc]

/-- A run of plain characters from a plain state ends in a plain state that
holds the old cells followed by the cells of the characters. -/
theorem run_plain : ∀ (cs : List Nat) (full : List (List Pixel)) (last : List Pixel),
    (∀ r ∈ full, r.length = 80) → last.length < 80 →
    80 * full.length + last.length + cs.length < 2 ^ 63 →
    (∀ c ∈ cs, c ≠ lf ∧ c ≠ cr) →
    ∃ full2 last2, (∀ r ∈ full2, r.length = 80) ∧ last2.length < 80 ∧
      full2.flatten ++ last2 = full.flatten ++ last ++ cs.map plainCell ∧
      (plainState full last).run (cs.map Sequence.Character) = (plainState full2 last2, none) := by
  intro cs
  induction cs with
  | nil =>
    intro full last hfull hlast _ _
    exact ⟨full, last, hfull, hlast, by simp, rfl⟩
  | cons c cs ih =>
    intro full last hfull hlast hbound hplain
    have hc := hplain c (List.mem_cons_self _ _)
    have hcs : ∀ x ∈ cs, x ≠ lf ∧ x ≠ cr := fun x hx => hplain x (List.mem_cons_of_mem _ hx)
    simp only [List.length_cons] at hbound
    have hstep := step_plain full last c hlast (by omega) hc.1 hc.2
    simp only [List.map_cons, Renderer.run, hstep]
    by_cases h79 : last.length = 79
    · simp only [if_pos h79]
      obtain ⟨full2, last2, h1, h2, h3, h4⟩ := ih (full ++ [last ++ [plainCell c]]) []
        (by
          intro r hr
          rcases List.mem_append.1 hr with h | h
          · exact hfull r h
          · rw [List.mem_singleton.1 h]; simp [h79])
        (by simp)
        (by simp only [List.length_append, List.length_singleton, List.length_nil]
            omega)
        hcs
      exact ⟨full2, last2, h1, h2, by rw [h3]; simp, h4⟩
    · simp only [if_neg h79]
      obtain ⟨full2, last2, h1, h2, h3, h4⟩ := ih full (last ++ [plainCell c]) hfull
        (by simp only [List.length_append, List.length_singleton]; omega)
        (by simp only [List.length_append, List.length_singleton]; omega) hcs
      exact ⟨full2, last2, h1, h2, by rw [h3]; simp, h4⟩

/-! ## The image of the stored rows -/

theorem foldl_width (rows : List (List Pixel)) : ∀ w : Nat,
    rows.foldl (fun w row => if row.length > w then row.length else w) w =
      max w (maxRowLength rows) := by
  induction rows with
  | nil => intro w; simp [maxRowLength]
  | cons row rows ih =>
    intro w
    simp only [List.foldl_cons, ih, maxRowLength, List.map_cons, List.foldr_cons]
    split <;> omega

theorem foldl_pix (width : Nat) (rows : List (List Pixel)) : ∀ acc : List Pixel,
    rows.foldl (fun pix row => pix ++ row ++ List.replicate (width - row.length) Pixel.zero)
      acc = acc ++ (rows.map (padRow width)).flatten := by
  induction rows with
  | nil => intro acc; simp
  | cons row rows ih =>
    intro acc
    rw [List.foldl_cons, ih]
    simp [padRow]

/-- The image in closed form: width the longest row, height the number of
rows, cells the padded rows one after the other. -/
theorem imageOf_eq (rows : List (List Pixel)) :
    imageOf rows =
      { Pix := (rows.map (padRow (maxRowLength rows))).flatten,
        Width := maxRowLength rows, Height := rows.length } := by
  unfold imageOf
  simp only [foldl_width, foldl_pix, Nat.zero_max, List.nil_append]

theorem maxRowLength_append (a b : List (List Pixel)) :
    maxRowLength (a ++ b) = max (maxRowLength a) (maxRowLength b) := by
  induction a with
  | nil => simp [maxRowLength]
  | cons r a ih =>
    simp only [maxRowLength, List.cons_append, List.map_cons, List.foldr_cons] at ih ⊢
    rw [ih]
    omega

theorem maxRowLength_full (full : List (List Pixel)) (h : ∀ r ∈ full, r.length = 80) :
    maxRowLength full = if full = [] then 0 else 80 := by
  induction full with
  | nil => rfl
  | cons r full ih =>
    have h1 := h r (List.mem_cons_self _ _)
    have h2 := ih (fun x hx => h x (List.mem_cons_of_mem _ hx))
    simp only [maxRowLength, List.map_cons, List.foldr_cons] at h2 ⊢
    rw [h2, h1]
    split <;> simp

theorem padRow_full (width : Nat) (full : List (List Pixel))
    (h : ∀ r ∈ full, width ≤ r.length) : (full.map (padRow width)).flatten = full.flatten := by
  induction full with
  | nil => rfl
  | cons r full ih =>
    have h1 := h r (List.mem_cons_self _ _)
    simp only [List.map_cons, List.flatten_cons,
      ih (fun x hx => h x (List.mem_cons_of_mem _ hx)), padRow]
    rw [Nat.sub_eq_zero_of_le h1]
    simp

theorem flatten_length_full (full : List (List Pixel)) (h : ∀ r ∈ full, r.length = 80) :
    full.flatten.length = 80 * full.length := by
  induction full with
  | nil => rfl
  | cons r full ih =>
    have h1 := h r (List.mem_cons_self _ _)
    have h2 := ih (fun x hx => h x (List.mem_cons_of_mem _ hx))
    simp only [List.flatten_cons, List.length_append, List.length_cons, h1, h2]
    omega

/-- The image of a plain state: the cells written, in order, followed by the
padding of the last row. -/
theorem imageOf_plain (full : List (List Pixel)) (last : List Pixel)
    (hfull : ∀ r ∈ full, r.length = 80) (hlast : last.length < 80) :
    (imageOf (plainState full last).rows).Width = min (80 * full.length + last.length) 80 ∧
    (imageOf (plainState full last).rows).Height = (80 * full.length + last.length + 79) / 80 ∧
    ∃ pad, (imageOf (plainState full last).rows).Pix = full.flatten ++ last ++ pad := by
  have hmax := maxRowLength_full full hfull
  rw [imageOf_eq]
  by_cases hl : last = []
  · subst hl
    have hrows : (plainState full []).rows = full := by simp [plainState]
    rw [hrows]
    simp only [List.length_nil, Nat.add_zero, List.append_nil]
    refine ⟨?_, by omega, [], ?_⟩
    · rw [hmax]
      cases full with
      | nil => simp
      | cons r t => simp only [List.length_cons, if_neg (List.cons_ne_nil _ _)]; omega
    · rw [List.append_nil, padRow_full]
      intro r hr
      rw [hmax, hfull r hr]
      split <;> omega
  · have hrows : (plainState full last).rows = full ++ [last] := by simp [plainState, hl]
    have hpos : 0 < last.length := List.length_pos.2 hl
    have hone : maxRowLength [last] = last.length := by simp [maxRowLength]
    rw [hrows]
    simp only [maxRowLength_append, hone, List.length_append, List.length_singleton,
      List.map_append, List.flatten_append, List.map_cons, List.map_nil, List.flatten_cons,
      List.flatten_nil, List.append_nil]
    refine ⟨?_, by omega, ?_⟩
    · rw [hmax]
      cases full with
      | nil => simp; omega
      | cons r t => simp only [List.length_cons, if_neg (List.cons_ne_nil _ _)]; omega
    · rw [padRow_full]
      · refine ⟨List.replicate (max (maxRowLength full) last.length - last.length)
          Pixel.zero, ?_⟩
        simp only [padRow, List.append_assoc]
      · intro r hr
        rw [hmax, hfull r hr]
        split <;> omega

/-- C2. Wrap law. For every string `cs` of plain characters (bytes other than
LF, CR, ESC and 0x1A; its length fits in an `int`, as the length of every Go
slice does), parsing and rendering `cs` from a fresh renderer returns an image
in which the character with index `k` (counted from 0, so the `k+1`-th
character) is at grid row `k div 80` and grid column `k mod 80`, with the
colours of a fresh renderer; so the 81st character is at row index 1, column
index 0, which is row 2, column 1 in 1-based terms.  The image has
`Width = min(n, 80)` and `Height = ceil(n / 80)` for `n` the number of
characters, and `Pix[k]` holds the character with index `k`. -/
theorem C2_wrap_law (cs : List Nat) (hlen : cs.length ≤ maxInt)
    (hplain : ∀ c ∈ cs, c ≠ lf ∧ c ≠ cr ∧ c ≠ esc ∧ c ≠ eof) :
    ∃ img, Parse cs = some (.ok img) ∧
      RenderSequence (cs.map Sequence.Character) = .ok img ∧
      img.Width = min cs.length 80 ∧
      img.Height = (cs.length + 79) / 80 ∧
      (∀ k (hk : k < cs.length),
        img.Pix[(k / 80) * img.Width + k % 80]? = some (plainCell cs[k]) ∧
        img.Pix[k]? = some (plainCell cs[k])) ∧
      (∀ h : 80 < cs.length, img.Pix[1 * img.Width + 0]? = some (plainCell cs[80])) := by
  have hmax : maxInt = 2 ^ 63 - 1 := rfl
  obtain ⟨full, last, hfull, hlast, hcells, hrun⟩ := run_plain cs [] [] (by simp) (by simp)
    (by simp only [List.length_nil]; omega) (fun c hc => ⟨(hplain c hc).1, (hplain c hc).2.1⟩)
  simp only [List.flatten_nil, List.nil_append] at hcells
  have hnew : NewRenderer = plainState [] [] := by decide
  have hrender : RenderSequence (cs.map Sequence.Character) =
      .ok (imageOf (plainState full last).rows) := by
    simp [RenderSequence, Renderer.RenderSequence, hnew, hrun]
  have hparse : ParseAll cs = some (cs.map Sequence.Character, none) := by
    have := parseFrom_chars cs [] []
      (fun c hc => ⟨(hplain c hc).2.2.1, (hplain c hc).2.2.2⟩)
    rw [List.append_nil] at this
    rw [ParseAll_eq, this, parseFrom_nil]
    rfl
  obtain ⟨hW, hH, pad, hP⟩ := imageOf_plain full last hfull hlast
  have hn : 80 * full.length + last.length = cs.length := by
    have := congrArg List.length hcells
    simp only [List.length_append, List.length_map, flatten_length_full full hfull] at this
    exact this
  rw [hn] at hW hH
  rw [hcells] at hP
  have hpix : ∀ k (hk : k < cs.length),
      (imageOf (plainState full last).rows).Pix[k]? = some (plainCell cs[k]) := by
    intro k hk
    rw [hP, List.getElem?_append_left (by simpa using hk)]
    simp [hk]
  refine ⟨_, by simp only [Parse, hparse, hrender], hrender, hW, hH, ?_, ?_⟩
  · intro k hk
    refine ⟨?_, hpix k hk⟩
    have hidx : (k / 80) * (imageOf (plainState full last).rows).Width + k % 80 = k := by
      rw [hW]
      rcases Nat.le_total cs.length 80 with h | h
      · rw [Nat.min_eq_left h]
        have : k / 80 = 0 := by omega
        rw [this]
        omega
      · rw [Nat.min_eq_right h]
        omega
    rw [hidx]
    exact hpix k hk
  · intro h
    have hidx : 1 * (imageOf (plainState full last).rows).Width + 0 = 80 := by
      rw [hW, Nat.min_eq_right (by omega)]
    rw [hidx]
    exact hpix 80 h

theorem C2_wrap_law_witness :
    ∃ img, Parse (List.replicate 81 65) = some (.ok img) ∧
      RenderSequence ((List.replicate 81 65).map Sequence.Character) = .ok img ∧
      img.Width = min (List.replicate 81 65).length 80 ∧
      img.Height = ((List.replicate 81 65).length + 79) / 80 ∧
      (∀ k (hk : k < (List.replicate 81 65).length),
        img.Pix[(k / 80) * img.Width + k % 80]? = some (plainCell (List.replicate 81 65)[k]) ∧
        img.Pix[k]? = some (plainCell (List.replicate 81 65)[k])) ∧
      (∀ h : 80 < (List.replicate 81 65).length,
        img.Pix[1 * img.Width + 0]? = some (plainCell (List.replicate 81 65)[80])) :=
  C2_wrap_law (List.replicate 81 65) (by decide)
    (by intro c hc; rw [List.eq_of_mem_replicate hc]; decide)

/-! ## The layout of the image -/

theorem le_maxRowLength (rows : List (List Pixel)) : ∀ row ∈ rows,
    row.length ≤ maxRowLength rows := by
  induction rows with
  | nil => intro row h; cases h
  | cons r rows ih =>
    intro row h
    simp only [maxRowLength, List.map_cons, List.foldr_cons] at ih ⊢
    rcases List.mem_cons.1 h with e | e
    · rw [e]; omega
    · have := ih row e
      omega

theorem maxRowLength_attained (rows : List (List Pixel)) :
    maxRowLength rows = 0 ∨ ∃ row ∈ rows, row.length = maxRowLength rows := by
  induction rows with
  | nil => left; rfl
  | cons r rows ih =>
    simp only [maxRowLength, List.map_cons, List.foldr_cons] at ih ⊢
    rcases Nat.le_total r.length ((rows.map List.length).foldr max 0) with h | h
    · rw [Nat.max_eq_right h]
      rcases ih with e | ⟨row, hr, e⟩
      · left; exact e
      · right; exact ⟨row, List.mem_cons_of_mem _ hr, e⟩
    · rw [Nat.max_eq_left h]
      right
      exact ⟨r, List.mem_cons_self _ _, rfl⟩

theorem padRow_length (width : Nat) (row : List Pixel) (h : row.length ≤ width) :
    (padRow width row).length = width := by
  simp only [padRow, List.length_append, List.length_replicate]
  omega

theorem padRow_getElem? (width : Nat) (row : List Pixel) (x : Nat) (hx : x < width) :
    (padRow width row)[x]? = some (row.getD x Pixel.zero) := by
  unfold padRow
  by_cases h : x < row.length
  · rw [List.getElem?_append_left h]
    simp [List.getD_eq_getElem?_getD, h]
  · rw [List.getElem?_append_right (not_lt.1 h)]
    have h2 : x - row.length < width - row.length := by omega
    simp [List.getD_eq_getElem?_getD, h2, List.getElem?_replicate,
      List.getElem?_eq_none (not_lt.1 h)]

/-- Rows of one length `w`, one after the other: the cell `x` of row `y` is at
index `y * w + x`. -/
theorem flatten_uniform (w : Nat) : ∀ ls : List (List Pixel), (∀ l ∈ ls, l.length = w) →
    ls.flatten.length = w * ls.length ∧
    ∀ y x, y < ls.length → x < w → ls.flatten[y * w + x]? = (ls.getD y [])[x]? := by
  intro ls
  induction ls with
  | nil => intro _; exact ⟨rfl, fun y x hy _ => absurd hy (Nat.not_lt_zero _)⟩
  | cons l ls ih =>
    intro h
    have hl := h l (List.mem_cons_self _ _)
    obtain ⟨ih1, ih2⟩ := ih (fun x hx => h x (List.mem_cons_of_mem _ hx))
    constructor
    · simp only [List.flatten_cons, List.length_append, List.length_cons, hl, ih1]
      rw [Nat.mul_succ]
      omega
    · intro y x hy hx
      cases y with
      | zero =>
        simp only [Nat.zero_mul, Nat.zero_add, List.flatten_cons]
        rw [List.getElem?_append_left (by omega)]
        rfl
      | succ y =>
        have e : (y + 1) * w + x = l.length + (y * w + x) := by
          rw [hl, Nat.succ_mul]; omega
        simp only [List.flatten_cons, List.length_cons] at hy ⊢
        rw [e, List.getElem?_append_right (by omega)]
        simp only [Nat.add_sub_cancel_left]
        rw [ih2 y x (by omega) hx]
        rfl

/-- The cells of the image: cell `x` of row `y` of the grid is the stored
cell, or `Pixel{}` where the row is shorter. -/
theorem imageOf_cell (rows : List (List Pixel)) :
    (imageOf rows).Pix.length = (imageOf rows).Width * (imageOf rows).Height ∧
    ∀ y x, y < (imageOf rows).Height → x < (imageOf rows).Width →
      (imageOf rows).Pix[y * (imageOf rows).Width + x]? = some (cellAt rows y x) := by
  rw [imageOf_eq]
  simp only
  have hu : ∀ l ∈ rows.map (padRow (maxRowLength rows)), l.length = maxRowLength rows := by
    intro l hl
    obtain ⟨row, hr, rfl⟩ := List.mem_map.1 hl
    exact padRow_length _ _ (le_maxRowLength rows row hr)
  obtain ⟨h1, h2⟩ := flatten_uniform (maxRowLength rows) _ hu
  constructor
  · rw [h1, List.length_map]
  · intro y x hy hx
    rw [h2 y x (by rw [List.length_map]; exact hy) hx]
    have : (rows.map (padRow (maxRowLength rows))).getD y [] =
        padRow (maxRowLength rows) (rows.getD y []) := by
      simp [List.getD_eq_getElem?_getD, List.getElem?_map, hy]
    rw [this, padRow_getElem? _ _ _ hx]
    rfl

/-- A call of `RenderSequence` that returns an image: the loop ended without
failure, and the image is that of the stored rows. -/
theorem RenderSequence_ok {seq : List Sequence} {img : Image}
    (h : RenderSequence seq = .ok img) :
    ∃ r, NewRenderer.run seq = (r, none) ∧ img = imageOf r.rows := by
  unfold RenderSequence Renderer.RenderSequence at h
  cases hr : NewRenderer.run seq with
  | mk r f =>
    rw [hr] at h
    cases f with
    | some f => cases h
    | none =>
      simp only at h
      cases h
      exact ⟨r, rfl, rfl⟩

theorem RenderSequence_of_run {seq : List Sequence} {r : Renderer}
    (h : NewRenderer.run seq = (r, none)) : RenderSequence seq = .ok (imageOf r.rows) := by
  simp [RenderSequence, Renderer.RenderSequence, h]

theorem cellAt_eq_getElem (rows : List (List Pixel)) (y x : Nat) (hy : y < rows.length)
    (hx : x < rows[y].length) : cellAt rows y x = rows[y][x] := by
  simp [cellAt, List.getD_eq_getElem?_getD, hy, hx]

theorem cellAt_beyond (rows : List (List Pixel)) (y x : Nat) (hy : y < rows.length)
    (hx : rows[y].length ≤ x) : cellAt rows y x = Pixel.zero := by
  simp [cellAt, List.getD_eq_getElem?_getD, hy, List.getElem?_eq_none hx]

/-- C13. For every operation sequence that renders without error, with `r` the
renderer state at the end: the returned image has `Height` equal to the number
of stored rows and `Width` equal to the maximum stored row length (no row is
longer, and a row has that length unless it is 0), `len(Pix) = Width * Height`,
and for every row `y` and column `x < Width` the index `y * Width + x` is in
bounds and `Pix[y * Width + x]` is the stored cell `rows[y][x]` when `x` is
below the length of that row and the padding cell `Pixel{}` otherwise. -/
theorem C13_image_layout (seq : List Sequence) (img : Image)
    (h : RenderSequence seq = .ok img) :
    ∃ r, NewRenderer.run seq = (r, none) ∧
      img.Height = r.rows.length ∧
      (∀ row ∈ r.rows, row.length ≤ img.Width) ∧
      (img.Width = 0 ∨ ∃ row ∈ r.rows, row.length = img.Width) ∧
      img.Pix.length = img.Width * img.Height ∧
      ∀ y x (hy : y < r.rows.length), x < img.Width →
        y * img.Width + x < img.Pix.length ∧
        (∀ hx : x < r.rows[y].length, img.Pix[y * img.Width + x]? = some r.rows[y][x]) ∧
        (r.rows[y].length ≤ x → img.Pix[y * img.Width + x]? = some Pixel.zero) := by
  obtain ⟨r, hrun, himg⟩ := RenderSequence_ok h
  subst himg
  obtain ⟨hlen, hcell⟩ := imageOf_cell r.rows
  have hW : (imageOf r.rows).Width = maxRowLength r.rows := by rw [imageOf_eq]
  have hH : (imageOf r.rows).Height = r.rows.length := by rw [imageOf_eq]
  refine ⟨r, hrun, hH, ?_, ?_, hlen, ?_⟩
  · intro row hr
    rw [hW]
    exact le_maxRowLength _ _ hr
  · rw [hW]
    exact maxRowLength_attained _
  · intro y x hy hx
    have hc := hcell y x (by rw [hH]; exact hy) hx
    refine ⟨?_, ?_, ?_⟩
    · by_contra hn
      rw [List.getElem?_eq_none (not_lt.1 hn)] at hc
      cases hc
    · intro hx2
      rw [hc, cellAt_eq_getElem _ _ _ hy hx2]
    · intro hx2
      rw [hc, cellAt_beyond _ _ _ hy hx2]

theorem C13_image_layout_witness :
    ∃ r, NewRenderer.run [Sequence.CursorForward 1, Sequence.Character 65, Sequence.Character 10,
        Sequence.Character 66] = (r, none) ∧
      (Image.mk [Pixel.zero, plainCell 65, plainCell 66, Pixel.zero] 2 2).Height =
        r.rows.length ∧
      (∀ row ∈ r.rows,
        row.length ≤ (Image.mk [Pixel.zero, plainCell 65, plainCell 66, Pixel.zero] 2 2).Width) ∧
      ((Image.mk [Pixel.zero, plainCell 65, plainCell 66, Pixel.zero] 2 2).Width = 0 ∨
        ∃ row ∈ r.rows,
          row.length = (Image.mk [Pixel.zero, plainCell 65, plainCell 66, Pixel.zero] 2 2).Width) ∧
      (Image.mk [Pixel.zero, plainCell 65, plainCell 66, Pixel.zero] 2 2).Pix.length =
        (Image.mk [Pixel.zero, plainCell 65, plainCell 66, Pixel.zero] 2 2).Width *
          (Image.mk [Pixel.zero, plainCell 65, plainCell 66, Pixel.zero] 2 2).Height ∧
      ∀ y x (hy : y < r.rows.length),
        x < (Image.mk [Pixel.zero, plainCell 65, plainCell 66, Pixel.zero] 2 2).Width →
        y * (Image.mk [Pixel.zero, plainCell 65, plainCell 66, Pixel.zero] 2 2).Width + x <
          (Image.mk [Pixel.zero, plainCell 65, plainCell 66, Pixel.zero] 2 2).Pix.length ∧
        (∀ hx : x < r.rows[y].length,
          (Image.mk [Pixel.zero, plainCell 65, plainCell 66, Pixel.zero] 2 2).Pix[y *
            (Image.mk [Pixel.zero, plainCell 65, plainCell 66, Pixel.zero] 2 2).Width + x]? =
              some r.rows[y][x]) ∧
        (r.rows[y].length ≤ x →
          (Image.mk [Pixel.zero, plainCell 65, plainCell 66, Pixel.zero] 2 2).Pix[y *
            (Image.mk [Pixel.zero, plainCell 65, plainCell 66, Pixel.zero] 2 2).Width + x]? =
              some Pixel.zero) :=
  C13_image_layout [Sequence.CursorForward 1, Sequence.Character 65, Sequence.Character 10,
    Sequence.Character 66] (Image.mk [Pixel.zero, plainCell 65, plainCell 66, Pixel.zero] 2 2) rfl

/-! ## What an operation does to the row storage -/

/-- A successful operation is a successful type switch followed by the
line-wrap loop, which changes the cursor only. -/
theorem step_apply {r r1 : Renderer} {s : Sequence} (h : r.step s = .ok r1) :
    ∃ r0 row col, r.apply s = .ok r0 ∧ r1 = { r0 with row := row, col := col } := by
  unfold Renderer.step at h
  split at h
  · cases h
  · rename_i r0 ha
    split at h
    · cases h
    · rename_i row col _
      cases h
      exact ⟨r0, row, col, ha, rfl⟩

/-- The row storage after a successful operation: a written character writes
one cell, `Clear` of the screen empties the storage, every other operation
leaves it alone. -/
theorem step_rows {r r1 : Renderer} {s : Sequence} (h : r.step s = .ok r1) :
    (∃ c, s = Sequence.Character c ∧ isInk c ∧
      r1.rows = writeCell r.rows r.penY r.penX (r.cell c)) ∨
    (s = Sequence.Clear ClearTypeScreen ∧ r1.rows = []) ∨
    ((∀ c, s = Sequence.Character c → ¬ isInk c) ∧ s ≠ Sequence.Clear ClearTypeScreen ∧
      r1.rows = r.rows) := by
  obtain ⟨r0, row, col, ha, rfl⟩ := step_apply h
  cases s with
  | Character c =>
    by_cases h1 : c = lf
    · right; right
      simp only [Renderer.apply, if_pos h1] at ha
      cases ha
      exact ⟨fun c2 e hi => by cases e; exact hi.1 h1, by simp, rfl⟩
    · by_cases h2 : c = cr
      · right; right
        simp only [Renderer.apply, if_neg h1, if_pos h2] at ha
        cases ha
        exact ⟨fun c2 e hi => by cases e; exact hi.2 h2, by simp, rfl⟩
      · left
        obtain ⟨_, _, e⟩ := apply_char_ok h1 h2 ha
        subst e
        exact ⟨c, rfl, ⟨h1, h2⟩, rfl⟩
  | Clear t =>
    simp only [Renderer.apply] at ha
    split_ifs at ha with ht
    cases ha
    right; left
    exact ⟨by rw [ht], rfl⟩
  | SelectGraphicsRendition n =>
    right; right
    simp only [Renderer.apply] at ha
    split_ifs at ha <;> cases ha <;> exact ⟨fun c e => (by cases e), by simp, rfl⟩
  | RestoreCursorPosition =>
    right; right
    simp only [Renderer.apply] at ha
    split at ha
    · cases ha
    · cases ha
      exact ⟨fun c e => (by cases e), by simp, rfl⟩
  | Other => cases ha
  | _ =>
    right; right
    cases ha
    exact ⟨fun c e => (by cases e), by simp, rfl⟩

/-- The log after an operation, by the same three cases. -/
theorem logAfter_cases (r : Renderer) (log : List ((Nat × Nat) × Pixel)) (s : Sequence) :
    (∀ c, s = Sequence.Character c → isInk c →
      logAfter r log s = log ++ [((r.penY, r.penX), r.cell c)]) ∧
    (s = Sequence.Clear ClearTypeScreen → logAfter r log s = []) ∧
    ((∀ c, s = Sequence.Character c → ¬ isInk c) → s ≠ Sequence.Clear ClearTypeScreen →
      logAfter r log s = log) := by
  refine ⟨?_, ?_, ?_⟩
  · intro c e hi
    subst e
    have : ¬ (c = lf ∨ c = cr) := fun h => h.elim hi.1 hi.2
    simp only [logAfter, if_neg this]
  · intro e
    subst e
    simp [logAfter]
  · intro h1 h2
    cases s with
    | Character c =>
      have : c = lf ∨ c = cr := by
        by_contra hn
        exact h1 c rfl ⟨fun e => hn (Or.inl e), fun e => hn (Or.inr e)⟩
      simp only [logAfter, if_pos this]
    | Clear t =>
      have : ¬ t = ClearTypeScreen := fun e => h2 (by rw [e])
      simp only [logAfter, if_neg this]
    | _ => rfl

/-! ## The row storage and the log of cell writes -/

theorem getD_append_replicate {α : Type} (l : List α) (k : Nat) (d : α) (i : Nat) :
    (l ++ List.replicate k d).getD i d = l.getD i d := by
  simp only [List.getD_eq_getElem?_getD]
  by_cases h : i < l.length
  · rw [List.getElem?_append_left h]
  · rw [List.getElem?_append_right (not_lt.1 h), List.getElem?_eq_none (not_lt.1 h)]
    by_cases h2 : i - l.length < k
    · simp [List.getElem?_replicate, h2]
    · simp [List.getElem?_replicate, h2]

theorem getD_set {α : Type} (l : List α) (i j : Nat) (a d : α) (hi : i < l.length) :
    (l.set i a).getD j d = if j = i then a else l.getD j d := by
  simp only [List.getD_eq_getElem?_getD, List.getElem?_set]
  by_cases h : i = j
  · subst h
    simp [hi]
  · have h2 : ¬ j = i := fun e => h e.symm
    simp [h, h2]

/-- A cell write changes the cell at its position and no other cell. -/
theorem cellAt_writeCell (rows : List (List Pixel)) (y x : Nat) (px : Pixel) (y1 x1 : Nat) :
    cellAt (writeCell rows y x px) y1 x1 =
      if y1 = y ∧ x1 = x then px else cellAt rows y1 x1 := by
  unfold cellAt writeCell
  simp only
  have hy : y < (rows ++ List.replicate (y + 1 - rows.length) []).length := by
    simp only [List.length_append, List.length_replicate]; omega
  rw [getD_set _ _ _ _ _ hy]
  by_cases h1 : y1 = y
  · subst h1
    simp only [if_true, true_and]
    have hx : x < ((rows ++ List.replicate (y1 + 1 - rows.length) []).getD y1 [] ++
        List.replicate (x + 1 - ((rows ++ List.replicate (y1 + 1 - rows.length) []).getD y1
          []).length) Pixel.zero).length := by
      simp only [List.length_append, List.length_replicate]; omega
    rw [getD_set _ _ _ _ _ hx, getD_append_replicate, getD_append_replicate]
  · simp only [if_neg h1, getD_append_replicate]
    rw [if_neg (fun hq => h1 hq.1)]

theorem lastAt_append (log : List ((Nat × Nat) × Pixel)) (e : (Nat × Nat) × Pixel)
    (y x : Nat) :
    lastAt (log ++ [e]) y x = if e.1 = (y, x) then e.2 else lastAt log y x := by
  simp [lastAt, List.foldl_append]

theorem lastAt_nil (y x : Nat) : lastAt [] y x = Pixel.zero := rfl

theorem cellAt_nil (y x : Nat) : cellAt [] y x = Pixel.zero := by
  simp [cellAt]

/-- The log either has no write at a position, or holds the last write there. -/
theorem lastAt_mem (log : List ((Nat × Nat) × Pixel)) (y x : Nat) :
    ((∀ e ∈ log, e.1 ≠ (y, x)) ∧ lastAt log y x = Pixel.zero) ∨
    ((y, x), lastAt log y x) ∈ log := by
  induction log using List.reverseRecOn with
  | nil => left; exact ⟨fun e he => (by cases he), rfl⟩
  | append_singleton log e ih =>
    rw [lastAt_append]
    by_cases he : e.1 = (y, x)
    · right
      rw [if_pos he, ← he]
      simp
    · rw [if_neg he]
      rcases ih with ⟨h1, h2⟩ | h
      · left
        refine ⟨?_, h2⟩
        intro e2 h3
        rcases List.mem_append.1 h3 with h4 | h4
        · exact h1 e2 h4
        · rw [List.mem_singleton.1 h4]; exact he
      · right
        exact List.mem_append_left _ h

/-- One operation keeps the row storage in step with the log. -/
theorem step_agrees {r r1 : Renderer} {s : Sequence} (h : r.step s = .ok r1)
    (log : List ((Nat × Nat) × Pixel))
    (hag : ∀ y x, cellAt r.rows y x = lastAt log y x) :
    ∀ y x, cellAt r1.rows y x = lastAt (logAfter r log s) y x := by
  obtain ⟨l1, l2, l3⟩ := logAfter_cases r log s
  intro y x
  rcases step_rows h with ⟨c, e, hi, hr⟩ | ⟨e, hr⟩ | ⟨h1, h2, hr⟩
  · rw [hr, l1 c e hi, cellAt_writeCell, lastAt_append, hag]
    simp only [Prod.mk.injEq]
    by_cases hp : y = r.penY ∧ x = r.penX
    · rw [if_pos hp, if_pos ⟨hp.1.symm, hp.2.symm⟩]
    · rw [if_neg hp, if_neg (fun hq => hp ⟨hq.1.symm, hq.2.symm⟩)]
  · rw [hr, l2 e, cellAt_nil, lastAt_nil]
  · rw [hr, l3 h1 h2, hag]

/-- A run without failure keeps the row storage in step with the log. -/
theorem run_agrees : ∀ (seq : List Sequence) (r r2 : Renderer)
    (log : List ((Nat × Nat) × Pixel)), r.run seq = (r2, none) →
    (∀ y x, cellAt r.rows y x = lastAt log y x) →
    ∀ y x, cellAt r2.rows y x = lastAt (writeLog r log seq) y x := by
  intro seq
  induction seq with
  | nil =>
    intro r r2 log h hag
    cases h
    exact hag
  | cons s seq ih =>
    intro r r2 log h hag
    obtain ⟨r1, hs, hr⟩ := run_cons_ok h
    simp only [writeLog, hs]
    exact ih r1 r2 _ hr (step_agrees hs log hag)

theorem run_append_ok {a b : List Sequence} {r r2 : Renderer}
    (h : r.run (a ++ b) = (r2, none)) :
    ∃ t, r.run a = (t, none) ∧ t.run b = (r2, none) := by
  rw [run_append] at h
  cases hr : r.run a with
  | mk t f =>
    rw [hr] at h
    cases f with
    | some f => cases h
    | none => exact ⟨t, rfl, h⟩

/-- The cells of a rendered image are those that the log of cell writes
leaves. -/
theorem image_of_log {seq : List Sequence} {r r2 : Renderer} (hrows : r.rows = [])
    (h : r.run seq = (r2, none)) (y x : Nat) (hy : y < (imageOf r2.rows).Height)
    (hx : x < (imageOf r2.rows).Width) :
    (imageOf r2.rows).Pix[y * (imageOf r2.rows).Width + x]? =
      some (lastAt (writeLog r [] seq) y x) := by
  rw [(imageOf_cell r2.rows).2 y x hy hx,
    run_agrees seq r r2 [] h (fun y x => by rw [hrows, cellAt_nil, lastAt_nil])]

/-- C11. For every renderer state `r`, case `Clear` with kind Screen empties the
row storage and changes nothing else (cursor row and column, saved-cursor
stack, colours, bold offsets and blink mode are unchanged); the line-wrap loop
after it changes nothing either when the column is within the screen, as it is
in every state between two operations.  Hence for all sequences `s1`, `s2`
such that `s1 ++ [Clear(Screen)] ++ s2` renders without error, with `t` the
state after `s1`: the image is the one that `s2` renders from `t` with empty
rows, and every cell of it is either an unwritten cell (`Pixel{}`, at a
position where `s2` wrote nothing) or the cell written there by an operation
of `s2`. -/
theorem C11_clear_screen (r : Renderer) (s1 s2 : List Sequence) (img : Image)
    (h : RenderSequence (s1 ++ [Sequence.Clear ClearTypeScreen] ++ s2) = .ok img) :
    r.apply (Sequence.Clear ClearTypeScreen) = .ok { r with rows := [] } ∧
    (r.col ≤ r.screenWidth →
      r.step (Sequence.Clear ClearTypeScreen) = .ok { r with rows := [] }) ∧
    ∃ t r2, NewRenderer.run s1 = (t, none) ∧
      ({ t with rows := [] } : Renderer).run s2 = (r2, none) ∧
      img = imageOf r2.rows ∧
      ∀ y x, y < img.Height → x < img.Width →
        (img.Pix[y * img.Width + x]? = some Pixel.zero ∧
          ∀ e ∈ writeLog { t with rows := [] } [] s2, e.1 ≠ (y, x)) ∨
        (∃ px, img.Pix[y * img.Width + x]? = some px ∧
          ((y, x), px) ∈ writeLog { t with rows := [] } [] s2) := by
  have happ : ∀ q : Renderer,
      q.apply (Sequence.Clear ClearTypeScreen) = .ok { q with rows := [] } := by
    intro q
    simp [Renderer.apply]
  refine ⟨happ r, fun hc => step_of_apply_within (happ r) hc, ?_⟩
  obtain ⟨r2, hrun, himg⟩ := RenderSequence_ok h
  rw [List.append_assoc] at hrun
  obtain ⟨t, h1, h2⟩ := run_append_ok hrun
  obtain ⟨_, hcol⟩ := run_inv s1 NewRenderer t h1 (by decide)
  have hstep := step_of_apply_within (happ t) hcol
  have h3 : ({ t with rows := [] } : Renderer).run s2 = (r2, none) := by
    simpa [Renderer.run, hstep] using h2
  refine ⟨t, r2, h1, h3, himg, ?_⟩
  subst himg
  intro y x hy hx
  have hc := image_of_log (r := { t with rows := [] }) rfl h3 y x hy hx
  rcases lastAt_mem (writeLog { t with rows := [] } [] s2) y x with ⟨hno, hz⟩ | hm
  · left
    exact ⟨by rw [hc, hz], hno⟩
  · right
    exact ⟨_, hc, hm⟩

theorem C11_clear_screen_witness :
    NewRenderer.apply (Sequence.Clear ClearTypeScreen) = .ok { NewRenderer with rows := [] } ∧
    (NewRenderer.col ≤ NewRenderer.screenWidth →
      NewRenderer.step (Sequence.Clear ClearTypeScreen) = .ok { NewRenderer with rows := [] }) ∧
    ∃ t r2, NewRenderer.run [Sequence.Character 65, Sequence.Character 66] = (t, none) ∧
      ({ t with rows := [] } : Renderer).run [Sequence.Character 67] = (r2, none) ∧
      Image.mk [Pixel.zero, Pixel.zero, plainCell 67] 3 1 = imageOf r2.rows ∧
      ∀ y x, y < (Image.mk [Pixel.zero, Pixel.zero, plainCell 67] 3 1).Height →
        x < (Image.mk [Pixel.zero, Pixel.zero, plainCell 67] 3 1).Width →
        ((Image.mk [Pixel.zero, Pixel.zero, plainCell 67] 3 1).Pix[y *
            (Image.mk [Pixel.zero, Pixel.zero, plainCell 67] 3 1).Width + x]? =
              some Pixel.zero ∧
          ∀ e ∈ writeLog { t with rows := [] } [] [Sequence.Character 67], e.1 ≠ (y, x)) ∨
        (∃ px, (Image.mk [Pixel.zero, Pixel.zero, plainCell 67] 3 1).Pix[y *
            (Image.mk [Pixel.zero, Pixel.zero, plainCell 67] 3 1).Width + x]? = some px ∧
          ((y, x), px) ∈ writeLog { t with rows := [] } [] [Sequence.Character 67]) :=
  C11_clear_screen NewRenderer [Sequence.Character 65, Sequence.Character 66]
    [Sequence.Character 67] (Image.mk [Pixel.zero, Pixel.zero, plainCell 67] 3 1) rfl

/-- C14, as stated, fails: `[CursorForward 1, Character 'A']` renders to a row
of two cells; the cell at row 0, column 0 is written by no operation (the only
write is at column 1) and has foreground index 0, not 7. -/
theorem C14_counterexample :
    RenderSequence [Sequence.CursorForward 1, Sequence.Character 65] =
      .ok { Pix := [{ C := 0, BackgroundColor := 0, ForegroundColor := 0,
                      Blink := Blink.BlinkNone },
                    { C := 65, BackgroundColor := 0, ForegroundColor := 7,
                      Blink := Blink.BlinkNone }],
            Width := 2, Height := 1 } ∧
    writeLog NewRenderer [] [Sequence.CursorForward 1, Sequence.Character 65] =
      [((0, 1), { C := 65, BackgroundColor := 0, ForegroundColor := 7,
                  Blink := Blink.BlinkNone })] :=
  ⟨rfl, by decide⟩

/-- C14, amended. For every operation sequence that renders without error,
every cell of the returned image that no `Character` operation wrote since the
last `Clear` of the screen (the right padding of a short row, a gap left of a
write, or a skipped row; in particular every cell that no operation wrote at
all) is the zero value `Pixel{}`: glyph 0, background index 0, foreground
index 0 and blink None. -/
theorem C14_unwritten_cells_are_zero (seq : List Sequence) (img : Image)
    (h : RenderSequence seq = .ok img) (y x : Nat) (hy : y < img.Height)
    (hx : x < img.Width) (hno : ∀ e ∈ writeLog NewRenderer [] seq, e.1 ≠ (y, x)) :
    img.Pix[y * img.Width + x]? =
      some { C := 0, BackgroundColor := 0, ForegroundColor := 0, Blink := Blink.BlinkNone } := by
  obtain ⟨r2, hrun, himg⟩ := RenderSequence_ok h
  subst himg
  rw [image_of_log (r := NewRenderer) rfl hrun y x hy hx]
  rcases lastAt_mem (writeLog NewRenderer [] seq) y x with ⟨_, hz⟩ | hm
  · rw [hz]; rfl
  · exact absurd rfl (hno _ hm)

theorem C14_unwritten_cells_are_zero_witness :
    (Image.mk [Pixel.zero, plainCell 65] 2 1).Pix[0 *
        (Image.mk [Pixel.zero, plainCell 65] 2 1).Width + 0]? =
      some { C := 0, BackgroundColor := 0, ForegroundColor := 0, Blink := Blink.BlinkNone } :=
  C14_unwritten_cells_are_zero [Sequence.CursorForward 1, Sequence.Character 65]
    (Image.mk [Pixel.zero, plainCell 65] 2 1) rfl 0 0 (by decide) (by decide) (by decide)

/-! ## Writing behind the text of a row -/

/-- A write right behind the text `cur` of the row below the rows `done`, when
the row storage is `done ++ [cur]` short of `k` empty rows at its end. -/
theorem writeCell_lagging (rows done : List (List Pixel)) (cur : List Pixel) (k : Nat)
    (px : Pixel) (h : rows ++ List.replicate k [] = done ++ [cur]) :
    writeCell rows done.length cur.length px = done ++ [cur ++ [px]] := by
  have hl := congrArg List.length h
  simp only [List.length_append, List.length_replicate, List.length_singleton] at hl
  have e1 : done.length + 1 - rows.length = k := by omega
  unfold writeCell
  simp only [e1, h]
  simp [List.getD_eq_getElem?_getD, List.set_append]

/-- One written character in a state whose cursor is right behind the text
`cur` of the row below the rows `done`, on a screen of 80 columns, when the
row is not full after it. -/
theorem step_write (r : Renderer) (done : List (List Pixel)) (cur : List Pixel) (k c : Nat)
    (hrows : r.rows ++ List.replicate k [] = done ++ [cur])
    (hsw : r.screenWidth = 80) (hrow : r.row = (done.length : Int) + 1)
    (hcol : r.col = (cur.length : Int) + 1) (hcur : cur.length < 79)
    (hdone : (done.length : Int) + 1 < 2 ^ 63) (h1 : c ≠ lf) (h2 : c ≠ cr) :
    r.step (Sequence.Character c) =
      .ok { r with rows := done ++ [cur ++ [r.cell c]], col := (cur.length : Int) + 2 } := by
  have hy : r.penY = done.length := by
    have e : wrapInt ((done.length : Int) + 1 - 1) = done.length := by
      rw [wrapInt_id] <;> omega
    unfold Renderer.penY
    rw [hrow, e, if_neg (by omega)]
    omega
  have hx : r.penX = cur.length := by
    have e : wrapInt ((cur.length : Int) + 1 - 1) = cur.length := by
      rw [wrapInt_id] <;> omega
    unfold Renderer.penX
    rw [hcol, e, if_neg (by omega)]
    omega
  have hc : wrapInt (r.col + 1) = (cur.length : Int) + 2 := by
    rw [hcol, wrapInt_id] <;> omega
  have ha := apply_char r c h1 h2 (by rw [hy, maxInt_eq]; omega) (by rw [hx, maxInt_eq]; omega)
  rw [hy, hx, hc, writeCell_lagging r.rows done cur k _ hrows] at ha
  exact step_of_apply_within ha (by
    show (cur.length : Int) + 2 ≤ r.screenWidth
    rw [hsw]; omega)

/-- A line feed in a state whose row number does not overflow: the cursor
goes to the start of the next row. -/
theorem step_lf (r : Renderer) (hsw : 1 ≤ r.screenWidth) (h1 : -(2 ^ 63) ≤ r.row + 1)
    (h2 : r.row + 1 < 2 ^ 63) :
    r.step (Sequence.Character lf) = .ok { r with row := r.row + 1, col := 1 } := by
  have ha : r.apply (Sequence.Character lf) = .ok { r with row := r.row + 1, col := 1 } := by
    simp only [Renderer.apply, if_true, wrapInt_id _ h1 h2]
  exact step_of_apply_within ha hsw

/-! ## Colours -/

theorem pen_sgr0 (cells : List Pixel) (fg bold bg : Nat) (h : cells.length < 80) :
    (penState cells fg bold bg).step (Sequence.SelectGraphicsRendition 0) =
      .ok (penState cells 7 0 0) := by
  apply step_of_apply_within
  · simp [Renderer.apply, penState, GraphicsRenditionReset]
  · simp only [penState]; omega

theorem pen_sgr1 (cells : List Pixel) (fg bold bg : Nat) (h : cells.length < 80) :
    (penState cells fg bold bg).step (Sequence.SelectGraphicsRendition 1) =
      .ok (penState cells fg 8 bg) := by
  apply step_of_apply_within
  · simp [Renderer.apply, penState, GraphicsRenditionReset, GraphicsRenditionBold]
  · simp only [penState]; omega

theorem pen_fg (cells : List Pixel) (fg bold bg k : Nat) (h : cells.length < 80) (hk : k ≤ 7) :
    (penState cells fg bold bg).step (Sequence.SelectGraphicsRendition (30 + k)) =
      .ok (penState cells k bold bg) := by
  have e : (30 + k - 30) % 256 = k := by omega
  apply step_of_apply_within
  · simp only [Renderer.apply, penState, GraphicsRenditionReset, GraphicsRenditionBold,
      GraphicsrenditionDefaultTextColor, GraphicsRenditionSetTextColor0,
      GraphicsRenditionSetTextColor7]
    rw [if_neg (by omega), if_neg (by omega), if_neg (by omega), if_pos (by omega), e]
  · simp only [penState]; omega

theorem pen_bg (cells : List Pixel) (fg bold bg k : Nat) (h : cells.length < 80) (hk : k ≤ 7) :
    (penState cells fg bold bg).step (Sequence.SelectGraphicsRendition (40 + k)) =
      .ok (penState cells fg bold k) := by
  have e : (40 + k - 40) % 256 = k := by omega
  apply step_of_apply_within
  · simp only [Renderer.apply, penState, GraphicsRenditionReset, GraphicsRenditionBold,
      GraphicsrenditionDefaultTextColor, GraphicsRenditionSetTextColor0,
      GraphicsRenditionSetTextColor7, GraphicsRenditionSetBackgroundColor0,
      GraphicsRenditionSetBackgroundColor7]
    rw [if_neg (by omega), if_neg (by omega), if_neg (by omega), if_neg (by omega),
      if_pos (by omega), e]
  · simp only [penState]; omega

theorem pen_char (cells : List Pixel) (fg bold bg c : Nat) (h : cells.length < 79)
    (h1 : c ≠ lf) (h2 : c ≠ cr) :
    (penState cells fg bold bg).step (Sequence.Character c) =
      .ok (penState (cells ++ [Pixel.mk c ((bg + 0) % 256) ((fg + bold) % 256)
        Blink.BlinkNone]) fg bold bg) := by
  have hrows : (penState cells fg bold bg).rows ++
      List.replicate (if cells = [] then 1 else 0) [] = [] ++ [cells] := by
    by_cases hc : cells = []
    · subst hc; simp [penState]
    · simp [penState, hc]
  rw [step_write _ [] cells _ c hrows rfl rfl rfl h (by decide) h1 h2]
  simp [penState, Renderer.cell]
  omega

/-- A whole `m` sequence whose parameters are all written out and at most 255:
one `SelectGraphicsRendition` for each, in order. -/
theorem parseFrom_sgr_fields (fields : List (List Nat)) (rest : List Nat)
    (seq : List Sequence) (hne : fields ≠ [])
    (hdig : ∀ p ∈ fields, p ≠ [] ∧ ∀ d ∈ p, isDigit d = true)
    (hval : ∀ p ∈ fields, digitsValue p ≤ 255) :
    parseFrom (esc :: 0x5b :: (List.intercalate [59] fields ++ 109 :: rest)) seq =
      parseFrom rest
        (seq ++ fields.map (fun p => Sequence.SelectGraphicsRendition (digitsValue p))) := by
  have hfit : ∀ p ∈ fields, digitsValue p ≤ maxInt := fun p hp =>
    le_trans (hval p hp) (by decide)
  have h := parseFrom_csi_fields fields 109 rest seq hne (fun p hp => (hdig p hp).2) hfit
    (by decide) (by decide)
  have hfp : fieldParams fields = fields.map (fun p => Int.ofNat (digitsValue p)) := by
    unfold fieldParams
    rw [dropLastEmpty_of_nonempty fields (fun p hp => (hdig p hp).1)]
  have hlen : ¬ (fields.map (fun p => Int.ofNat (digitsValue p))).length = 0 := by
    cases fields with
    | nil => exact absurd rfl hne
    | cons p ps => simp
  have hd : dispatch 109 (fieldParams fields) seq =
      .ok (seq ++ fields.map (fun p => Sequence.SelectGraphicsRendition (digitsValue p))) := by
    rw [hfp]
    unfold dispatch
    simp only [if_neg hlen]
    simp
    intro p hp
    exact toByte_ofNat _ (hval p hp)
  simp only [hd] at h
  exact h

theorem parseFrom_sgr_one (d rest : List Nat) (seq : List Sequence) (hne : d ≠ [])
    (hdig : ∀ x ∈ d, isDigit x = true) (hval : digitsValue d ≤ 255) :
    parseFrom (27 :: 91 :: (d ++ 109 :: rest)) seq =
      parseFrom rest (seq ++ [Sequence.SelectGraphicsRendition (digitsValue d)]) := by
  have h := parseFrom_sgr_fields [d] rest seq (by simp)
    (by intro p hp; rw [List.mem_singleton.1 hp]; exact ⟨hne, hdig⟩)
    (by intro p hp; rw [List.mem_singleton.1 hp]; exact hval)
  simpa [List.intercalate, esc] using h

theorem parseFrom_sgr_two (d1 d2 rest : List Nat) (seq : List Sequence) (hne1 : d1 ≠ [])
    (hne2 : d2 ≠ []) (hdig1 : ∀ x ∈ d1, isDigit x = true) (hdig2 : ∀ x ∈ d2, isDigit x = true)
    (hval1 : digitsValue d1 ≤ 255) (hval2 : digitsValue d2 ≤ 255) :
    parseFrom (27 :: 91 :: (d1 ++ 59 :: (d2 ++ 109 :: rest))) seq =
      parseFrom rest (seq ++ [Sequence.SelectGraphicsRendition (digitsValue d1),
        Sequence.SelectGraphicsRendition (digitsValue d2)]) := by
  have h := parseFrom_sgr_fields [d1, d2] rest seq (by simp)
    (by
      intro p hp
      simp only [List.mem_cons, List.mem_singleton, List.not_mem_nil, or_false] at hp
      rcases hp with e | e
      · rw [e]; exact ⟨hne1, hdig1⟩
      · rw [e]; exact ⟨hne2, hdig2⟩)
    (by
      intro p hp
      simp only [List.mem_cons, List.mem_singleton, List.not_mem_nil, or_false] at hp
      rcases hp with e | e
      · rw [e]; exact hval1
      · rw [e]; exact hval2)
  simpa [List.intercalate, esc] using h

theorem parseFrom_one_char (c : Nat) (rest : List Nat) (seq : List Sequence)
    (h1 : c ≠ esc) (h2 : c ≠ eof) :
    parseFrom (c :: rest) seq = parseFrom rest (seq ++ [Sequence.Character c]) := by
  have := parseFrom_chars [c] rest seq
    (by intro x hx; rw [List.mem_singleton.1 hx]; exact ⟨h1, h2⟩)
  simpa using this

/-- The operations of one line of the colour test. -/
theorem ParseAll_colorTest (tens k c : Nat) (ht : isDigit tens = true) (hk : k ≤ 9)
    (h1 : c ≠ esc) (h2 : c ≠ eof) :
    ParseAll (colorTest tens k c) =
      some ([Sequence.SelectGraphicsRendition 0,
        Sequence.SelectGraphicsRendition (10 * (tens - 48) + k), Sequence.Character c,
        Sequence.SelectGraphicsRendition 1,
        Sequence.SelectGraphicsRendition (10 * (tens - 48) + k), Sequence.Character c,
        Sequence.SelectGraphicsRendition 0,
        Sequence.SelectGraphicsRendition (10 * (tens - 48) + k), Sequence.Character c],
        none) := by
  have htd : 48 ≤ tens ∧ tens ≤ 57 := by
    simpa [isDigit] using ht
  have hv : digitsValue [tens, 48 + k] = 10 * (tens - 48) + k := by
    simp [digitsValue]
  have hd : ∀ x ∈ [tens, 48 + k], isDigit x = true := by
    intro x hx
    simp only [List.mem_cons, List.mem_singleton, List.not_mem_nil, or_false] at hx
    rcases hx with e | e
    · rw [e]; exact ht
    · rw [e]; simp [isDigit]; omega
  have hle : digitsValue [tens, 48 + k] ≤ 255 := by rw [hv]; omega
  have d0 : ∀ x ∈ [48], isDigit x = true := by decide
  have d1 : ∀ x ∈ [49], isDigit x = true := by decide
  have e : colorTest tens k c =
      27 :: 91 :: ([48] ++ 109 :: (27 :: 91 :: ([tens, 48 + k] ++ 109 :: (c ::
      (27 :: 91 :: ([49] ++ 59 :: ([tens, 48 + k] ++ 109 :: (c ::
      (27 :: 91 :: ([48] ++ 59 :: ([tens, 48 + k] ++ 109 :: (c :: [])))))))))))) := rfl
  rw [e, ParseAll_eq,
    parseFrom_sgr_one [48] _ _ (by simp) d0 (by decide),
    parseFrom_sgr_one [tens, 48 + k] _ _ (by simp) hd hle,
    parseFrom_one_char c _ _ h1 h2,
    parseFrom_sgr_two [49] [tens, 48 + k] _ _ (by simp) (by simp) d1 hd (by decide) hle,
    parseFrom_one_char c _ _ h1 h2,
    parseFrom_sgr_two [48] [tens, 48 + k] _ _ (by simp) (by simp) d0 hd (by decide) hle,
    parseFrom_one_char c _ _ h1 h2, parseFrom_nil, hv]
  rfl

theorem imageOf_pen (cells : List Pixel) (fg bold bg : Nat) (h : cells ≠ []) :
    imageOf (penState cells fg bold bg).rows =
      { Pix := cells, Width := cells.length, Height := 1 } := by
  simp [imageOf_eq, penState, h, maxRowLength, padRow]

theorem run_step {r r1 : Renderer} {s : Sequence} (h : r.step s = .ok r1)
    (rest : List Sequence) : r.run (s :: rest) = r1.run rest := by
  simp [Renderer.run, h]

theorem pen_ink (cells : List Pixel) (fg bold bg c : Nat) (h : cells.length < 79)
    (h1 : c ≠ lf) (h2 : c ≠ cr) (hfg : fg + bold < 256) (hbg : bg < 256) :
    (penState cells fg bold bg).step (Sequence.Character c) =
      .ok (penState (cells ++ [Pixel.mk c bg (fg + bold) Blink.BlinkNone]) fg bold bg) := by
  rw [pen_char cells fg bold bg c h h1 h2, Nat.add_zero, Nat.mod_eq_of_lt hfg,
    Nat.mod_eq_of_lt hbg]

/-- The colour test with a foreground colour: the three cells. -/
theorem render_fg (k c : Nat) (hk : k ≤ 7) (h1 : c ≠ lf) (h2 : c ≠ cr) :
    RenderSequence [Sequence.SelectGraphicsRendition 0,
        Sequence.SelectGraphicsRendition (30 + k), Sequence.Character c,
        Sequence.SelectGraphicsRendition 1,
        Sequence.SelectGraphicsRendition (30 + k), Sequence.Character c,
        Sequence.SelectGraphicsRendition 0,
        Sequence.SelectGraphicsRendition (30 + k), Sequence.Character c] =
      .ok { Pix := [Pixel.mk c 0 k Blink.BlinkNone, Pixel.mk c 0 (8 + k) Blink.BlinkNone,
                    Pixel.mk c 0 k Blink.BlinkNone],
            Width := 3, Height := 1 } := by
  have hnew : NewRenderer = penState [] 7 0 0 := by decide
  have hrun : NewRenderer.run [Sequence.SelectGraphicsRendition 0,
        Sequence.SelectGraphicsRendition (30 + k), Sequence.Character c,
        Sequence.SelectGraphicsRendition 1,
        Sequence.SelectGraphicsRendition (30 + k), Sequence.Character c,
        Sequence.SelectGraphicsRendition 0,
        Sequence.SelectGraphicsRendition (30 + k), Sequence.Character c] =
      (penState [Pixel.mk c 0 k Blink.BlinkNone, Pixel.mk c 0 (8 + k) Blink.BlinkNone,
        Pixel.mk c 0 k Blink.BlinkNone] k 0 0, none) := by
    rw [hnew,
      run_step (pen_sgr0 [] 7 0 0 (by simp)),
      run_step (pen_fg [] 7 0 0 k (by simp) hk),
      run_step (pen_ink [] k 0 0 c (by simp) h1 h2 (by omega) (by omega)),
      run_step (pen_sgr1 _ k 0 0 (by simp)),
      run_step (pen_fg _ k 8 0 k (by simp) hk),
      run_step (pen_ink _ k 8 0 c (by simp) h1 h2 (by omega) (by omega)),
      run_step (pen_sgr0 _ k 8 0 (by simp)),
      run_step (pen_fg _ 7 0 0 k (by simp) hk),
      run_step (pen_ink _ k 0 0 c (by simp) h1 h2 (by omega) (by omega)),
      Nat.add_comm k 8]
    rfl
  rw [RenderSequence_of_run hrun, imageOf_pen _ _ _ _ (by simp)]
  rfl

/-- The colour test with a background colour: the three cells. -/
theorem render_bg (k c : Nat) (hk : k ≤ 7) (h1 : c ≠ lf) (h2 : c ≠ cr) :
    RenderSequence [Sequence.SelectGraphicsRendition 0,
        Sequence.SelectGraphicsRendition (40 + k), Sequence.Character c,
        Sequence.SelectGraphicsRendition 1,
        Sequence.SelectGraphicsRendition (40 + k), Sequence.Character c,
        Sequence.SelectGraphicsRendition 0,
        Sequence.SelectGraphicsRendition (40 + k), Sequence.Character c] =
      .ok { Pix := [Pixel.mk c k 7 Blink.BlinkNone, Pixel.mk c k 15 Blink.BlinkNone,
                    Pixel.mk c k 7 Blink.BlinkNone],
            Width := 3, Height := 1 } := by
  have hnew : NewRenderer = penState [] 7 0 0 := by decide
  have hrun : NewRenderer.run [Sequence.SelectGraphicsRendition 0,
        Sequence.SelectGraphicsRendition (40 + k), Sequence.Character c,
        Sequence.SelectGraphicsRendition 1,
        Sequence.SelectGraphicsRendition (40 + k), Sequence.Character c,
        Sequence.SelectGraphicsRendition 0,
        Sequence.SelectGraphicsRendition (40 + k), Sequence.Character c] =
      (penState [Pixel.mk c k 7 Blink.BlinkNone, Pixel.mk c k 15 Blink.BlinkNone,
        Pixel.mk c k 7 Blink.BlinkNone] 7 0 k, none) := by
    rw [hnew,
      run_step (pen_sgr0 [] 7 0 0 (by simp)),
      run_step (pen_bg [] 7 0 0 k (by simp) hk),
      run_step (pen_ink [] 7 0 k c (by simp) h1 h2 (by omega) (by omega)),
      run_step (pen_sgr1 _ 7 0 k (by simp)),
      run_step (pen_bg _ 7 8 k k (by simp) hk),
      run_step (pen_ink _ 7 8 k c (by simp) h1 h2 (by omega) (by omega)),
      run_step (pen_sgr0 _ 7 8 k (by simp)),
      run_step (pen_bg _ 7 0 0 k (by simp) hk),
      run_step (pen_ink _ 7 0 k c (by simp) h1 h2 (by omega) (by omega))]
    rfl
  rw [RenderSequence_of_run hrun, imageOf_pen _ _ _ _ (by simp)]
  rfl

/-- C12. For every `k` in 0..7 and every plain character `c` (a byte other than
LF, CR, ESC and 0x1A), `Parse` succeeds on
`ESC[0m ESC[(30+k)m c ESC[1;(30+k)m c ESC[0;(30+k)m c`, and the image is one
row of three cells with glyph `c` and foreground `k`, `8+k` and `k`, each with
background 0 and blink None; with `40+k` in place of `30+k` the three cells
have background `k` and foreground 7, 15 and 7.  For `k = 1`, `ESC[31mA`
writes glyph 65 with foreground 1, background 0, no blink. -/
theorem C12_color_test (k c : Nat) (hk : k ≤ 7)
    (hc : c ≠ lf ∧ c ≠ cr ∧ c ≠ esc ∧ c ≠ eof) :
    Parse (colorTest 51 k c) =
      some (.ok { Pix := [{ C := c, BackgroundColor := 0, ForegroundColor := k,
                            Blink := Blink.BlinkNone },
                          { C := c, BackgroundColor := 0, ForegroundColor := 8 + k,
                            Blink := Blink.BlinkNone },
                          { C := c, BackgroundColor := 0, ForegroundColor := k,
                            Blink := Blink.BlinkNone }],
                  Width := 3, Height := 1 }) ∧
    Parse (colorTest 52 k c) =
      some (.ok { Pix := [{ C := c, BackgroundColor := k, ForegroundColor := 7,
                            Blink := Blink.BlinkNone },
                          { C := c, BackgroundColor := k, ForegroundColor := 15,
                            Blink := Blink.BlinkNone },
                          { C := c, BackgroundColor := k, ForegroundColor := 7,
                            Blink := Blink.BlinkNone }],
                  Width := 3, Height := 1 }) ∧
    Parse [27, 91, 51, 49, 109, 65] =
      some (.ok { Pix := [{ C := 65, BackgroundColor := 0, ForegroundColor := 1,
                            Blink := Blink.BlinkNone }],
                  Width := 1, Height := 1 }) := by
  obtain ⟨h1, h2, h3, h4⟩ := hc
  have e3 : 10 * (51 - 48) + k = 30 + k := by omega
  have e4 : 10 * (52 - 48) + k = 40 + k := by omega
  refine ⟨?_, ?_, rfl⟩
  · rw [Parse, ParseAll_colorTest 51 k c (by decide) (by omega) h3 h4, e3]
    simp only [render_fg k c hk h1 h2]
  · rw [Parse, ParseAll_colorTest 52 k c (by decide) (by omega) h3 h4, e4]
    simp only [render_bg k c hk h1 h2]

theorem C12_color_test_witness :
    Parse (colorTest 51 1 65) =
      some (.ok { Pix := [{ C := 65, BackgroundColor := 0, ForegroundColor := 1,
                            Blink := Blink.BlinkNone },
                          { C := 65, BackgroundColor := 0, ForegroundColor := 8 + 1,
                            Blink := Blink.BlinkNone },
                          { C := 65, BackgroundColor := 0, ForegroundColor := 1,
                            Blink := Blink.BlinkNone }],
                  Width := 3, Height := 1 }) ∧
    Parse (colorTest 52 1 65) =
      some (.ok { Pix := [{ C := 65, BackgroundColor := 1, ForegroundColor := 7,
                            Blink := Blink.BlinkNone },
                          { C := 65, BackgroundColor := 1, ForegroundColor := 15,
                            Blink := Blink.BlinkNone },
                          { C := 65, BackgroundColor := 1, ForegroundColor := 7,
                            Blink := Blink.BlinkNone }],
                  Width := 3, Height := 1 }) ∧
    Parse [27, 91, 51, 49, 109, 65] =
      some (.ok { Pix := [{ C := 65, BackgroundColor := 0, ForegroundColor := 1,
                            Blink := Blink.BlinkNone }],
                  Width := 1, Height := 1 }) :=
  C12_color_test 1 65 (by decide) (by decide)

/-! ## Lines of plain text -/

theorem line_char (rows done : List (List Pixel)) (cur : List Pixel) (k c : Nat)
    (hrows : rows ++ List.replicate k [] = done ++ [cur]) (hcur : cur.length < 79)
    (hdone : (done.length : Int) + 1 < 2 ^ 63) (h1 : c ≠ lf) (h2 : c ≠ cr) :
    (lineState rows done.length cur.length).step (Sequence.Character c) =
      .ok (lineState (done ++ [cur ++ [plainCell c]]) done.length (cur.length + 1)) := by
  rw [step_write (lineState rows done.length cur.length) done cur k c hrows rfl rfl rfl hcur
    hdone h1 h2]
  simp only [lineState, Renderer.cell, plainCell, Nat.cast_add, Nat.cast_one]
  rfl

theorem line_lf (rows : List (List Pixel)) (nrow ncol : Nat)
    (h : (nrow : Int) + 2 < 2 ^ 63) :
    (lineState rows nrow ncol).step (Sequence.Character lf) =
      .ok (lineState rows (nrow + 1) 0) := by
  rw [step_lf (lineState rows nrow ncol) (by simp [lineState])
    (by simp only [lineState]; omega) (by simp only [lineState]; omega)]
  simp only [lineState, Nat.cast_add, Nat.cast_one, Nat.cast_zero, zero_add]

/-- A run of written characters that fits into the row. -/
theorem run_line : ∀ (cs : List Nat) (rows done : List (List Pixel)) (cur : List Pixel)
    (k : Nat), rows ++ List.replicate k [] = done ++ [cur] →
    cur.length + cs.length < 80 → (done.length : Int) + 1 < 2 ^ 63 →
    (∀ c ∈ cs, c ≠ lf ∧ c ≠ cr) →
    ∃ rows2 k2, rows2 ++ List.replicate k2 [] = done ++ [cur ++ plainRow cs] ∧
      (lineState rows done.length cur.length).run (cs.map Sequence.Character) =
        (lineState rows2 done.length (cur.length + cs.length), none) := by
  intro cs
  induction cs with
  | nil =>
    intro rows done cur k hrows _ _ _
    exact ⟨rows, k, by simpa [plainRow] using hrows, rfl⟩
  | cons c cs ih =>
    intro rows done cur k hrows hlen hdone hink
    have hc := hink c (List.mem_cons_self _ _)
    simp only [List.length_cons] at hlen
    have hstep := line_char rows done cur k c hrows (by omega) hdone hc.1 hc.2
    obtain ⟨rows2, k2, h1, h2⟩ := ih (done ++ [cur ++ [plainCell c]]) done
      (cur ++ [plainCell c]) 0 (by simp)
      (by simp only [List.length_append, List.length_singleton]; omega) hdone
      (fun x hx => hink x (List.mem_cons_of_mem _ hx))
    refine ⟨rows2, k2, ?_, ?_⟩
    · rw [h1]; simp [plainRow]
    · simp only [List.map_cons, run_step hstep]
      have e : (cur ++ [plainCell c]).length = cur.length + 1 := by simp
      rw [e] at h2
      rw [h2]
      have e2 : cur.length + 1 + cs.length = cur.length + (cs.length + 1) := by omega
      rw [e2, List.length_cons]

theorem intercalate_cons_cons_lf (a b : List Nat) (more : List (List Nat)) :
    List.intercalate [lf] (a :: b :: more) = a ++ lf :: List.intercalate [lf] (b :: more) := by
  simp [List.intercalate, List.intersperse]

/-- Lines of plain text, each shorter than the screen, joined by line feeds:
the row storage holds the lines, short of empty rows at the end. -/
theorem run_lines : ∀ (lines : List (List Nat)) (rows done : List (List Pixel)) (k : Nat),
    lines ≠ [] → rows ++ List.replicate k [] = done ++ [[]] →
    (∀ L ∈ lines, L.length < 80 ∧ ∀ c ∈ L, c ≠ lf ∧ c ≠ cr) →
    (done.length : Int) + lines.length < 2 ^ 63 →
    ∃ r2 k2, r2.rows ++ List.replicate k2 [] = done ++ lines.map plainRow ∧
      (lineState rows done.length 0).run
        ((List.intercalate [lf] lines).map Sequence.Character) = (r2, none) := by
  intro lines
  induction lines with
  | nil => intro _ _ _ h; exact absurd rfl h
  | cons L more ih =>
    intro rows done k _ hrows hlines hbound
    have hL := hlines L (List.mem_cons_self _ _)
    simp only [List.length_cons, Nat.cast_add, Nat.cast_one] at hbound
    obtain ⟨rows1, k1, hr1, hrun1⟩ := run_line L rows done [] k hrows
      (by simp only [List.length_nil]; omega) (by omega) hL.2
    simp only [List.length_nil, Nat.zero_add, List.nil_append] at hrun1 hr1
    cases more with
    | nil =>
      refine ⟨lineState rows1 done.length L.length, k1, ?_, ?_⟩
      · simpa [lineState] using hr1
      · simp only [List.intercalate, List.intersperse, List.flatten_cons, List.flatten_nil,
          List.append_nil]
        exact hrun1
    | cons L2 more2 =>
      simp only [List.length_cons, Nat.cast_add, Nat.cast_one] at hbound
      have hlf := line_lf rows1 done.length L.length (by omega)
      obtain ⟨r2, k2, hr2, hrun2⟩ := ih rows1 (done ++ [plainRow L]) (k1 + 1)
        (List.cons_ne_nil _ _)
        (by rw [List.replicate_succ', ← List.append_assoc, hr1])
        (fun X hX => hlines X (List.mem_cons_of_mem _ hX))
        (by
          simp only [List.length_append, List.length_singleton, List.length_cons,
            List.length_nil, Nat.cast_add, Nat.cast_one, Nat.cast_zero] at hbound ⊢
          omega)
      refine ⟨r2, k2, ?_, ?_⟩
      · rw [hr2]; simp
      · rw [intercalate_cons_cons_lf, List.map_append, run_append, hrun1]
        simp only [List.map_cons, run_step hlf]
        have e : (done ++ [plainRow L]).length = done.length + 1 := by simp
        rw [e] at hrun2
        exact hrun2

theorem mem_intercalate_lf : ∀ (lines : List (List Nat)) (x : Nat),
    x ∈ List.intercalate [lf] lines → x = lf ∨ ∃ L ∈ lines, x ∈ L := by
  intro lines
  induction lines with
  | nil => intro x h; simp [List.intercalate] at h
  | cons L more ih =>
    intro x h
    cases more with
    | nil =>
      right
      refine ⟨L, List.mem_cons_self _ _, ?_⟩
      simpa [List.intercalate] using h
    | cons L2 more2 =>
      rw [intercalate_cons_cons_lf] at h
      rcases List.mem_append.1 h with h1 | h1
      · right; exact ⟨L, List.mem_cons_self _ _, h1⟩
      · rcases List.mem_cons.1 h1 with h2 | h2
        · left; exact h2
        · rcases ih x h2 with h3 | ⟨X, hX, hx⟩
          · left; exact h3
          · right; exact ⟨X, List.mem_cons_of_mem _ hX, hx⟩

theorem length_le_intercalate_lf : ∀ (lines : List (List Nat)),
    (∃ L, lines.getLast? = some L ∧ L ≠ []) →
    lines.length ≤ (List.intercalate [lf] lines).length := by
  intro lines
  induction lines with
  | nil => intro _; simp
  | cons L more ih =>
    intro hlast
    cases more with
    | nil =>
      obtain ⟨X, hX, hne⟩ := hlast
      simp only [List.getLast?_singleton, Option.some.injEq] at hX
      subst hX
      have := List.length_pos.2 hne
      simp only [List.intercalate, List.intersperse, List.flatten_cons, List.flatten_nil,
        List.append_nil, List.length_cons, List.length_nil]
      omega
    | cons L2 more2 =>
      have := ih (by simpa [List.getLast?_cons_cons] using hlast)
      rw [intercalate_cons_cons_lf]
      simp only [List.length_cons, List.length_append] at this ⊢
      omega

theorem maxRowLength_plainRow (lines : List (List Nat)) :
    maxRowLength (lines.map plainRow) = (lines.map List.length).foldr max 0 := by
  simp [maxRowLength, plainRow, List.map_map, Function.comp_def]

theorem cellAt_plainRow (lines : List (List Nat)) (i j : Nat) (hi : i < lines.length)
    (hj : j < lines[i].length) :
    cellAt (lines.map plainRow) i j = plainCell lines[i][j] := by
  simp [cellAt, plainRow, List.getD_eq_getElem?_getD, hi, hj]

/-- C15. For every list of lines `L0..Lm`, each shorter than 80 bytes and free
of LF, CR, ESC and 0x1A bytes, with `Lm` non-empty (and an input whose length
fits in an `int`, as the length of every Go slice does), `Parse` on the lines
joined by single LF bytes succeeds with `Height = m + 1` (the number of
lines) and `Width` the length of the longest line, and for every `i` and every
`j` below the length of `Li` the cell at row `i`, column `j` has glyph
`Li[j]`, foreground 7, background 0 and blink None.  For the input `"AB\n C"`
this is a grid of 2 rows with row 0 = `"AB"` and row 1 = `" C"`. -/
theorem C15_plain_text (lines : List (List Nat))
    (hlines : ∀ L ∈ lines, L.length < 80 ∧ ∀ c ∈ L, c ≠ lf ∧ c ≠ cr ∧ c ≠ esc ∧ c ≠ eof)
    (hlast : ∃ L, lines.getLast? = some L ∧ L ≠ [])
    (hlen : (List.intercalate [lf] lines).length ≤ maxInt) :
    (∃ img, Parse (List.intercalate [lf] lines) = some (.ok img) ∧
      img.Height = lines.length ∧
      img.Width = (lines.map List.length).foldr max 0 ∧
      ∀ i j (hi : i < lines.length) (hj : j < lines[i].length),
        img.Pix[i * img.Width + j]? = some (plainCell lines[i][j])) ∧
    Parse [65, 66, 10, 32, 67] =
      some (.ok { Pix := [plainCell 65, plainCell 66, plainCell 32, plainCell 67],
                  Width := 2, Height := 2 }) := by
  refine ⟨?_, rfl⟩
  have hmax : maxInt = 2 ^ 63 - 1 := rfl
  have hne : lines ≠ [] := by
    obtain ⟨L, hL, _⟩ := hlast
    intro e
    rw [e] at hL
    cases hL
  have hcount := length_le_intercalate_lf lines hlast
  have hparse : ParseAll (List.intercalate [lf] lines) =
      some ((List.intercalate [lf] lines).map Sequence.Character, none) := by
    have := parseFrom_chars (List.intercalate [lf] lines) [] [] (by
      intro x hx
      rcases mem_intercalate_lf lines x hx with h | ⟨L, hL, hxL⟩
      · rw [h]; decide
      · exact ⟨((hlines L hL).2 x hxL).2.2.1, ((hlines L hL).2 x hxL).2.2.2⟩)
    rw [List.append_nil] at this
    rw [ParseAll_eq, this, parseFrom_nil]
    rfl
  obtain ⟨r2, k2, hrows, hrun⟩ := run_lines lines [] [] 1 hne (by simp)
    (fun L hL => ⟨(hlines L hL).1, fun c hc =>
      ⟨((hlines L hL).2 c hc).1, ((hlines L hL).2 c hc).2.1⟩⟩)
    (by simp only [List.length_nil, Nat.cast_zero]; omega)
  simp only [List.nil_append] at hrows
  have hk : k2 = 0 := by
    cases k2 with
    | zero => rfl
    | succ j =>
      exfalso
      obtain ⟨L, hL, hLne⟩ := hlast
      have h1 := congrArg List.getLast? hrows
      rw [List.replicate_succ', ← List.append_assoc, List.getLast?_append, List.getLast?_map,
        hL] at h1
      simp only [List.getLast?_singleton, Option.or, Option.map_some',
        Option.some.injEq] at h1
      apply hLne
      have h2 := congrArg List.length h1
      simp only [List.length_nil, plainRow, List.length_map] at h2
      exact List.eq_nil_of_length_eq_zero h2.symm
  rw [hk, List.replicate_zero, List.append_nil] at hrows
  have hnew : NewRenderer = lineState [] ([] : List (List Pixel)).length 0 := by decide
  rw [← hnew] at hrun
  have hrender := RenderSequence_of_run hrun
  refine ⟨imageOf r2.rows, by simp only [Parse, hparse, hrender], ?_, ?_, ?_⟩
  · rw [imageOf_eq, hrows, List.length_map]
  · rw [imageOf_eq, hrows, maxRowLength_plainRow]
  · intro i j hi hj
    have hW : (imageOf r2.rows).Width = (lines.map List.length).foldr max 0 := by
      rw [imageOf_eq, hrows, maxRowLength_plainRow]
    have hjW : j < (imageOf r2.rows).Width := by
      have := le_maxRowLength (lines.map plainRow) (plainRow lines[i])
        (List.mem_map.2 ⟨lines[i], List.getElem_mem _, rfl⟩)
      rw [hW, ← maxRowLength_plainRow]
      simp only [plainRow, List.length_map] at this ⊢
      omega
    rw [(imageOf_cell r2.rows).2 i j
      (by rw [imageOf_eq, hrows, List.length_map]; exact hi) hjW, hrows,
      cellAt_plainRow lines i j hi hj]

theorem C15_plain_text_witness :
    (∃ img, Parse (List.intercalate [lf] [[72, 105], [], [33]]) = some (.ok img) ∧
      img.Height = [[72, 105], [], [33]].length ∧
      img.Width = ([[72, 105], [], [33]].map List.length).foldr max 0 ∧
      ∀ i j (hi : i < [[72, 105], [], [33]].length) (hj : j < [[72, 105], [], [33]][i].length),
        img.Pix[i * img.Width + j]? = some (plainCell [[72, 105], [], [33]][i][j])) ∧
    Parse [65, 66, 10, 32, 67] =
      some (.ok { Pix := [plainCell 65, plainCell 66, plainCell 32, plainCell 67],
                  Width := 2, Height := 2 }) :=
  C15_plain_text [[72, 105], [], [33]] (by decide) ⟨[33], rfl, by decide⟩ (by decide)

/-! ## The line-wrap loop in closed form -/

/-- Without overflow, the loop takes the column `col >= 1` to
`(col - 1) mod 80 + 1` and adds `(col - 1) div 80` to the row. -/
theorem wrapLoop_closed : ∀ (fuel : Nat) (row col : Int), 1 ≤ col → col ≤ 80 + 80 * fuel →
    col < 2 ^ 63 → -(2 ^ 63) ≤ row → row + (col - 1) / 80 < 2 ^ 63 →
    wrapLoop 80 fuel row col = some (row + (col - 1) / 80, (col - 1) % 80 + 1) := by
  intro fuel
  induction fuel with
  | zero =>
    intro row col h1 h2 _ _ _
    have e1 : (col - 1) / 80 = 0 := by omega
    have e2 : (col - 1) % 80 + 1 = col := by omega
    rw [wrapLoop_within _ _ _ _ (by omega), e1, e2, add_zero]
  | succ f ih =>
    intro row col h1 h2 h3 h4 h5
    by_cases hc : col > 80
    · have w1 : wrapInt (row + 1) = row + 1 := by
        rw [wrapInt_id] <;> omega
      have w2 : wrapInt (col - 80) = col - 80 := by
        rw [wrapInt_id] <;> omega
      have e1 : row + 1 + (col - 80 - 1) / 80 = row + (col - 1) / 80 := by omega
      have e2 : (col - 80 - 1) % 80 = (col - 1) % 80 := by omega
      rw [wrapLoop, if_pos hc, w1, w2,
        ih (row + 1) (col - 80) (by omega) (by push_cast at h2 ⊢; omega) (by omega) (by omega)
          (by omega), e1, e2]
    · have e1 : (col - 1) / 80 = 0 := by omega
      have e2 : (col - 1) % 80 + 1 = col := by omega
      rw [wrapLoop_within _ _ _ _ (by omega), e1, e2, add_zero]

/-- Without overflow, the body of the loop runs `(col - 1) div 80` times. -/
theorem wrapIterations_closed : ∀ (fuel : Nat) (col : Int), 1 ≤ col → col ≤ 80 + 80 * fuel →
    col < 2 ^ 63 → wrapIterations 80 fuel col = some ((col - 1) / 80).toNat := by
  intro fuel
  induction fuel with
  | zero =>
    intro col h1 h2 _
    have e1 : (col - 1) / 80 = 0 := by omega
    simp only [wrapIterations, if_neg (show ¬ col > 80 by omega), e1]
    rfl
  | succ f ih =>
    intro col h1 h2 h3
    by_cases hc : col > 80
    · have w2 : wrapInt (col - 80) = col - 80 := by
        rw [wrapInt_id] <;> omega
      have e1 : ((col - 80 - 1) / 80).toNat + 1 = ((col - 1) / 80).toNat := by omega
      rw [wrapIterations, if_pos hc, w2,
        ih (col - 80) (by omega) (by push_cast at h2 ⊢; omega) (by omega)]
      simp only [Option.map_some', e1]
    · have e1 : (col - 1) / 80 = 0 := by omega
      simp only [wrapIterations, if_neg hc, e1]
      rfl

/-- C16, as stated, fails: `ESC[9223372036854775807C` parses to
`CursorForward` with the largest `int` as its count; from the fresh renderer,
with cursor `(1, 1)`, `c + n` overflows, the column becomes the smallest `int`
and the loop does not run, while the claim puts the cursor at column
`((c + n - 1) mod 80) + 1 = 48`, 115292150460684697 rows further down. -/
theorem C16_counterexample :
    ParseAll [27, 91, 57, 50, 50, 51, 51, 55, 50, 48, 51, 54, 56, 53, 52, 55, 55, 53, 56, 48,
        55, 67] = some ([Sequence.CursorForward 9223372036854775807], none) ∧
    NewRenderer.step (Sequence.CursorForward 9223372036854775807) =
      .ok { NewRenderer with row := 1, col := -9223372036854775808 } ∧
    ((1 : Int) + 9223372036854775807 - 1) % 80 + 1 = 48 ∧
    (1 : Int) + ((1 : Int) + 9223372036854775807 - 1) / 80 = 115292150460684698 :=
  ⟨rfl, rfl, by decide, by decide⟩

/-- C16, amended. For every renderer state `s` reachable from a fresh renderer,
with cursor `(r, c)`, and every `n` with `c + n >= 1`, when neither `c + n`
nor `r + (c + n - 1) div 80` overflows an `int`: after `CursorForward(n)` and
the line-wrap loop that follows it the cursor is at row
`r + (c + n - 1) div 80` and column `((c + n - 1) mod 80) + 1`, nothing else
is changed, and the body of the loop has run `(c + n - 1) div 80` times.  The
loop ends for every `n` whatever, overflow or not. -/
theorem C16_cursor_forward_wrap (pre : List Sequence) (s : Renderer) (n : Int)
    (hreach : NewRenderer.run pre = (s, none))
    (h1 : 1 ≤ s.col + n) (h2 : s.col + n ≤ (maxInt : Int))
    (h3 : -(2 ^ 63) ≤ s.row) (h4 : s.row + (s.col + n - 1) / 80 ≤ (maxInt : Int)) :
    s.step (Sequence.CursorForward n) =
      .ok { s with row := s.row + (s.col + n - 1) / 80, col := (s.col + n - 1) % 80 + 1 } ∧
    wrapIterations s.screenWidth (s.col + n).toNat (s.col + n) =
      some ((s.col + n - 1) / 80).toNat ∧
    ∀ m : Int, ∃ s1, s.step (Sequence.CursorForward m) = .ok s1 := by
  have hmax : (maxInt : Int) = 2 ^ 63 - 1 := by decide
  obtain ⟨hsw, _⟩ := run_inv pre NewRenderer s hreach (by decide)
  have hsw80 : s.screenWidth = 80 := hsw
  have hw : wrapInt (s.col + n) = s.col + n := by
    rw [wrapInt_id] <;> omega
  have hfuel : s.col + n ≤ 80 + 80 * ((s.col + n).toNat : Int) := by omega
  refine ⟨?_, ?_, ?_⟩
  · simp only [Renderer.step, Renderer.apply, hw, hsw80]
    rw [wrapLoop_closed _ _ _ h1 hfuel (by omega) h3 (by omega)]
  · rw [hsw80]
    exact wrapIterations_closed _ _ h1 hfuel (by omega)
  · intro m
    have ha : s.apply (Sequence.CursorForward m) = .ok { s with col := wrapInt (s.col + m) } :=
      rfl
    obtain ⟨row1, col1, e, _⟩ := step_of_apply ha (by
      show 1 ≤ s.screenWidth
      rw [hsw80]; decide)
    exact ⟨_, e⟩

theorem C16_cursor_forward_wrap_witness :
    (NewRenderer.run [Sequence.Character 65]).1.step (Sequence.CursorForward 200) =
      .ok { (NewRenderer.run [Sequence.Character 65]).1 with
        row := (NewRenderer.run [Sequence.Character 65]).1.row +
          ((NewRenderer.run [Sequence.Character 65]).1.col + 200 - 1) / 80,
        col := ((NewRenderer.run [Sequence.Character 65]).1.col + 200 - 1) % 80 + 1 } ∧
    wrapIterations (NewRenderer.run [Sequence.Character 65]).1.screenWidth
        ((NewRenderer.run [Sequence.Character 65]).1.col + 200).toNat
        ((NewRenderer.run [Sequence.Character 65]).1.col + 200) =
      some (((NewRenderer.run [Sequence.Character 65]).1.col + 200 - 1) / 80).toNat ∧
    ∀ m : Int, ∃ s1,
      (NewRenderer.run [Sequence.Character 65]).1.step (Sequence.CursorForward m) = .ok s1 :=
  C16_cursor_forward_wrap [Sequence.Character 65] (NewRenderer.run [Sequence.Character 65]).1
    200 (by decide) (by decide) (by decide) (by decide) (by decide)

/-! ## Empty and non-empty images -/

theorem writeCell_hasCell (rows : List (List Pixel)) (y x : Nat) (px : Pixel) :
    hasCell (writeCell rows y x px) := by
  have hc : cellAt (writeCell rows y x px) y x = px := by
    rw [cellAt_writeCell, if_pos ⟨rfl, rfl⟩]
  have hy : y < (writeCell rows y x px).length := by
    simp only [writeCell, List.length_set, List.length_append, List.length_replicate]
    omega
  refine ⟨(writeCell rows y x px)[y], List.getElem_mem _, ?_⟩
  intro hnil
  have hlen : x < ((writeCell rows y x px)[y]).length := by
    simp only [writeCell, List.getElem_set_self, List.length_set, List.length_append,
      List.length_replicate]
    omega
  rw [hnil] at hlen
  exact absurd hlen (Nat.not_lt_zero _)

theorem hasCell_ne_nil {rows : List (List Pixel)} (h : hasCell rows) : rows ≠ [] := by
  obtain ⟨row, hr, _⟩ := h
  intro e
  rw [e] at hr
  cases hr

theorem inkAfterClear_cons (s : Sequence) (seq : List Sequence) :
    inkAfterClear (s :: seq) ↔
      inkAfterClear seq ∨
        ((∃ c, s = Sequence.Character c ∧ isInk c) ∧ Sequence.Clear ClearTypeScreen ∉ seq) := by
  constructor
  · rintro ⟨s1, c, s2, e, h1, h2, h3⟩
    cases s1 with
    | nil =>
      simp only [List.nil_append, List.cons.injEq] at e
      right
      exact ⟨⟨c, e.1, h1, h2⟩, by rw [e.2]; exact h3⟩
    | cons a s1 =>
      simp only [List.cons_append, List.cons.injEq] at e
      left
      exact ⟨s1, c, s2, e.2, h1, h2, h3⟩
  · rintro (⟨s1, c, s2, e, h1, h2, h3⟩ | ⟨⟨c, e, hi⟩, h3⟩)
    · exact ⟨s :: s1, c, s2, by rw [e]; rfl, h1, h2, h3⟩
    · exact ⟨[], c, seq, by rw [e]; rfl, hi.1, hi.2, h3⟩

/-- After a run without failure the row storage is empty or has a cell, and it
is not empty exactly when a character was written with no clear after it, or
the storage was not empty before and the run has no clear. -/
theorem run_rows : ∀ (seq : List Sequence) (r r2 : Renderer), r.run seq = (r2, none) →
    (r.rows = [] ∨ hasCell r.rows) →
    (r2.rows = [] ∨ hasCell r2.rows) ∧
    (r2.rows ≠ [] ↔
      inkAfterClear seq ∨ (r.rows ≠ [] ∧ Sequence.Clear ClearTypeScreen ∉ seq)) := by
  intro seq
  induction seq with
  | nil =>
    intro r r2 h hs
    cases h
    refine ⟨hs, ?_⟩
    constructor
    · intro hne; right; exact ⟨hne, List.not_mem_nil _⟩
    · rintro (⟨s1, c, s2, e, _⟩ | ⟨hne, _⟩)
      · cases s1 <;> cases e
      · exact hne
  | cons s seq ih =>
    intro r r2 h hs
    obtain ⟨r1, hstep, hrun⟩ := run_cons_ok h
    rcases step_rows hstep with ⟨c, e, hi, hr⟩ | ⟨e, hr⟩ | ⟨hn1, hn2, hr⟩
    · have hc1 : hasCell r1.rows := by rw [hr]; exact writeCell_hasCell _ _ _ _
      obtain ⟨ih1, ih2⟩ := ih r1 r2 hrun (Or.inr hc1)
      refine ⟨ih1, ?_⟩
      rw [ih2, inkAfterClear_cons]
      have hsne : Sequence.Clear ClearTypeScreen ≠ s := by rw [e]; simp
      constructor
      · rintro (h1 | ⟨_, h2⟩)
        · left; left; exact h1
        · left; right; exact ⟨⟨c, e, hi⟩, h2⟩
      · rintro ((h1 | ⟨_, h2⟩) | ⟨_, h2⟩)
        · left; exact h1
        · right; exact ⟨hasCell_ne_nil hc1, h2⟩
        · right
          exact ⟨hasCell_ne_nil hc1, fun hm => h2 (List.mem_cons_of_mem _ hm)⟩
    · obtain ⟨ih1, ih2⟩ := ih r1 r2 hrun (Or.inl hr)
      refine ⟨ih1, ?_⟩
      rw [ih2, inkAfterClear_cons]
      constructor
      · rintro (h1 | ⟨h2, _⟩)
        · left; left; exact h1
        · exact absurd hr h2
      · rintro ((h1 | ⟨⟨c, e2, _⟩, _⟩) | ⟨_, h2⟩)
        · left; exact h1
        · rw [e] at e2; cases e2
        · exact absurd (by rw [e]; exact List.mem_cons_self _ _) h2
    · obtain ⟨ih1, ih2⟩ := ih r1 r2 hrun (by rw [hr]; exact hs)
      refine ⟨ih1, ?_⟩
      rw [ih2, inkAfterClear_cons, hr]
      constructor
      · rintro (h1 | ⟨h2, h3⟩)
        · left; left; exact h1
        · right
          refine ⟨h2, fun hm => ?_⟩
          rcases List.mem_cons.1 hm with h4 | h4
          · exact hn2 h4.symm
          · exact h3 h4
      · rintro ((h1 | ⟨⟨c, e2, hi⟩, _⟩) | ⟨h2, h3⟩)
        · left; exact h1
        · exact absurd hi (hn1 c e2)
        · right
          exact ⟨h2, fun hm => h3 (List.mem_cons_of_mem _ hm)⟩

theorem maxRowLength_pos {rows : List (List Pixel)} (h : hasCell rows) :
    0 < maxRowLength rows := by
  obtain ⟨row, hr, hne⟩ := h
  have h1 := le_maxRowLength rows row hr
  have h2 := List.length_pos.2 hne
  omega

/-- C17. For every operation sequence that renders without error from a fresh
renderer, the image has `Width = 0` if and only if it has `Height = 0`, and
both are greater than 0 if and only if at least one `Character` other than LF
and CR occurs in the sequence with no `Clear` of the screen after it: it was
rendered after the last clear, or anywhere when there is no clear. -/
theorem C17_empty_image (seq : List Sequence) (img : Image)
    (h : RenderSequence seq = .ok img) :
    (img.Width = 0 ↔ img.Height = 0) ∧
    ((0 < img.Width ∧ 0 < img.Height) ↔
      ∃ s1 c s2, seq = s1 ++ Sequence.Character c :: s2 ∧ c ≠ lf ∧ c ≠ cr ∧
        Sequence.Clear ClearTypeScreen ∉ s2) := by
  obtain ⟨r, hrun, himg⟩ := RenderSequence_ok h
  subst himg
  obtain ⟨hsolid, hiff⟩ := run_rows seq NewRenderer r hrun (Or.inl rfl)
  have hW : (imageOf r.rows).Width = maxRowLength r.rows := by rw [imageOf_eq]
  have hH : (imageOf r.rows).Height = r.rows.length := by rw [imageOf_eq]
  have hfresh : ¬ (NewRenderer.rows ≠ []) := fun hn => hn rfl
  have hink : r.rows ≠ [] ↔ inkAfterClear seq := by
    rw [hiff]
    constructor
    · rintro (h1 | ⟨h2, _⟩)
      · exact h1
      · exact absurd h2 hfresh
    · intro h1; left; exact h1
  rw [hW, hH]
  rcases hsolid with hnil | hcell
  · have hno : ¬ inkAfterClear seq := fun hi => (hink.2 hi) hnil
    rw [hnil]
    refine ⟨by simp [maxRowLength], ?_⟩
    constructor
    · rintro ⟨_, h2⟩
      simp at h2
    · intro hi
      exact absurd hi hno
  · have hpos := maxRowLength_pos hcell
    have hlen : 0 < r.rows.length := List.length_pos.2 (hasCell_ne_nil hcell)
    refine ⟨by omega, ?_⟩
    constructor
    · intro _
      exact hink.1 (hasCell_ne_nil hcell)
    · intro _
      exact ⟨hpos, hlen⟩

theorem C17_empty_image_witness :
    ((Image.mk [] 0 0).Width = 0 ↔ (Image.mk [] 0 0).Height = 0) ∧
    ((0 < (Image.mk [] 0 0).Width ∧ 0 < (Image.mk [] 0 0).Height) ↔
      ∃ s1 c s2, [Sequence.Character 65, Sequence.Clear ClearTypeScreen,
          Sequence.Character 10] = s1 ++ Sequence.Character c :: s2 ∧ c ≠ lf ∧ c ≠ cr ∧
        Sequence.Clear ClearTypeScreen ∉ s2) :=
  C17_empty_image [Sequence.Character 65, Sequence.Clear ClearTypeScreen,
    Sequence.Character 10] (Image.mk [] 0 0) rfl

/-! ## The counts of the cursor motions -/

theorem headD_nonneg (nums : List Int) (hn : ∀ n ∈ nums, 0 ≤ n) :
    0 ≤ (nums ++ [1]).headD 0 ∧ 0 ≤ nums.headD 0 := by
  cases nums with
  | nil => simp
  | cons a t =>
    have := hn a (List.mem_cons_self _ _)
    simpa using this

theorem dispatch_validCount (c : Nat) (nums : List Int) (seq seq1 : List Sequence)
    (hn : ∀ n ∈ nums, 0 ≤ n) (h : dispatch c nums seq = .ok seq1)
    (hs : ∀ op ∈ seq, validCount op) : ∀ op ∈ seq1, validCount op := by
  obtain ⟨hA, hB⟩ := headD_nonneg nums hn
  unfold dispatch at h
  split_ifs at h <;> cases h <;> intro op hop
  all_goals first
    | exact hs op hop
    | skip
  all_goals
    rcases List.mem_append.1 hop with h1 | h1
    · exact hs op h1
    · first
      | (rw [List.mem_singleton.1 h1]; exact hA)
      | (rw [List.mem_singleton.1 h1]; exact hB)
      | (rw [List.mem_singleton.1 h1]; exact trivial)
      | (obtain ⟨m, _, rfl⟩ := List.mem_map.1 h1; exact trivial)

/-- C18, as stated, fails: `ESC[0A` and `ESC[;C` parse to cursor motions with
the count 0. -/
theorem C18_counterexample :
    ParseAll [27, 91, 48, 65] = some ([Sequence.CursorUp 0], none) ∧
    ParseAll [27, 91, 59, 67] = some ([Sequence.CursorForward 0], none) :=
  ⟨rfl, rfl⟩

/-- C18, amended. For every input byte string, `ParseAll` returns, and every
`CursorUp`, `CursorDown`, `CursorForward` and `CursorBackward` operation that it
returns carries a count `n >= 0`; the count 0 occurs, as for `ESC[0B`: only a
missing parameter is replaced by 1, an explicit 0 is kept. -/
theorem C18_motion_counts (input : List Nat) :
    (∃ res, ParseAll input = some res ∧
      ∀ op ∈ res.1, ∀ n : Int,
        (op = Sequence.CursorUp n ∨ op = Sequence.CursorDown n ∨
          op = Sequence.CursorForward n ∨ op = Sequence.CursorBackward n) → 0 ≤ n) ∧
    ParseAll [27, 91, 48, 66] = some ([Sequence.CursorDown 0], none) ∧
    ParseAll [27, 91, 66] = some ([Sequence.CursorDown 1], none) := by
  refine ⟨?_, rfl, rfl⟩
  obtain ⟨x, hx⟩ := parseFrom_some input []
  refine ⟨recovered x, by rw [ParseAll_eq, hx]; rfl, ?_⟩
  intro op hop n hn
  have hv : validCount op :=
    parseLoop_all validCount (fun _ => trivial) dispatch_validCount _ _ _ _ hx (by simp) op hop
  rcases hn with e | e | e | e <;> (rw [e] at hv; exact hv)

/-! ## Restore on an empty stack -/

/-- The type switch panics only in case `RestoreCursorPosition`, on an empty
stack. -/
theorem apply_panic {r : Renderer} {s : Sequence}
    (h : r.apply s = .error Failure.runtimePanic) :
    s = Sequence.RestoreCursorPosition ∧ r.savedCursors = [] := by
  cases s with
  | RestoreCursorPosition =>
    simp only [Renderer.apply] at h
    split at h
    · rename_i hl
      exact ⟨rfl, List.getLast?_eq_none_iff.1 hl⟩
    · cases h
  | Character c =>
    simp only [Renderer.apply] at h
    split_ifs at h <;> cases h
  | Clear t =>
    simp only [Renderer.apply] at h
    split_ifs at h
    cases h
  | SelectGraphicsRendition n =>
    simp only [Renderer.apply] at h
    split_ifs at h
    cases h
  | _ => cases h

theorem step_panic {r : Renderer} {s : Sequence}
    (h : r.step s = .error Failure.runtimePanic) :
    s = Sequence.RestoreCursorPosition ∧ r.savedCursors = [] := by
  unfold Renderer.step at h
  split at h
  · rename_i f ha
    cases h
    exact apply_panic ha
  · split at h
    · cases h
    · cases h

/-- When no prefix has more restores than saves plus the height of the stack,
the run does not panic. -/
theorem run_no_panic : ∀ (seq : List Sequence) (r : Renderer),
    (∀ k ≤ seq.length, restores (seq.take k) ≤ saves (seq.take k) + r.savedCursors.length) →
    (r.run seq).2 ≠ some Failure.runtimePanic := by
  intro seq
  induction seq with
  | nil => intro r _; simp [Renderer.run]
  | cons s seq ih =>
    intro r hbal
    have hb1 := hbal 1 (by simp)
    cases hstep : r.step s with
    | error f =>
      simp only [Renderer.run, hstep]
      intro hf
      simp only [Option.some.injEq] at hf
      subst hf
      obtain ⟨e1, e2⟩ := step_panic hstep
      subst e1
      rw [e2] at hb1
      simp [restores, saves] at hb1
    | ok r1 =>
      simp only [Renderer.run, hstep]
      obtain ⟨_, hsv, hst, _⟩ := step_facts hstep
      have hlen := savedAfter_length r s hst
      apply ih
      intro k hk
      have h1 := hbal (k + 1) (by simp only [List.length_cons]; omega)
      rw [restores_take_succ, saves_take_succ] at h1
      rw [hsv]
      omega

/-- C19: what the code does.  `RenderSequence` on `[RestoreCursorPosition]`, and
`Parse` on `ESC[u`, end in a run-time panic (the stack is indexed at
`len - 1 = -1`), not in a returned error.  When every prefix of the sequence
has at least as many saves as restores, no call panics: the index is in
bounds. -/
theorem C19_restore_on_empty_stack_panics (seq : List Sequence)
    (hbal : ∀ k ≤ seq.length, restores (seq.take k) ≤ saves (seq.take k)) :
    RenderSequence [Sequence.RestoreCursorPosition] = .error Failure.runtimePanic ∧
    Parse [27, 91, 117] = some (.error Failure.runtimePanic) ∧
    RenderSequence seq ≠ .error Failure.runtimePanic := by
  refine ⟨rfl, rfl, ?_⟩
  have hnp := run_no_panic seq NewRenderer (fun k hk => by have := hbal k hk; omega)
  unfold RenderSequence Renderer.RenderSequence
  cases hr : NewRenderer.run seq with
  | mk r1 f =>
    rw [hr] at hnp
    cases f with
    | none => simp
    | some f =>
      simp only
      intro e
      cases e
      exact hnp rfl

theorem C19_restore_on_empty_stack_panics_witness :
    RenderSequence [Sequence.RestoreCursorPosition] = .error Failure.runtimePanic ∧
    Parse [27, 91, 117] = some (.error Failure.runtimePanic) ∧
    RenderSequence [Sequence.SaveCursorPosition, Sequence.RestoreCursorPosition] ≠
      .error Failure.runtimePanic :=
  C19_restore_on_empty_stack_panics
    [Sequence.SaveCursorPosition, Sequence.RestoreCursorPosition] (by decide)

/-! ## A digit run that does not fit in an `int` -/

theorem digitsValue_nil_fits : digitsValue [] ≤ maxInt := by decide

/-- The parameter loop on a parameter text with a digit run that does not fit
in an `int`: `readNum` panics at the first such run. -/
theorem escText_unfit : ∀ (fields : List (List Nat)) (fuel f : Nat) (rest : List Nat)
    (nums : List Int),
    (∀ fld ∈ fields, ∀ d ∈ fld, isDigit d = true) →
    (∃ fld ∈ fields, ¬ digitsValue fld ≤ maxInt) →
    isDigit f = false → f ≠ 59 →
    (List.intercalate [59] fields ++ f :: rest).length ≤ fuel →
    ∃ fld ∈ fields, ¬ digitsValue fld ≤ maxInt ∧
      escText fuel (List.intercalate [59] fields ++ f :: rest) nums =
        some (.error (Error.failedNumber fld)) := by
  intro fields
  induction fields with
  | nil => intro _ _ _ _ _ h; obtain ⟨fld, hm, _⟩ := h; cases hm
  | cons fld more ih =>
    intro fuel f rest nums hdig hun hf hf59 hlen
    have h59 : isDigit 59 = false := by decide
    by_cases hfit : digitsValue fld ≤ maxInt
    · -- this field is read; the run that does not fit comes later
      have hun2 : ∃ x ∈ more, ¬ digitsValue x ≤ maxInt := by
        obtain ⟨x, hx, hxu⟩ := hun
        rcases List.mem_cons.1 hx with e | e
        · rw [e] at hxu; exact absurd hfit hxu
        · exact ⟨x, e, hxu⟩
      cases more with
      | nil => obtain ⟨x, hx, _⟩ := hun2; cases hx
      | cons m ms =>
        have ih1 := fun fuel nums hl => ih fuel f rest nums
          (fun fl hfl => hdig fl (List.mem_cons_of_mem _ hfl)) hun2 hf hf59 hl
        rw [intercalate_cons_cons] at hlen ⊢
        cases fld with
        | nil =>
          cases fuel with
          | zero => simp at hlen
          | succ k =>
            simp only [List.nil_append, List.cons_append, List.length_cons] at hlen ⊢
            simp only [escText, escLoop, if_true]
            rw [next_then_esc]
            obtain ⟨x, hx, hxu, he⟩ := ih1 k (nums ++ [0]) (by omega)
            exact ⟨x, List.mem_cons_of_mem _ hx, hxu, he⟩
        | cons d tl =>
          have hd : isDigit d = true :=
            hdig _ (List.mem_cons_self _ _) d (List.mem_cons_self _ _)
          have htl : ∀ x ∈ tl, isDigit x = true := fun x hx =>
            hdig _ (List.mem_cons_self _ _) x (List.mem_cons_of_mem _ hx)
          cases fuel with
          | zero => simp at hlen
          | succ k =>
            simp only [List.cons_append, List.length_cons, List.length_append] at hlen
            simp only [List.cons_append, List.append_assoc, escText, escLoop,
              isDigit_ne_semi hd, if_false, hd, if_true,
              readNum_run tl d 59 _ hd htl h59 hfit]
            rw [next_then_esc]
            obtain ⟨x, hx, hxu, he⟩ := ih1 k (nums ++ [Int.ofNat (digitsValue (d :: tl))])
              (by simp only [List.length_append, List.length_cons]; omega)
            exact ⟨x, List.mem_cons_of_mem _ hx, hxu, he⟩
    · -- this field is the first run that does not fit
      cases fld with
      | nil => exact absurd digitsValue_nil_fits hfit
      | cons d tl =>
        have hd : isDigit d = true :=
          hdig _ (List.mem_cons_self _ _) d (List.mem_cons_self _ _)
        have htl : ∀ x ∈ tl, isDigit x = true := fun x hx =>
          hdig _ (List.mem_cons_self _ _) x (List.mem_cons_of_mem _ hx)
        refine ⟨d :: tl, List.mem_cons_self _ _, hfit, ?_⟩
        cases fuel with
        | zero => simp at hlen
        | succ k =>
          cases more with
          | nil =>
            simp [List.intercalate, escText, escLoop, hd, isDigit_ne_semi hd,
              readNum_run_unfit tl d f rest hd htl hf hfit]
          | cons m ms =>
            rw [intercalate_cons_cons]
            simp only [List.cons_append, List.append_assoc, escText, escLoop,
              isDigit_ne_semi hd, if_false, hd, if_true,
              readNum_run_unfit tl d 59 _ hd htl h59 hfit]

/-- C20. For every parameter text `ps` (a string of ASCII digits and `;`) and
every final byte `f` (neither a digit nor `;`): when the digit runs of `ps`
each fit in an `int`, the parameter loop of `ParseAll` on `ESC [ ps f` stops at
`f` with exactly the reference list `refParams ps` (`ps` split at every `;`,
the last field dropped when it is empty, every other field read as its decimal
value and an empty field as 0), and `ParseAll` dispatches on that list; when
some digit run does not fit in an `int`, `ParseAll` fails with the
number-parse error of such a run.  The reference list of `""` is `[]`, of
`";5"` is `[0, 5]`, of `"17;"` is `[17]`, of `"1;;2"` is `[1, 0, 2]`; and
`ESC[99999999999999999999m` fails. -/
theorem C20_parameter_list (ps : List Nat) (f : Nat) (rest : List Nat)
    (hps : ∀ c ∈ ps, isDigit c = true ∨ c = 59)
    (hf : isDigit f = false) (hf59 : f ≠ 59) :
    ((∀ fld ∈ splitSemi ps, digitsValue fld ≤ maxInt) →
      escText (ps ++ f :: rest).length (ps ++ f :: rest) [] =
        some (.ok (refParams ps, ⟨rest, f⟩)) ∧
      ∀ seq, parseFrom ([27, 91] ++ ps ++ f :: rest) seq =
        match dispatch f (refParams ps) seq with
        | .error e => some (seq, e)
        | .ok seq1 => parseFrom rest seq1) ∧
    ((∃ fld ∈ splitSemi ps, ¬ digitsValue fld ≤ maxInt) →
      ∃ fld ∈ splitSemi ps, ¬ digitsValue fld ≤ maxInt ∧
        ParseAll ([27, 91] ++ ps ++ f :: rest) =
          some ([], some (Error.failedNumber fld))) ∧
    refParams [] = [] ∧ refParams [59, 53] = [0, 5] ∧ refParams [49, 55, 59] = [17] ∧
    refParams [49, 59, 59, 50] = [1, 0, 2] ∧
    ParseAll ([27, 91] ++ List.replicate 20 57 ++ [109]) =
      some ([], some (Error.failedNumber (List.replicate 20 57))) := by
  have e : [27, 91] ++ ps ++ f :: rest = esc :: 0x5b :: (ps ++ f :: rest) := rfl
  refine ⟨?_, ?_, by decide, by decide, by decide, by decide, rfl⟩
  · intro hfit
    constructor
    · have h := escText_fields (splitSemi ps) (ps ++ f :: rest).length f rest []
        (splitSemi_ne_nil ps) (splitSemi_digits ps hps) hfit hf hf59
        (by rw [intercalate_splitSemi])
      rw [intercalate_splitSemi, List.nil_append] at h
      exact h
    · intro seq
      rw [e]
      exact parseFrom_csi_text ps f rest seq hps hfit hf hf59
  · intro hun
    obtain ⟨fld, hm, hu, he⟩ := escText_unfit (splitSemi ps) (ps ++ f :: rest).length f rest []
      (splitSemi_digits ps hps) hun hf hf59 (by rw [intercalate_splitSemi])
    rw [intercalate_splitSemi] at he
    refine ⟨fld, hm, hu, ?_⟩
    rw [e, ParseAll_eq, parseFrom_csi, he]
    rfl

theorem C20_parameter_list_witness :
    ((∀ fld ∈ splitSemi [49, 59, 59, 50], digitsValue fld ≤ maxInt) →
      escText ([49, 59, 59, 50] ++ 72 :: [65]).length ([49, 59, 59, 50] ++ 72 :: [65]) [] =
        some (.ok (refParams [49, 59, 59, 50], ⟨[65], 72⟩)) ∧
      ∀ seq, parseFrom ([27, 91] ++ [49, 59, 59, 50] ++ 72 :: [65]) seq =
        match dispatch 72 (refParams [49, 59, 59, 50]) seq with
        | .error e => some (seq, e)
        | .ok seq1 => parseFrom [65] seq1) ∧
    ((∃ fld ∈ splitSemi [49, 59, 59, 50], ¬ digitsValue fld ≤ maxInt) →
      ∃ fld ∈ splitSemi [49, 59, 59, 50], ¬ digitsValue fld ≤ maxInt ∧
        ParseAll ([27, 91] ++ [49, 59, 59, 50] ++ 72 :: [65]) =
          some ([], some (Error.failedNumber fld))) ∧
    refParams [] = [] ∧ refParams [59, 53] = [0, 5] ∧ refParams [49, 55, 59] = [17] ∧
    refParams [49, 59, 59, 50] = [1, 0, 2] ∧
    ParseAll ([27, 91] ++ List.replicate 20 57 ++ [109]) =
      some ([], some (Error.failedNumber (List.replicate 20 57))) :=
  C20_parameter_list [49, 59, 59, 50] 72 [65] (by decide) (by decide) (by decide)

/-! ## The position of a cell write -/

/-- The indices of a cell write when neither `r.row - 1` nor `r.col - 1`
overflows: the cursor minus one, and 0 when that is negative. -/
theorem pen_clamped (r : Renderer) (hrow : -(2 ^ 63) < r.row ∧ r.row < 2 ^ 63)
    (hcol : -(2 ^ 63) < r.col ∧ r.col < 2 ^ 63) :
    r.penY = (max (r.row - 1) 0).toNat ∧ r.penX = (max (r.col - 1) 0).toNat := by
  have e1 : wrapInt (r.row - 1) = r.row - 1 := wrapInt_id _ (by omega) (by omega)
  have e2 : wrapInt (r.col - 1) = r.col - 1 := wrapInt_id _ (by omega) (by omega)
  unfold Renderer.penY Renderer.penX
  rw [e1, e2]
  constructor
  · split_ifs with h
    · rw [max_eq_right (by omega)]
    · rw [max_eq_left (by omega)]
  · split_ifs with h
    · rw [max_eq_right (by omega)]
    · rw [max_eq_left (by omega)]

/-- C21, as stated, fails: `ESC[9223372036854775807A ESC[2A` moves the cursor
of a fresh renderer to the row `r` that is the smallest `int`; there
`y := r.row - 1` wraps around to the largest `int`, which is not negative, so
`y` is 9223372036854775807 and not `max(r-1, 0) = 0`, the loop
`for len(r.rows) <= y` cannot end, and the write of `A` stores no cell and
sets no cursor: the call does not return.  The same happens through
`x := r.col - 1` at the column that is the smallest `int`, reached by
`ESC[9223372036854775807D ESC[2D`. -/
theorem C21_counterexample :
    ParseAll [27, 91, 57, 50, 50, 51, 51, 55, 50, 48, 51, 54, 56, 53, 52, 55, 55, 53, 56, 48,
        55, 65, 27, 91, 50, 65, 65] =
      some ([Sequence.CursorUp 9223372036854775807, Sequence.CursorUp 2,
        Sequence.Character 65], none) ∧
    NewRenderer.run [Sequence.CursorUp 9223372036854775807, Sequence.CursorUp 2] =
      ({ NewRenderer with row := -9223372036854775808 }, none) ∧
    (max ((-9223372036854775808 : Int) - 1) 0).toNat = 0 ∧
    Renderer.penY { NewRenderer with row := -9223372036854775808 } = 9223372036854775807 ∧
    Renderer.apply { NewRenderer with row := -9223372036854775808 } (Sequence.Character 65) =
      .error Failure.noReturn ∧
    RenderSequence [Sequence.CursorUp 9223372036854775807, Sequence.CursorUp 2,
        Sequence.Character 65] = .error Failure.noReturn ∧
    NewRenderer.run [Sequence.CursorBackward 9223372036854775807, Sequence.CursorBackward 2] =
      ({ NewRenderer with col := -9223372036854775808 }, none) ∧
    Renderer.apply { NewRenderer with col := -9223372036854775808 } (Sequence.Character 65) =
      .error Failure.noReturn :=
  ⟨rfl, rfl, by decide, by decide, rfl, rfl, rfl, rfl⟩

/-- C21, amended. For every renderer state reachable from a fresh renderer,
with cursor `(r, c)` (values of `int`), and every `Character ch` other than LF
and CR: when `r` or `c` is the smallest `int`, `r - 1` or `c - 1` wraps around
to the largest `int` and the write does not return; when neither is, the
write stores the cell at row index `max(r-1, 0)` and column index
`max(c-1, 0)`, changes no other cell, and then sets the cursor to `(r, c+1)`
before the line-wrap loop (which leaves that cursor alone when `c + 1` is
within the screen width).  Cursor motions are applied without clamping and a
cursor below 1 is never corrected; `[CursorUp(2), Character 'A', Character LF,
Character 'B']` on a fresh renderer yields a 1x1 image whose only cell holds
`B`. -/
theorem C21_cell_write_position (pre : List Sequence) (r : Renderer) (ch : Nat)
    (hreach : NewRenderer.run pre = (r, none)) (h1 : ch ≠ lf) (h2 : ch ≠ cr)
    (hrow : isInt r.row) (hcol : isInt r.col) :
    ((r.row = -(2 ^ 63) ∨ r.col = -(2 ^ 63)) →
      r.apply (Sequence.Character ch) = .error Failure.noReturn) ∧
    (-(2 ^ 63) < r.row → -(2 ^ 63) < r.col →
      r.apply (Sequence.Character ch) =
        .ok { r with
          rows := writeCell r.rows (max (r.row - 1) 0).toNat (max (r.col - 1) 0).toNat
            (r.cell ch),
          col := r.col + 1 } ∧
      cellAt (writeCell r.rows (max (r.row - 1) 0).toNat (max (r.col - 1) 0).toNat (r.cell ch))
        (max (r.row - 1) 0).toNat (max (r.col - 1) 0).toNat = r.cell ch ∧
      (∀ y x, ¬ (y = (max (r.row - 1) 0).toNat ∧ x = (max (r.col - 1) 0).toNat) →
        cellAt (writeCell r.rows (max (r.row - 1) 0).toNat (max (r.col - 1) 0).toNat
          (r.cell ch)) y x = cellAt r.rows y x) ∧
      (r.col + 1 ≤ r.screenWidth →
        r.step (Sequence.Character ch) =
          .ok { r with
            rows := writeCell r.rows (max (r.row - 1) 0).toNat (max (r.col - 1) 0).toNat
              (r.cell ch),
            col := r.col + 1 })) ∧
    (∀ n : Int, isInt (r.row - n) →
      r.apply (Sequence.CursorUp n) = .ok { r with row := r.row - n }) ∧
    (∀ n : Int, isInt (r.row + n) →
      r.apply (Sequence.CursorDown n) = .ok { r with row := r.row + n }) ∧
    (∀ n : Int, isInt (r.col + n) →
      r.apply (Sequence.CursorForward n) = .ok { r with col := r.col + n }) ∧
    (∀ n : Int, isInt (r.col - n) →
      r.apply (Sequence.CursorBackward n) = .ok { r with col := r.col - n }) ∧
    RenderSequence [Sequence.CursorUp 2, Sequence.Character 65, Sequence.Character lf,
        Sequence.Character 66] =
      .ok { Pix := [plainCell 66], Width := 1, Height := 1 } := by
  obtain ⟨hsw, hc80⟩ := run_inv pre NewRenderer r hreach (by decide)
  have hsw80 : r.screenWidth = 80 := hsw.trans rfl
  rw [hsw80] at hc80
  refine ⟨fun hmin => apply_char_stuck r ch h1 h2 (pen_stuck r hmin), ?_, ?_, ?_, ?_, ?_, rfl⟩
  · intro hr hc
    obtain ⟨py, px⟩ := pen_clamped r ⟨hr, hrow.2⟩ ⟨hc, hcol.2⟩
    obtain ⟨ey, ex⟩ := pen_ends r hrow hcol hr hc
    have e3 : wrapInt (r.col + 1) = r.col + 1 := wrapInt_id _ (by omega) (by omega)
    have ha : r.apply (Sequence.Character ch) =
        .ok { r with
          rows := writeCell r.rows (max (r.row - 1) 0).toNat (max (r.col - 1) 0).toNat
            (r.cell ch),
          col := r.col + 1 } := by
      rw [apply_char r ch h1 h2 ey ex, py, px, e3]
    refine ⟨ha, ?_, ?_, ?_⟩
    · rw [cellAt_writeCell, if_pos ⟨rfl, rfl⟩]
    · intro y x hne
      rw [cellAt_writeCell, if_neg hne]
    · intro hw
      exact step_of_apply_within ha hw
  · intro n a
    simp only [Renderer.apply, wrapInt_id _ a.1 a.2]
  · intro n a
    simp only [Renderer.apply, wrapInt_id _ a.1 a.2]
  · intro n a
    simp only [Renderer.apply, wrapInt_id _ a.1 a.2]
  · intro n a
    simp only [Renderer.apply, wrapInt_id _ a.1 a.2]

/-- C21 at a cursor above the first row: the fresh renderer after
`CursorUp(2)`, with cursor `(-1, 1)`, writes `A` at row index 0 and column
index 0 and keeps the row -1. -/
theorem C21_cell_write_position_witness :
    Renderer.apply { NewRenderer with row := -1 } (Sequence.Character 65) =
      .ok { NewRenderer with row := -1, col := 2, rows := [[plainCell 65]] } :=
  ((C21_cell_write_position [Sequence.CursorUp 2] { NewRenderer with row := -1 } 65 rfl
    (by decide) (by decide) ⟨by decide, by decide⟩ ⟨by decide, by decide⟩).2.1
    (by decide) (by decide)).1.trans rfl

/-! ## The colour state stays in range -/

theorem getD_nil_or_mem {α : Type} (l : List (List α)) (i : Nat) :
    l.getD i [] = [] ∨ l.getD i [] ∈ l := by
  by_cases h : i < l.length
  · right
    rw [List.getD_eq_getElem _ _ h]
    exact List.getElem_mem h
  · left
    exact List.getD_eq_default _ _ (not_lt.1 h)

/-- A property of cells that holds for `Pixel{}`, for the written cell and for
every stored cell holds for every cell after the write. -/
theorem writeCell_all (P : Pixel → Prop) (rows : List (List Pixel)) (y x : Nat) (px : Pixel)
    (h : ∀ row ∈ rows, ∀ p ∈ row, P p) (hpx : P px) (hz : P Pixel.zero) :
    ∀ row ∈ writeCell rows y x px, ∀ p ∈ row, P p := by
  have hall : ∀ row ∈ rows ++ List.replicate (y + 1 - rows.length) [], ∀ p ∈ row, P p := by
    intro row hr p hp
    rcases List.mem_append.1 hr with a | a
    · exact h row a p hp
    · rw [List.eq_of_mem_replicate a] at hp
      exact absurd hp (List.not_mem_nil _)
  intro row hrow p hp
  unfold writeCell at hrow
  rcases List.mem_or_eq_of_mem_set hrow with a | a
  · exact hall row a p hp
  · subst a
    rcases List.mem_or_eq_of_mem_set hp with b | b
    · rcases List.mem_append.1 b with c | c
      · rcases getD_nil_or_mem (rows ++ List.replicate (y + 1 - rows.length) []) y with e | e
        · rw [e] at c
          exact absurd c (List.not_mem_nil _)
        · exact hall _ e p c
      · rw [List.eq_of_mem_replicate c]
        exact hz
    · rw [b]
      exact hpx

/-- The type switch keeps the colour state in range. -/
theorem apply_colours {r r1 : Renderer} {s : Sequence} (h : r.apply s = .ok r1)
    (hc : r.coloursInRange) : r1.coloursInRange := by
  obtain ⟨c1, c2, c3, c4⟩ := hc
  cases s with
  | Character c =>
    simp only [Renderer.apply] at h
    split_ifs at h <;> cases h <;> exact ⟨c1, c2, c3, c4⟩
  | Clear t =>
    simp only [Renderer.apply] at h
    split_ifs at h
    cases h
    exact ⟨c1, c2, c3, c4⟩
  | SelectGraphicsRendition n =>
    simp only [Renderer.apply, GraphicsRenditionSetTextColor0, GraphicsRenditionSetTextColor7,
      GraphicsRenditionSetBackgroundColor0, GraphicsRenditionSetBackgroundColor7] at h
    split_ifs at h with a1 a2 a3 a4 a5 a6 a7 <;> cases h
    · exact ⟨show (7 : Nat) ≤ 7 by decide, show (0 : Nat) ≤ 7 by decide, Or.inl rfl, c4⟩
    · exact ⟨c1, c2, Or.inr rfl, c4⟩
    · exact ⟨show (7 : Nat) ≤ 7 by decide, c2, Or.inl rfl, c4⟩
    · refine ⟨?_, c2, c3, c4⟩
      show (n - 30) % 256 ≤ 7
      omega
    · refine ⟨c1, ?_, c3, c4⟩
      show (n - 40) % 256 ≤ 7
      omega
    · exact ⟨c1, c2, c3, c4⟩
    · exact ⟨c1, c2, c3, c4⟩
  | RestoreCursorPosition =>
    simp only [Renderer.apply] at h
    split at h
    · cases h
    · cases h
      exact ⟨c1, c2, c3, c4⟩
  | Other => cases h
  | _ =>
    cases h
    exact ⟨c1, c2, c3, c4⟩

/-- A successful operation keeps the colour state in range. -/
theorem step_colours {r r1 : Renderer} {s : Sequence} (h : r.step s = .ok r1)
    (hc : r.coloursInRange) : r1.coloursInRange := by
  obtain ⟨r0, row, col, ha, rfl⟩ := step_apply h
  exact (apply_colours ha hc : r0.coloursInRange)

/-- The cell written under a colour state in range: the byte sums do not
overflow and are indices into the palette. -/
theorem cell_inPalette (r : Renderer) (hc : r.coloursInRange) (c : Nat) :
    (r.cell c).ForegroundColor = r.fgColor + r.fgBold ∧
    (r.cell c).BackgroundColor = r.bgColor + r.bgBold ∧ (r.cell c).inPalette := by
  obtain ⟨c1, c2, c3, c4⟩ := hc
  have e1 : (r.cell c).ForegroundColor = (r.fgColor + r.fgBold) % 256 := rfl
  have e2 : (r.cell c).BackgroundColor = (r.bgColor + r.bgBold) % 256 := rfl
  unfold Pixel.inPalette
  rw [e1, e2]
  omega

/-- A successful operation keeps the cells of the row storage in the palette. -/
theorem step_palette {r r1 : Renderer} {s : Sequence} (h : r.step s = .ok r1)
    (hc : r.coloursInRange) (hp : ∀ row ∈ r.rows, ∀ p ∈ row, Pixel.inPalette p) :
    ∀ row ∈ r1.rows, ∀ p ∈ row, Pixel.inPalette p := by
  rcases step_rows h with ⟨c, _, _, e⟩ | ⟨_, e⟩ | ⟨_, _, e⟩
  · rw [e]
    exact writeCell_all Pixel.inPalette _ _ _ _ hp (cell_inPalette r hc c).2.2
      ⟨by decide, by decide⟩
  · rw [e]
    intro row hr
    exact absurd hr (List.not_mem_nil _)
  · rw [e]
    exact hp

/-- The state in which a run ends, with or without a failure, has its colour
state in range and its stored cells in the palette when the starting state has. -/
theorem run_colours : ∀ (seq : List Sequence) (r : Renderer), r.coloursInRange →
    (∀ row ∈ r.rows, ∀ p ∈ row, Pixel.inPalette p) →
    (r.run seq).1.coloursInRange ∧
      ∀ row ∈ (r.run seq).1.rows, ∀ p ∈ row, Pixel.inPalette p := by
  intro seq
  induction seq with
  | nil => intro r hc hp; exact ⟨hc, hp⟩
  | cons s rest ih =>
    intro r hc hp
    cases hs : r.step s with
    | error f =>
      simp only [Renderer.run, hs]
      exact ⟨hc, hp⟩
    | ok r1 =>
      simp only [Renderer.run, hs]
      exact ih r1 (step_colours hs hc) (step_palette hs hc hp)

/-- Every cell of the image is a stored cell or `Pixel{}`. -/
theorem imageOf_mem (rows : List (List Pixel)) (p : Pixel) (h : p ∈ (imageOf rows).Pix) :
    p = Pixel.zero ∨ ∃ row ∈ rows, p ∈ row := by
  rw [imageOf_eq] at h
  simp only [List.mem_flatten, List.mem_map] at h
  obtain ⟨l, ⟨row, hrow, rfl⟩, hp⟩ := h
  unfold padRow at hp
  rcases List.mem_append.1 hp with a | a
  · exact Or.inr ⟨row, hrow, a⟩
  · exact Or.inl (List.eq_of_mem_replicate a)

/-- C22. In every renderer state `r` reachable from a fresh renderer by an
operation sequence (the state in which the loop over the sequence ends, with
a failure `f` or without one): the foreground base and the background base are
between 0 and 7, the foreground bold offset is 0 or 8 and the background bold
offset is 0; the byte sums of base and offset do not overflow, so the cell
written for any byte has foreground `fgColor + fgBold`, at most 15, and
background `bgColor + bgBold`, at most 7; and every cell of the image of the
state, so of every image that `RenderSequence` returns, has foreground index
at most 15 and background index at most 7. -/
theorem C22_colour_ranges (seq : List Sequence) (r : Renderer) (f : Option Failure)
    (h : NewRenderer.run seq = (r, f)) :
    (r.fgColor ≤ 7 ∧ r.bgColor ≤ 7 ∧ (r.fgBold = 0 ∨ r.fgBold = 8) ∧ r.bgBold = 0) ∧
    (r.fgColor + r.fgBold < 256 ∧ r.bgColor + r.bgBold < 256) ∧
    (∀ c, (r.cell c).ForegroundColor = r.fgColor + r.fgBold ∧
      (r.cell c).BackgroundColor = r.bgColor + r.bgBold ∧
      (r.cell c).ForegroundColor ≤ 15 ∧ (r.cell c).BackgroundColor ≤ 7) ∧
    (∀ px ∈ (imageOf r.rows).Pix, px.ForegroundColor ≤ 15 ∧ px.BackgroundColor ≤ 7) ∧
    (∀ img, RenderSequence seq = .ok img →
      ∀ px ∈ img.Pix, px.ForegroundColor ≤ 15 ∧ px.BackgroundColor ≤ 7) := by
  have h0 : NewRenderer.coloursInRange := ⟨by decide, by decide, Or.inl rfl, rfl⟩
  have hrows : ∀ row ∈ NewRenderer.rows, ∀ p ∈ row, Pixel.inPalette p :=
    fun row hr => absurd hr (List.not_mem_nil _)
  have hrun := run_colours seq NewRenderer h0 hrows
  rw [h] at hrun
  have hc : r.coloursInRange := hrun.1
  have hp : ∀ row ∈ r.rows, ∀ p ∈ row, Pixel.inPalette p := hrun.2
  have himg : ∀ px ∈ (imageOf r.rows).Pix, px.ForegroundColor ≤ 15 ∧ px.BackgroundColor ≤ 7 := by
    intro px hpx
    rcases imageOf_mem r.rows px hpx with e | ⟨row, hrow, hin⟩
    · rw [e]
      exact ⟨by decide, by decide⟩
    · exact hp row hrow px hin
  refine ⟨hc, ?_, fun c => cell_inPalette r hc c, himg, ?_⟩
  · obtain ⟨c1, c2, c3, c4⟩ := hc
    omega
  · intro img hok
    obtain ⟨r2, hr2, rfl⟩ := RenderSequence_ok hok
    rw [h] at hr2
    cases hr2
    exact himg

/-- C22 where both bounds are attained: after bold and background 47 the
written cell has foreground index 15 and background index 7. -/
theorem C22_colour_ranges_witness :
    RenderSequence [Sequence.SelectGraphicsRendition 1, Sequence.SelectGraphicsRendition 47,
        Sequence.Character 65] =
      .ok { Pix := [Pixel.mk 65 7 15 Blink.BlinkNone], Width := 1, Height := 1 } ∧
    ∀ px ∈ [Pixel.mk 65 7 15 Blink.BlinkNone],
      px.ForegroundColor ≤ 15 ∧ px.BackgroundColor ≤ 7 :=
  ⟨rfl, (C22_colour_ranges
    [Sequence.SelectGraphicsRendition 1, Sequence.SelectGraphicsRendition 47,
      Sequence.Character 65]
    { NewRenderer with
      rows := [[Pixel.mk 65 7 15 Blink.BlinkNone]], col := 2, fgBold := 8, bgColor := 7 }
    none rfl).2.2.2.2 _ rfl⟩

/-! ## The columns of the cell writes -/

/-- The rows stay within `N` cells when the write is at a column index below
`N`. -/
theorem writeCell_lengths (rows : List (List Pixel)) (y x : Nat) (px : Pixel) (N : Nat)
    (h : ∀ row ∈ rows, row.length ≤ N) (hx : x < N) :
    ∀ row ∈ writeCell rows y x px, row.length ≤ N := by
  have hall : ∀ row ∈ rows ++ List.replicate (y + 1 - rows.length) [], row.length ≤ N := by
    intro row hr
    rcases List.mem_append.1 hr with a | a
    · exact h row a
    · rw [List.eq_of_mem_replicate a]
      exact Nat.zero_le _
  intro row hrow
  unfold writeCell at hrow
  rcases List.mem_or_eq_of_mem_set hrow with a | a
  · exact hall row a
  · subst a
    have hg : ((rows ++ List.replicate (y + 1 - rows.length) []).getD y []).length ≤ N := by
      rcases getD_nil_or_mem (rows ++ List.replicate (y + 1 - rows.length) []) y with e | e
      · rw [e]
        exact Nat.zero_le _
      · exact hall _ e
    simp only [List.length_set, List.length_append, List.length_replicate]
    omega

/-- The column index of a write made with the cursor column at most 80 and
above the smallest `int` is at most 79. -/
theorem penX_le (r : Renderer) (h1 : r.col ≤ 80) (h2 : -(2 ^ 63) < r.col) : r.penX ≤ 79 := by
  have e : wrapInt (r.col - 1) = r.col - 1 := wrapInt_id _ (by omega) (by omega)
  unfold Renderer.penX
  rw [e]
  split_ifs <;> omega

/-- A cell write that returns, made with the cursor column an `int` of at most
80, was at a column index of at most 79: at the smallest `int` the write does
not return. -/
theorem write_column {r r1 : Renderer} {c : Nat} (h1 : c ≠ lf) (h2 : c ≠ cr)
    (h : r.apply (Sequence.Character c) = .ok r1) (hcol : r.col ≤ 80)
    (hint : -(2 ^ 63) ≤ r.col) :
    r.penX ≤ 79 ∧ r1.rows = writeCell r.rows r.penY r.penX (r.cell c) := by
  obtain ⟨_, hx, e⟩ := apply_char_ok h1 h2 h
  have hmin : -(2 ^ 63) < r.col := by
    by_cases a : r.col = -(2 ^ 63)
    · exfalso
      apply hx
      unfold Renderer.penX wrapInt
      rw [a, maxInt_eq]
      decide
    · omega
  exact ⟨penX_le r hcol hmin, by rw [e]⟩

/-- Along a run of operations whose `int` fields are values of `int`, from a
state with screen width 80, the column at most 80 and rows of at most 80
cells, the rows keep at most 80 cells. -/
theorem run_widths : ∀ (seq : List Sequence) (r r2 : Renderer), r.run seq = (r2, none) →
    r.fitsInt → (∀ s ∈ seq, s.fitsInt) → r.screenWidth = 80 → r.col ≤ 80 →
    (∀ row ∈ r.rows, row.length ≤ 80) → ∀ row ∈ r2.rows, row.length ≤ 80 := by
  intro seq
  induction seq with
  | nil =>
    intro r r2 h _ _ _ _ hrows
    cases h
    exact hrows
  | cons s rest ih =>
    intro r r2 h hfit hints hsw hcol hrows
    obtain ⟨r1, hs, hrest⟩ := run_cons_ok h
    obtain ⟨f1, _, _, f4⟩ := step_facts hs
    refine ih r1 r2 hrest (step_fitsInt hs hfit (hints s (List.mem_cons_self _ _)))
      (fun x hx => hints x (List.mem_cons_of_mem _ hx)) (f1.trans hsw)
      (by rw [f1, hsw] at f4; exact f4) ?_
    rcases step_rows hs with ⟨c, e, hi, er⟩ | ⟨_, er⟩ | ⟨_, _, er⟩
    · subst e
      rw [er]
      obtain ⟨r0, row, col, ha, _⟩ := step_apply hs
      have hx := (write_column hi.1 hi.2 ha hcol hfit.2.1.1).1
      exact writeCell_lengths _ _ _ _ 80 hrows (by omega)
    · rw [er]
      intro row hr
      exact absurd hr (List.not_mem_nil _)
    · rw [er]
      exact hrows

/-- The width of the image is at most `N` when every row has at most `N`
cells. -/
theorem imageOf_width_le (rows : List (List Pixel)) (N : Nat)
    (h : ∀ row ∈ rows, row.length ≤ N) : (imageOf rows).Width ≤ N := by
  rw [imageOf_eq]
  show maxRowLength rows ≤ N
  rcases maxRowLength_attained rows with e | ⟨row, hr, e⟩
  · rw [e]
    exact Nat.zero_le _
  · rw [← e]
    exact h row hr

/-- C23. In every state `r` that a run from a fresh renderer reaches (by
operations whose `int` fields are values of `int`) the cursor column is at
most 80, and every operation that the type switch accepts there ends, after
the line-wrap loop, with the cursor column at most 80 again.  So every cell
write happens at a column index of at most 79 (at the one column where
`r.col - 1` would wrap around, the smallest `int`, the write does not return),
every row has at most 80 cells and the Width of every image rendered from a
fresh renderer is at most 80, whatever cursor motions the sequence
contains. -/
theorem C23_column_bound (seq : List Sequence) (r : Renderer)
    (hints : ∀ s ∈ seq, s.fitsInt) (hrun : NewRenderer.run seq = (r, none)) :
    r.col ≤ 80 ∧
    (∀ s r0, r.apply s = .ok r0 → ∃ r1, r.step s = .ok r1 ∧ r1.col ≤ 80) ∧
    (∀ s r1, r.step s = .ok r1 → r1.col ≤ 80) ∧
    (∀ c r1, c ≠ lf → c ≠ cr → r.apply (Sequence.Character c) = .ok r1 →
      r.penX ≤ 79 ∧ r1.rows = writeCell r.rows r.penY r.penX (r.cell c)) ∧
    (∀ row ∈ r.rows, row.length ≤ 80) ∧ (imageOf r.rows).Width ≤ 80 ∧
    (∀ img, RenderSequence seq = .ok img → img.Width ≤ 80) := by
  have hfresh : NewRenderer.fitsInt :=
    ⟨⟨by decide, by decide⟩, ⟨by decide, by decide⟩, fun p hp => absurd hp (List.not_mem_nil _)⟩
  obtain ⟨hsw, hcol⟩ := run_inv seq NewRenderer r hrun (by decide)
  have hsw80 : r.screenWidth = 80 := hsw.trans rfl
  rw [hsw80] at hcol
  have hfit : r.fitsInt := by
    have := run_fitsInt seq NewRenderer r hrun hfresh hints
    exact this
  have hrows : ∀ row ∈ r.rows, row.length ≤ 80 :=
    run_widths seq NewRenderer r hrun hfresh hints rfl (by decide)
      (fun row hr => absurd hr (List.not_mem_nil _))
  refine ⟨hcol, ?_, ?_, ?_, hrows, imageOf_width_le r.rows 80 hrows, ?_⟩
  · intro s r0 ha
    have e0 : r0.screenWidth = 80 := (apply_facts ha).1.trans hsw80
    obtain ⟨row1, col1, hs, hc⟩ := step_of_apply ha (by rw [e0]; decide)
    refine ⟨_, hs, ?_⟩
    obtain ⟨f1, _, _, f4⟩ := step_facts hs
    rw [f1, hsw80] at f4
    exact f4
  · intro s r1 hs
    obtain ⟨f1, _, _, f4⟩ := step_facts hs
    rw [f1, hsw80] at f4
    exact f4
  · intro c r1 h1 h2 ha
    exact write_column h1 h2 ha hcol hfit.2.1.1
  · intro img hok
    obtain ⟨r2, hr2, rfl⟩ := RenderSequence_ok hok
    rw [hrun] at hr2
    cases hr2
    exact imageOf_width_le r.rows 80 hrows

/-- C23 on a motion far to the right: after `CursorForward(200)` the cursor
is at column 41 of row 3, the write of `A` happens at column index 40 and the
image is 41 cells wide. -/
theorem C23_column_bound_witness :
    NewRenderer.run [Sequence.CursorForward 200, Sequence.Character 65] =
      ({ NewRenderer with
          rows := [[], [], List.replicate 40 Pixel.zero ++ [plainCell 65]],
          row := 3, col := 42 }, none) ∧
    (imageOf [[], [], List.replicate 40 Pixel.zero ++ [plainCell 65]]).Width ≤ 80 :=
  ⟨rfl, (C23_column_bound [Sequence.CursorForward 200, Sequence.Character 65]
    { NewRenderer with
        rows := [[], [], List.replicate 40 Pixel.zero ++ [plainCell 65]],
        row := 3, col := 42 }
    (by
      intro s hs
      simp only [List.mem_cons, List.mem_singleton, List.not_mem_nil, or_false] at hs
      rcases hs with rfl | rfl
      · exact ⟨by decide, by decide⟩
      · exact trivial)
    rfl).2.2.2.2.2.1⟩

/-! ## Parameters that become bytes -/

/-- The byte conversion of a value that is not negative is its remainder
modulo 256. -/
theorem toByte_mod (v : Nat) : toByte (Int.ofNat v) = v % 256 := by
  unfold toByte
  have h : (Int.ofNat v) % 256 = ((v % 256 : Nat) : Int) := by
    simp
  rw [h]
  exact Int.toNat_ofNat _

/-- The parse of one control sequence with a single decimal parameter `d` that
fits in an `int`, followed by nothing. -/
theorem ParseAll_one_param (d : List Nat) (f : Nat) (hne : d ≠ [])
    (hdig : ∀ x ∈ d, isDigit x = true) (hfit : digitsValue d ≤ maxInt)
    (hf : isDigit f = false) (hf59 : f ≠ 59) :
    ParseAll ([27, 91] ++ d ++ [f]) =
      match dispatch f [Int.ofNat (digitsValue d)] [] with
      | .error e => some ([], if e = Error.EOF then none else some e)
      | .ok seq1 => some (seq1, none) := by
  have h := parseFrom_csi_fields [d] f [] [] (by simp)
    (by intro p hp; rw [List.mem_singleton.1 hp]; exact hdig)
    (by intro p hp; rw [List.mem_singleton.1 hp]; exact hfit) hf hf59
  have hfp : fieldParams [d] = [Int.ofNat (digitsValue d)] := by
    simp [fieldParams, dropLastEmpty, hne]
  rw [hfp] at h
  have e : [27, 91] ++ d ++ [f] = esc :: 0x5b :: (List.intercalate [59] [d] ++ [f]) := by
    simp [List.intercalate, esc]
  rw [ParseAll_eq, e, h]
  cases hd : dispatch f [Int.ofNat (digitsValue d)] [] with
  | error e => rfl
  | ok seq1 =>
    simp only [parseFrom_nil]
    rfl

/-- C24. For every decimal parameter `p` (a non-empty run of ASCII digits)
whose value fits in an `int`, `ParseAll` on `ESC[ p m` returns the single
operation `SelectGraphicsRendition` with code `p mod 256` and no error, and on
`ESC[ p J` the single operation `Clear` with kind `p mod 256` and no error;
`ESC[256m` parses to the same result as `ESC[0m`, the reset, and `ESC[258J`
to the same result as `ESC[2J`, the clear of the screen. -/
theorem C24_parameter_to_byte (d : List Nat) (hne : d ≠ [])
    (hdig : ∀ x ∈ d, isDigit x = true) (hfit : digitsValue d ≤ maxInt) :
    ParseAll ([27, 91] ++ d ++ [109]) =
      some ([Sequence.SelectGraphicsRendition (digitsValue d % 256)], none) ∧
    ParseAll ([27, 91] ++ d ++ [74]) = some ([Sequence.Clear (digitsValue d % 256)], none) ∧
    ParseAll [27, 91, 50, 53, 54, 109] = ParseAll [27, 91, 48, 109] ∧
    ParseAll [27, 91, 48, 109] =
      some ([Sequence.SelectGraphicsRendition GraphicsRenditionReset], none) ∧
    ParseAll [27, 91, 50, 53, 56, 74] = ParseAll [27, 91, 50, 74] ∧
    ParseAll [27, 91, 50, 74] = some ([Sequence.Clear ClearTypeScreen], none) := by
  refine ⟨?_, ?_, rfl, rfl, rfl, rfl⟩
  · rw [ParseAll_one_param d 109 hne hdig hfit (by decide) (by decide)]
    simp [dispatch]
    exact toByte_mod _
  · rw [ParseAll_one_param d 74 hne hdig hfit (by decide) (by decide)]
    simp [dispatch]
    exact toByte_mod _

/-- C24 at the parameter 293: `ESC[293m` parses to `SelectGraphicsRendition`
with code 37 and `ESC[293J` to `Clear` with kind 37. -/
theorem C24_parameter_to_byte_witness :
    ParseAll [27, 91, 50, 57, 51, 109] = some ([Sequence.SelectGraphicsRendition 37], none) ∧
    ParseAll [27, 91, 50, 57, 51, 74] = some ([Sequence.Clear 37], none) :=
  ⟨(C24_parameter_to_byte [50, 57, 51] (by decide) (by decide) (by decide)).1,
    (C24_parameter_to_byte [50, 57, 51] (by decide) (by decide) (by decide)).2.1⟩

/-! ## Calls of the method on one renderer -/

/-- A call of the method that returns an image leaves the renderer in the
state in which the loop over the sequence ended. -/
theorem method_ok {r : Renderer} {seq : List Sequence} {img : Image}
    (h : (r.RenderSequence seq).2 = .ok img) :
    r.run seq = ((r.RenderSequence seq).1, none) := by
  unfold Renderer.RenderSequence at h ⊢
  rcases hrun : r.run seq with ⟨r1, f⟩
  rw [hrun] at h
  cases f with
  | none => rfl
  | some f => cases h

/-- Two calls of the method in a row, the first of which returns an image, are
one call on the concatenated sequence: same final state, same result. -/
theorem method_append (r : Renderer) (s1 s2 : List Sequence) (img : Image)
    (h : (r.RenderSequence s1).2 = .ok img) :
    (r.RenderSequence s1).1.RenderSequence s2 = r.RenderSequence (s1 ++ s2) := by
  have h1 := method_ok h
  have h2 : r.run (s1 ++ s2) = (r.RenderSequence s1).1.run s2 := by
    rw [run_append, h1]
  unfold Renderer.RenderSequence at h2 ⊢
  rw [h2]

/-- C25. For all operation sequences `s1` and `s2` where the call with `s1`
on a renderer created by `NewRenderer` returns an image: the call with `s2` on
the same renderer afterwards returns the same result as the package-level
`RenderSequence` on `s1 ++ s2` (and leaves the renderer in the same state as
one call with `s1 ++ s2`); and with `Reset` between the two calls the second
call returns the same result as the package-level `RenderSequence` on `s2`,
whatever the first call was given and whatever it returned. -/
theorem C25_state_persists (s1 s2 : List Sequence) (img : Image)
    (h : (NewRenderer.RenderSequence s1).2 = .ok img) :
    ((NewRenderer.RenderSequence s1).1.RenderSequence s2).2 = RenderSequence (s1 ++ s2) ∧
    (NewRenderer.RenderSequence s1).1.RenderSequence s2 =
      NewRenderer.RenderSequence (s1 ++ s2) ∧
    ((NewRenderer.RenderSequence s1).1.Reset.RenderSequence s2).2 = RenderSequence s2 ∧
    (∀ t : List Sequence,
      ((NewRenderer.RenderSequence t).1.Reset.RenderSequence s2).2 = RenderSequence s2) := by
  have hm := method_append NewRenderer s1 s2 img h
  refine ⟨?_, hm, rfl, fun t => rfl⟩
  unfold RenderSequence
  rw [hm]

/-- C25 on two one-character calls: after the call with `A`, the call with `B`
returns the image of `AB`; after `Reset` it returns the image of `B` alone. -/
theorem C25_state_persists_witness :
    ((NewRenderer.RenderSequence [Sequence.Character 65]).1.RenderSequence
        [Sequence.Character 66]).2 =
      .ok { Pix := [plainCell 65, plainCell 66], Width := 2, Height := 1 } ∧
    ((NewRenderer.RenderSequence [Sequence.Character 65]).1.Reset.RenderSequence
        [Sequence.Character 66]).2 =
      .ok { Pix := [plainCell 66], Width := 1, Height := 1 } :=
  ⟨(C25_state_persists [Sequence.Character 65] [Sequence.Character 66]
      { Pix := [plainCell 65], Width := 1, Height := 1 } rfl).1.trans rfl,
    (C25_state_persists [Sequence.Character 65] [Sequence.Character 66]
      { Pix := [plainCell 65], Width := 1, Height := 1 } rfl).2.2.1.trans rfl⟩

end Ansi
